import Mathlib

/-!
# DeepDetect supervised output connector

A shallow embedding of `src/supervisedoutputconnector.h` (class `dd::SupervisedOutput`)
and a verification of its result aggregation (`add_results`), best-k selection
(`best_cats`), serialization (`to_ad`) and metrics (`acc`, `acc_v`, `multilabel_acc`,
`multilabel_acc_soft`, `mf1`, `auc`, `mcll`, `mcc`, `eucll`, `gini`).

Modelling conventions.

* `double` values are rationals (`ℚ`): every finite double is a rational and the
  order on doubles is the order on those rationals.  The inputs are finite; NaN and
  the infinities occur as results of the metrics only (see below).
* `std::multimap<double,T,std::greater<double>>` is the list of its entries in
  iteration order together with the proof that the keys are non-increasing
  (`multimap`).  `insert` places a new entry after every entry whose key is not
  smaller (the upper bound of its equal range), as the standard requires.
* `std::unordered_map<std::string,int>` is an association list with unique keys, in
  insertion order (`unordered_map`); only `find`, `insert` and increment through an
  iterator are used by the source.
* `std::vector<T>` is `List T`; `at(i)` is `l[i]?` and an out-of-range access makes
  the operation fail (`none`).  Dereferencing or advancing an iterator that is at
  `end()` makes the operation fail as well.
* `int` is `Int`; container sizes are assumed to fit in an `int`, as the source's
  `static_cast<int>(size())` does.  Where the source computes in `int` on values that
  can leave its range (`auc`), the result is reduced with `wrap32`.
* Arithmetic on doubles is exact.  A division by zero or a logarithm of a number that
  is not positive yields an infinity or NaN: a value that may be one of these is an
  `Option ℚ`, `none` standing for every value that is not a finite double.
* A metric that throws or leaves defined behaviour returns `Except.error` with the
  `Failure` that says which.
* `std::sqrt`, `std::log` and `std::partial_sort` are parameters of the metrics that
  call them; what the statements need of them (`sqrt 1 = 1`, `sqrt` not zero above
  0, `sqrt` exact on the squares of whole numbers and monotone on whole numbers,
  `log 1 = 0`, the postcondition `PartialSorted`) is a hypothesis.
* `std::stable_sort` is the function `stable_sort`: the comparison of `comp_gini`
  determines its result.  The two quotients of `comp_gini_normalized` divide by the
  same `sum` and are finite or not together, so no number comes out of an infinity
  there.
* `to_ad` is the build without `USE_SIMSEARCH`.
* The value under the key `target` of a batch entry is a scalar (`Sample`) or a vector
  (`VSample`) as the metric reads it; `eucll`, which reads either, takes the tagged
  value `TargetValue`.
* Where a quotient by zero is divided again (`harmmean` of `multilabel_acc`), the
  intermediate infinity is kept (`XDouble`): a quotient by an infinity is a number.
* `float` values (the scores of `auc`) are the rationals `to_float` yields: 24
  significant bits, the subnormal steps of `2^-149` below `2^-126`, and `2^128` and
  `-2^128` standing for the two infinities.  `auc` compares floats and does no
  arithmetic on them.
* An array declared without initializer (`multilabel_acc_soft`) is a list of
  `Option ℚ`, `none` for an entry that was never written.  An access outside the
  array and a read of such an entry leave defined behaviour.
-/

namespace dd

/-! ## Containers -/

/-- Keys of a `std::multimap<double,T,std::greater<double>>` are non-increasing in
iteration order. -/
def Desc {α : Type} (l : List (ℚ × α)) : Prop :=
  l.Pairwise (fun a b => b.1 ≤ a.1)

instance {α : Type} (l : List (ℚ × α)) : Decidable (Desc l) := by
  unfold Desc; infer_instance

/-- Position-preserving insertion under `std::greater<double>`: the new entry goes
right before the first entry with a strictly smaller key. -/
def mm_insert {α : Type} (kv : ℚ × α) : List (ℚ × α) → List (ℚ × α)
  | [] => [kv]
  | e :: l => if e.1 < kv.1 then kv :: e :: l else e :: mm_insert kv l

theorem mm_insert_mem {α : Type} (kv x : ℚ × α) (l : List (ℚ × α)) :
    x ∈ mm_insert kv l ↔ x = kv ∨ x ∈ l := by
  induction l with
  | nil => simp [mm_insert]
  | cons e l ih =>
    unfold mm_insert
    split
    · simp
    · simp only [List.mem_cons, ih]; tauto

theorem mm_insert_desc {α : Type} (kv : ℚ × α) (l : List (ℚ × α)) (h : Desc l) :
    Desc (mm_insert kv l) := by
  induction l with
  | nil => simp [mm_insert, Desc]
  | cons e l ih =>
    unfold Desc at h ih ⊢
    rw [List.pairwise_cons] at h
    unfold mm_insert
    split
    · rename_i hlt
      refine List.pairwise_cons.2 ⟨?_, List.pairwise_cons.2 h⟩
      intro b hb
      rcases List.mem_cons.1 hb with rfl | hb
      · exact le_of_lt hlt
      · exact le_trans (h.1 b hb) (le_of_lt hlt)
    · rename_i hnlt
      refine List.pairwise_cons.2 ⟨?_, ih h.2⟩
      intro b hb
      rcases (mm_insert_mem kv b l).1 hb with rfl | hb
      · exact not_lt.1 hnlt
      · exact h.1 b hb

/-- The container `std::multimap<double,T,std::greater<double>>`. -/
abbrev multimap (α : Type) := { l : List (ℚ × α) // Desc l }

namespace multimap

/-- A default-constructed multimap. -/
def empty {α : Type} : multimap α := ⟨[], List.Pairwise.nil⟩

/-- Member `insert(std::pair<double,T>)`. -/
def insert {α : Type} (m : multimap α) (kv : ℚ × α) : multimap α :=
  ⟨mm_insert kv m.1, mm_insert_desc kv m.1 m.2⟩

/-- Member `size()`. -/
def size {α : Type} (m : multimap α) : Nat := m.1.length

/-- Member `empty()`. -/
def isEmpty {α : Type} (m : multimap α) : Bool := m.1.isEmpty

end multimap

/-- Algorithm `std::copy_n(src.begin(), n, std::inserter(dst, dst.end()))`: nothing is
copied when `n` is not positive; each copied entry is inserted into `dst`.  The
entries arrive in the iteration order of `src`, for which the insertion hinted at
`end()` and the plain insertion choose the same place. -/
def copy_n {α : Type} (src : multimap α) (n : Int) (dst : multimap α) : multimap α :=
  (src.1.take n.toNat).foldl multimap.insert dst

/-- The container `std::unordered_map<std::string,int>`, entries in insertion order. -/
abbrev unordered_map := List (String × Int)

namespace unordered_map

/-- Member `find(key)`: the mapped value, `none` for `end()`. -/
def find (m : unordered_map) (key : String) : Option Int := m.lookup key

/-- Member `insert(std::pair)`: no effect when the key is already present. -/
def insert (m : unordered_map) (key : String) (v : Int) : unordered_map :=
  match m.lookup key with
  | some _ => m
  | none => m ++ [(key, v)]

/-- Statement `(*it).second += 1` for the iterator `it` returned by `find(key)`. -/
def incr (m : unordered_map) (key : String) : unordered_map :=
  m.map (fun e => if e.1 = key then (e.1, e.2 + 1) else e)

end unordered_map

/-! ## Payloads -/

/-- The bounding-box data object: keys `xmin`, `ymin`, `xmax`, `ymax`. -/
structure BBox where
  xmin : ℚ
  ymin : ℚ
  xmax : ℚ
  ymax : ℚ
deriving DecidableEq, Repr

/-- The extra data object of a prediction (key `vals`, a vector of doubles). -/
abbrev Vals := List ℚ

/-! ## Output documents -/

/-- Modelled from the spec: a value stored under a key of the data-exchange container
(class `APIData`, which is not part of the source file), as far as the per-rank
entries written by `to_ad` need it: a string, a double, a boolean, a bounding-box
object or a vector of doubles. -/
inductive ad_value where
  | str (s : String)
  | num (x : ℚ)
  | flag (b : Bool)
  | bbox (b : BBox)
  | vec (v : List ℚ)
deriving DecidableEq

/-- Modelled from the spec: the data-exchange container (class `APIData`) of one
per-rank entry, the keys with their values in insertion order. -/
abbrev APIData := List (String × ad_value)

/-- Modelled from the spec: a value stored under a key of the per-record entry written
by `to_ad`: a double, a string, a boolean or a vector of per-rank entries. -/
inductive pred_value where
  | num (x : ℚ)
  | str (s : String)
  | flag (b : Bool)
  | objs (v : List APIData)
deriving DecidableEq

/-- Modelled from the spec: the data-exchange container of one per-record entry. -/
abbrev PredData := List (String × pred_value)

/-- Modelled from the spec: `APIData::add(key, val)` stores `val` under `key`, in place
of an earlier value of that key. -/
def ad_add {β : Type} (ad : List (String × β)) (key : String) (val : β) :
    List (String × β) :=
  ad.filter (fun e => e.1 ≠ key) ++ [(key, val)]

/-! ## `sup_result` -/

/-- The class `SupervisedOutput::sup_result`. -/
structure sup_result where
  _label : String
  _loss : ℚ
  _cats : multimap String
  _bboxes : multimap BBox
  _vals : multimap Vals
deriving DecidableEq

namespace sup_result

/-- Constructor `sup_result(label, loss)`. -/
def new (label : String) (loss : ℚ) : sup_result :=
  ⟨label, loss, multimap.empty, multimap.empty, multimap.empty⟩

/-- Member `add_cat(prob, cat)`. -/
def add_cat (r : sup_result) (prob : ℚ) (cat : String) : sup_result :=
  { r with _cats := r._cats.insert (prob, cat) }

/-- Member `add_bbox(prob, ad)`. -/
def add_bbox (r : sup_result) (prob : ℚ) (ad : BBox) : sup_result :=
  { r with _bboxes := r._bboxes.insert (prob, ad) }

/-- Member `add_val(prob, ad)`. -/
def add_val (r : sup_result) (prob : ℚ) (ad : Vals) : sup_result :=
  { r with _vals := r._vals.insert (prob, ad) }

end sup_result

/-! ## `SupervisedOutput` -/

/-- The data members of `SupervisedOutput`. -/
structure SupervisedOutput where
  _best : Int
  _vcats : unordered_map
  _vvcats : List sup_result
deriving DecidableEq

/-- One element of the argument of `add_results`: the keys `uri`, `loss`, `probs`,
`cats` and the optional keys `bboxes` and `vals` of the data object. -/
structure RawTuple where
  uri : String
  loss : ℚ
  probs : List ℚ
  cats : List String
  bboxes : Option (List BBox)
  vals : Option (List Vals)
deriving DecidableEq

namespace SupervisedOutput

/-! ### Aggregation: `add_results` -/

/-- Copy constructor `SupervisedOutput(const SupervisedOutput &sout)`: only `_best`
is copied. -/
def copy (sout : SupervisedOutput) : SupervisedOutput := ⟨sout._best, [], []⟩

/-- Expression `_vvcats.at(idx).f(...)`: fails when `idx` is out of range. -/
def at_apply (vv : List sup_result) (idx : Int) (f : sup_result → sup_result) :
    Option (List sup_result) :=
  if idx < 0 then none else
  match vv[idx.toNat]? with
  | none => none
  | some r => some (vv.set idx.toNat (f r))

/-- Body of the inner loop of `add_results` at position `i`. -/
def add_results_step (probs : List ℚ) (cats : List String) (bboxes : List BBox)
    (rois : List Vals) (idx : Int) (vv : List sup_result) (i : Nat) :
    Option (List sup_result) := do
  let p ← probs[i]?
  let c ← cats[i]?
  let vv ← at_apply vv idx (fun r => r.add_cat p c)
  let vv ← if !bboxes.isEmpty then (do
      let b ← bboxes[i]?
      at_apply vv idx (fun r => r.add_bbox p b)) else pure vv
  let vv ← if !rois.isEmpty then (do
      let v ← rois[i]?
      at_apply vv idx (fun r => r.add_val p v)) else pure vv
  pure vv

/-- Body of the outer loop of `add_results` for one data object. -/
def add_result (s : SupervisedOutput) (ad : RawTuple) : Option SupervisedOutput :=
  let bboxes : List BBox := ad.bboxes.getD []
  let rois : List Vals := ad.vals.getD []
  match s._vcats.find ad.uri with
  | some _ => some s
  | none =>
    let idx : Int := s._vvcats.length
    let vcats := s._vcats.insert ad.uri idx
    let vv := s._vvcats ++ [sup_result.new ad.uri ad.loss]
    match (List.range ad.probs.length).foldlM
        (add_results_step ad.probs ad.cats bboxes rois idx) vv with
    | none => none
    | some vv => some { s with _vcats := vcats, _vvcats := vv }

/-- Member `add_results(vrad)`. -/
def add_results (s : SupervisedOutput) (vrad : List RawTuple) : Option SupervisedOutput :=
  vrad.foldlM add_result s

/-! ### Best-k selection: `best_cats` -/

/-- Function `std::to_string(double)`: the `%f` conversion, six digits after the
decimal point, the exact value rounded to nearest with ties to even. -/
def to_string (x : ℚ) : String :=
  let m : ℚ := |x| * 1000000
  let f : Nat := (Rat.floor m).toNat
  let r : ℚ := m - f
  let n : Nat := if r < 1 / 2 then f else if 1 / 2 < r then f + 1
    else if f % 2 = 0 then f else f + 1
  let frac : String := toString (n % 1000000)
  (if x < 0 then "-" else "") ++ toString (n / 1000000) ++ "."
    ++ String.mk (List.replicate (6 - frac.length) '0') ++ frac

/-- The dedup key `bbkey` of `best_cats`, built from the four coordinates of a box. -/
def bbkey (bbad : BBox) : String :=
  to_string bbad.xmin ++ "-" ++ to_string bbad.ymin ++ "-" ++ to_string bbad.xmax
    ++ "-" ++ to_string bbad.ymax

/-- The effective `best` computed at the head of `best_cats`; `ad_best` is the value
under the key `best` of `ad_out`, when that key is present. -/
def best_of (_best : Int) (ad_best : Option Int) (nclasses : Int) : Int :=
  let best := match ad_best with
    | some b => b
    | none => _best
  if best = -1 then nclasses else best

/-- The two statements closing each iteration of `best_cats`: register the label in
`bcats._vcats` and push the reduced record. -/
def push_result (bcats : SupervisedOutput) (bsresult : sup_result) : SupervisedOutput :=
  { bcats with
    _vcats := bcats._vcats.insert bsresult._label bcats._vvcats.length
    _vvcats := bcats._vvcats ++ [bsresult] }

/-- Loop body of `best_cats` when `!has_bbox && !has_roi`. -/
def best_plain (best : Int) (sresult : sup_result) : sup_result :=
  let bsresult := sup_result.new sresult._label sresult._loss
  let bsresult := { bsresult with
    _cats := copy_n sresult._cats (min best sresult._cats.size) bsresult._cats }
  let bsresult := if !sresult._bboxes.isEmpty then { bsresult with
    _bboxes := copy_n sresult._bboxes (min best sresult._bboxes.size) bsresult._bboxes }
    else bsresult
  let bsresult := if !sresult._vals.isEmpty then { bsresult with
    _vals := copy_n sresult._vals (min best sresult._vals.size) bsresult._vals }
    else bsresult
  bsresult

/-- Loop body of `best_cats` with boxes or regions when `best == nclasses`. -/
def best_all (sresult : sup_result) : sup_result :=
  let bsresult := sup_result.new sresult._label sresult._loss
  let nbest : Int := sresult._cats.size
  let bsresult := { bsresult with
    _cats := copy_n sresult._cats (min nbest sresult._cats.size) bsresult._cats }
  let bsresult := if !sresult._bboxes.isEmpty then { bsresult with
    _bboxes := copy_n sresult._bboxes (min nbest sresult._bboxes.size) bsresult._bboxes }
    else bsresult
  bsresult

/-- The three insertions of the dedup loop that keep the current entry; `vvad` is the
region entry under `mity` (read only when `has_roi`). -/
def dedup_keep (has_roi : Bool) (mit : ℚ × String) (mitx : ℚ × BBox)
    (vvad : Option (ℚ × Vals)) (bsresult : sup_result) : sup_result :=
  let bsresult := { bsresult with _cats := bsresult._cats.insert (mit.1, mit.2) }
  let bsresult := { bsresult with _bboxes := bsresult._bboxes.insert (mitx.1, mitx.2) }
  match has_roi, vvad with
  | true, some v => { bsresult with _vals := bsresult._vals.insert (v.1, v.2) }
  | _, _ => bsresult

/-- The `while (mitx != sresult._bboxes.end())` loop of `best_cats`.  The arguments
are what is left to iterate of `_bboxes` (`mitx`), `_cats` (`mit`) and `_vals`
(`mity`), the counters `lboxes` and the record under construction. -/
def dedup_loop (best : Int) (has_roi : Bool) :
    List (ℚ × BBox) → List (ℚ × String) → List (ℚ × Vals) → unordered_map →
      sup_result → Option sup_result
  | [], _, _, _, bsresult => some bsresult
  | _ :: _, [], _, _, _ => none
  | x :: mitx, c :: mit, mity, lboxes, bsresult =>
    if has_roi && mity.isEmpty then none else
    let key := bbkey x.2
    match lboxes.find key with
    | some n =>
      let lboxes := lboxes.incr key
      let bsresult := if n + 1 ≤ best then dedup_keep has_roi c x mity.head? bsresult
        else bsresult
      dedup_loop best has_roi mitx mit (if has_roi then mity.tail else mity) lboxes bsresult
    | none =>
      let lboxes := lboxes.insert key 1
      let bsresult := dedup_keep has_roi c x mity.head? bsresult
      dedup_loop best has_roi mitx mit (if has_roi then mity.tail else mity) lboxes bsresult

/-- Loop body of `best_cats` with boxes or regions when `best != nclasses`. -/
def best_dedup (best : Int) (has_roi : Bool) (sresult : sup_result) : Option sup_result :=
  dedup_loop best has_roi sresult._bboxes.1 sresult._cats.1 sresult._vals.1 []
    (sup_result.new sresult._label sresult._loss)

/-- Reduction of one record by `best_cats`, by branch. -/
def best_record (best nclasses : Int) (has_bbox has_roi : Bool) (sresult : sup_result) :
    Option sup_result :=
  if !has_bbox && !has_roi then some (best_plain best sresult)
  else if best = nclasses then some (best_all sresult)
  else best_dedup best has_roi sresult

/-- Member `best_cats(ad_out, bcats, nclasses, has_bbox, has_roi)`; `ad_best` is the
value under the key `best` of `ad_out`, when present.  The result is the final
state of `bcats`. -/
def best_cats (s : SupervisedOutput) (ad_best : Option Int) (bcats : SupervisedOutput)
    (nclasses : Int) (has_bbox has_roi : Bool) : Option SupervisedOutput :=
  let best := best_of s._best ad_best nclasses
  s._vvcats.foldlM (fun bcats sresult =>
    (best_record best nclasses has_bbox has_roi sresult).map (push_result bcats)) bcats

/-! ### Serialization: `to_ad` -/

/-- The `while (mit != _cats.end())` loop of `to_ad` for one record (built without
`USE_SIMSEARCH`).  The arguments are what is left to iterate of `_cats` (`mit`),
`_bboxes` (`bit`) and `_vals` (`vit`); the result is the vector `v`. -/
def to_ad_ranks (regression autoencoder has_bbox has_roi : Bool) :
    List (ℚ × String) → List (ℚ × BBox) → List (ℚ × Vals) → Option (List APIData)
  | [], _, _ => some []
  | m :: mit, bit, vit =>
    let nad : APIData := []
    let nad := if !autoencoder then ad_add nad "cat" (ad_value.str m.2) else nad
    let nad := if regression then ad_add nad "val" (ad_value.num m.1)
      else if autoencoder then ad_add nad "loss" (ad_value.num m.1)
      else ad_add nad "prob" (ad_value.num m.1)
    match (if has_bbox || has_roi then
        match bit with
        | [] => none
        | b :: bit => some (ad_add nad "bbox" (ad_value.bbox b.2), bit)
      else some (nad, bit)) with
    | none => none
    | some (nad, bit) =>
      match (if has_roi then
          match vit with
          | [] => none
          | v :: vit => some (ad_add nad "vals" (ad_value.vec v.2), vit)
        else some (nad, vit)) with
      | none => none
      | some (nad, vit) =>
        let nad := if mit.isEmpty then ad_add nad "last" (ad_value.flag true) else nad
        match to_ad_ranks regression autoencoder has_bbox has_roi mit bit vit with
        | none => none
        | some v => some (nad :: v)

/-- Body of the `for` loop of `to_ad` for one record (built without `USE_SIMSEARCH`):
the entry `adpred`. -/
def to_ad_record (regression autoencoder has_bbox has_roi : Bool) (r : sup_result) :
    Option PredData :=
  match to_ad_ranks regression autoencoder has_bbox has_roi r._cats.1 r._bboxes.1 r._vals.1 with
  | none => none
  | some v =>
    let adpred : PredData := []
    let adpred := if r._loss > 0 then ad_add adpred "loss" (pred_value.num r._loss) else adpred
    let adpred := ad_add adpred "uri" (pred_value.str r._label)
    let adpred := if regression then ad_add adpred "vector" (pred_value.objs v)
      else if autoencoder then ad_add adpred "losses" (pred_value.objs v)
      else if has_roi then ad_add adpred "rois" (pred_value.objs v)
      else ad_add adpred "classes" (pred_value.objs v)
    some adpred

/-- Member `to_ad(out, regression, autoencoder, has_bbox, has_roi, indexed_uris)`, built
without `USE_SIMSEARCH`: the vector `vpred` stored under the key `predictions`. -/
def to_ad (s : SupervisedOutput) (regression autoencoder has_bbox has_roi : Bool) :
    Option (List PredData) :=
  s._vvcats.foldlM (fun vpred r =>
    (to_ad_record regression autoencoder has_bbox has_roi r).map (fun adpred =>
      vpred ++ [adpred])) []

/-! ### Metrics -/

/-- How a call ends without returning: the exception
`OutputConnectorBadParamException`, the exception `std::out_of_range` of
`std::vector::at`, undefined behaviour (an access outside a matrix, a vector or an array, a read of
an array entry that was never written, an iterator moved before `begin()`, a negative
double converted to an unsigned index),
the exception of a read of a value of the data object as another type than it
holds, or the exception of the construction of a vector of negative size. -/
inductive Failure where
  | bad_param
  | out_of_range
  | undefined
  | bad_access
  | length_error
deriving DecidableEq, Repr

instance {ε α : Type} [DecidableEq ε] [DecidableEq α] : DecidableEq (Except ε α) :=
  fun a b =>
    match a, b with
    | .ok x, .ok y => if h : x = y then isTrue (by rw [h]) else isFalse (fun e => h (by cases e; rfl))
    | .error x, .error y =>
      if h : x = y then isTrue (by rw [h]) else isFalse (fun e => h (by cases e; rfl))
    | .ok _, .error _ => isFalse (fun e => by cases e)
    | .error _, .ok _ => isFalse (fun e => by cases e)

/-- Division of doubles: no rational (an infinity or NaN) when the divisor is zero. -/
def fdiv (a b : ℚ) : Option ℚ := if b = 0 then none else some (a / b)

/-- Sum of doubles some of which may be an infinity or NaN. -/
def osum : List (Option ℚ) → Option ℚ
  | [] => some 0
  | x :: xs => x.bind (fun a => (osum xs).map (fun b => a + b))

/-- Sum of two doubles either of which may be an infinity or NaN. -/
def oadd (x y : Option ℚ) : Option ℚ := x.bind (fun a => y.map (fun b => a + b))

/-- Difference of two doubles either of which may be an infinity or NaN. -/
def osub (x y : Option ℚ) : Option ℚ := x.bind (fun a => y.map (fun b => a - b))

/-- Quotient of two doubles either of which may be an infinity or NaN. -/
def odiv (x y : Option ℚ) : Option ℚ := x.bind (fun a => y.bind (fun b => fdiv a b))

/-- Product of two doubles either of which may be an infinity or NaN. -/
def omul (x y : Option ℚ) : Option ℚ := x.bind (fun a => y.map (fun b => a * b))

/-- Square root of a double that may be an infinity or NaN; the root of a negative
number is NaN.  The argument `sqrt` is `std::sqrt` on the numbers that are not
negative. -/
def osqrt (sqrt : ℚ → ℚ) (x : Option ℚ) : Option ℚ :=
  x.bind (fun a => if a < 0 then none else some (sqrt a))

/-- Conversion `static_cast<int>(double)`: truncation toward zero. -/
def to_int (x : ℚ) : Int := if 0 ≤ x then Rat.floor x else Rat.ceil x

/-- Reduction of an `int` result to 32 bits, two's complement. -/
def wrap32 (z : Int) : Int := (z + 2147483648) % 4294967296 - 2147483648

/-- Halvings of `n` until it is below 2, at most `fuel` of them. -/
def log2_scan : Nat → Nat → Nat
  | 0, _ => 0
  | fuel + 1, n => if n < 2 then 0 else log2_scan fuel (n / 2) + 1

/-- Position of the leading bit of `n`. -/
def ilog2 (n : Nat) : Nat := log2_scan n n

/-- Conversion of a double to `float` (the constructor argument `const float &f` of
`PredictionAndAnswer`): 24 significant bits down to the exponent `-126`, multiples
of `2^-149` below it (the subnormal range, with 0 for what rounds to it), rounded to
nearest with ties to even.  A double that rounds to `2^128` or beyond converts to the
infinity of its sign, which stands here as `2^128` or `-2^128`, beyond every finite
`float`: `auc` only compares the converted scores, with `<` and `!=`. -/
def to_float (x : ℚ) : ℚ :=
  if x = 0 then 0 else
  let a : ℚ := |x|
  let e0 : Int := (ilog2 a.num.natAbs : Int) - (ilog2 a.den : Int)
  let e : Int := if (2 : ℚ) ^ e0 ≤ a then e0 else e0 - 1
  let e : Int := if e < -126 then -126 else e
  let ulp : ℚ := (2 : ℚ) ^ (e - 23)
  let m : ℚ := a / ulp
  let f : Int := Rat.floor m
  let r : ℚ := m - f
  let n : Int := if r < 1 / 2 then f else if 1 / 2 < r then f + 1
    else if f % 2 = 0 then f else f + 1
  let y : ℚ := n * ulp
  let y : ℚ := if (2 : ℚ) ^ 128 ≤ y then (2 : ℚ) ^ 128 else y
  (if x < 0 then -1 else 1) * y

/-- One entry of an evaluation batch: the keys `pred` and `target` (a scalar) of the
data object stored under the position of the sample. -/
structure Sample where
  pred : List ℚ
  target : ℚ
deriving DecidableEq

/-- The evaluation batch passed to the metrics: the key `nclasses` and the samples
stored under the keys `0`, ..., `batch_size - 1`; `batch_size` is their number. -/
structure EvalBatch where
  nclasses : Int
  samples : List Sample
deriving DecidableEq

/-- The key `batch_size` of an evaluation batch. -/
def EvalBatch.batch_size (ad : EvalBatch) : Int := ad.samples.length

/-- Scan of `std::max_element`: `i` is the position under the iterator, `largest` the
position and `v` the value of the largest element so far. -/
def max_element_from (i largest : Nat) (v : ℚ) : List ℚ → Nat
  | [] => largest
  | x :: xs =>
    if v < x then max_element_from (i + 1) i x xs
    else max_element_from (i + 1) largest v xs

/-- Expression `std::distance(v.begin(), std::max_element(v.begin(), v.end()))`: the
position of the first largest element, 0 for an empty vector. -/
def max_element : List ℚ → Nat
  | [] => 0
  | x :: xs => max_element_from 1 0 x xs

/-- The matrix type `dMat` with its coefficients by row and column; rows and columns
are kept beside it. -/
abbrev dMat := Nat → Nat → ℚ

/-- Body of the loop that fills the confusion matrix in `mf1` and `mcc`: row
`maxpr`, column `static_cast<int>(target)`. -/
def conf_step (nclasses : Int) (conf_matrix : dMat) (bad : Sample) : Except Failure dMat :=
  let maxpr := max_element bad.pred
  if bad.target < 0 then throw Failure.bad_param
  else if bad.target ≥ nclasses then throw Failure.bad_param
  else if nclasses ≤ maxpr then throw Failure.undefined
  else pure (fun i j =>
    if i = maxpr ∧ j = (to_int bad.target).toNat then conf_matrix i j + 1
    else conf_matrix i j)

/-- The confusion matrix of `mf1` and `mcc` after the loop over the batch, starting
from `dMat::Zero(nclasses, nclasses)`. -/
def conf_fill (ad : EvalBatch) : Except Failure dMat :=
  if ad.nclasses < 0 then throw Failure.undefined
  else ad.samples.foldlM (conf_step ad.nclasses) (fun _ _ => 0)

/-- What `mf1` returns and leaves in its reference arguments (`recall_` is the
argument `recall`). -/
structure F1Result where
  f1 : Option ℚ
  precision : Option ℚ
  recall_ : Option ℚ
  acc : Option ℚ
  conf_diag : List (Option ℚ)
  conf_matrix : List (List (Option ℚ))
deriving DecidableEq

/-- The constant `1e-8` of `mf1`. -/
def eps : ℚ := 1 / 100000000

/-- Product and quotient of `mf1` in `f1 = (2.0*precision*recall) / (precision+recall)`. -/
def f1_of (precision recall_ : Option ℚ) : Option ℚ :=
  match precision, recall_ with
  | some p, some r => fdiv (2 * p * r) (p + r)
  | _, _ => none

/-- Member `mf1(ad, precision, recall, acc, conf_diag, conf_matrix)`. -/
def mf1 (ad : EvalBatch) : Except Failure F1Result := do
  let conf_matrix ← conf_fill ad
  let n := ad.nclasses.toNat
  let conf_diag : Nat → ℚ := fun i => conf_matrix i i
  let conf_csum : Nat → ℚ := fun j => ((List.range n).map (fun i => conf_matrix i j)).sum
  let conf_rsum : Nat → ℚ := fun i => ((List.range n).map (fun j => conf_matrix i j)).sum
  let acc := fdiv ((List.range n).map conf_diag).sum ((List.range n).map conf_csum).sum
  let precision := (osum ((List.range n).map (fun j =>
    fdiv (conf_diag j) (conf_csum j + eps)))).bind (fun x => fdiv x ad.nclasses)
  let recall_ := (osum ((List.range n).map (fun i =>
    fdiv (conf_diag i) (conf_rsum i + eps)))).bind (fun x => fdiv x ad.nclasses)
  pure {
    f1 := f1_of precision recall_
    precision := precision
    recall_ := recall_
    acc := acc
    conf_diag := (List.range n).map (fun j => fdiv (conf_diag j) (conf_csum j + eps))
    conf_matrix := (List.range n).map (fun i => (List.range n).map (fun j =>
      fdiv (conf_matrix i j) (conf_csum j))) }

/-- Member `mcc(ad)`; `sqrt` is `std::sqrt`. -/
def mcc (sqrt : ℚ → ℚ) (ad : EvalBatch) : Except Failure (Option ℚ) := do
  let conf_matrix ← conf_fill ad
  if ad.nclasses < 2 then throw Failure.undefined
  else
    let tp := conf_matrix 0 0
    let tn := conf_matrix 1 1
    let fn := conf_matrix 0 1
    let fp := conf_matrix 1 0
    let den := (tp + fp) * (tp + fn) * (tn + fp) * (tn + fn)
    let den := if den = 0 then 1 else den
    pure (fdiv (tp * tn - fp * fn) (sqrt den))

/-- Body of the loop of `mcll`; `log` is `std::log`, which has no rational value at
zero and below. -/
def mcll_step (log : ℚ → ℚ) (ll : Option ℚ) (bad : Sample) : Except Failure (Option ℚ) :=
  if bad.target ≤ -1 then throw Failure.undefined
  else match bad.pred[(to_int bad.target).toNat]? with
    | none => throw Failure.out_of_range
    | some p => pure (if p ≤ 0 then none else ll.map (fun x => x - log p))

/-- Member `mcll(ad)`. -/
def mcll (log : ℚ → ℚ) (ad : EvalBatch) : Except Failure (Option ℚ) := do
  let ll ← ad.samples.foldlM (mcll_step log) (some 0)
  pure (ll.bind (fun x => fdiv x ad.batch_size))

/-- The result `std::partial_sort(first, first + m, last, acc_comp(v))` must leave:
a rearrangement `l'` of `l` whose first `m` entries are in the order of `acc_comp`
(no entry scored higher than an earlier one) and are not scored lower than any
entry after them.  The order of the entries after the first `m` is unspecified. -/
def PartialSorted (v : List ℚ) (m : Nat) (l l' : List Nat) : Prop :=
  l'.Perm l ∧
  (l'.take m).Pairwise (fun a b => v.getD b 0 ≤ v.getD a 0) ∧
  ∀ a ∈ l'.take m, ∀ b ∈ l'.drop m, v.getD b 0 ≤ v.getD a 0

/-- Body of the loop over the samples in `acc`, for one `k`: whether the sample adds
one to `acc`; `psort v m l` is `std::partial_sort` of the index vector `l` at
`first + m` under `acc_comp(v)`. -/
def acc_hit (psort : List ℚ → Nat → List Nat → List Nat) (k : Int) (bad : Sample) :
    Except Failure Bool :=
  if k - 1 ≥ bad.pred.length then pure false
  else if k - 1 < 0 then throw Failure.undefined
  else
    let predk := psort bad.pred (k - 1).toNat (List.range bad.pred.length)
    pure ((predk.take k.toNat).any (fun i => decide ((i : ℚ) = bad.target)))

/-- Body of the loop over `vacck` in `acc`: the value stored for `k`. -/
def acc_of_k (psort : List ℚ → Nat → List Nat → List Nat) (ad : EvalBatch) (k : Int) :
    Except Failure (Option ℚ) := do
  let acc ← ad.samples.foldlM (fun (acc : ℚ) bad => do
    let hit ← acc_hit psort k bad
    pure (if hit then acc + 1 else acc)) 0
  pure (fdiv acc ad.batch_size)

/-- The key under which `acc` stores the value for `k`. -/
def acc_key (k : Int) : String :=
  if k > 1 then "acc" ++ ("-" ++ toString k) else "acc"

/-- Member `insert` of `std::map<std::string,double>`: no effect when the key is
present. -/
def map_insert (accs : List (String × Option ℚ)) (key : String) (v : Option ℚ) :
    List (String × Option ℚ) :=
  match accs.lookup key with
  | some _ => accs
  | none => accs ++ [(key, v)]

/-- Member `acc(ad, measures)`, from the loop over `vacck` on: `vacck` holds the `k`
read from the entries of `measures` that contain `acc`. -/
def acc (psort : List ℚ → Nat → List Nat → List Nat) (ad : EvalBatch) (vacck : List Int) :
    Except Failure (List (String × Option ℚ)) :=
  vacck.foldlM (fun accs k => do
    let v ← acc_of_k psort ad k
    pure (map_insert accs (acc_key k) v)) []

/-- The local class `PredictionAndAnswer` of `auc`. -/
structure PredictionAndAnswer where
  prediction : ℚ
  answer : Int
deriving DecidableEq

/-- The loop of `auc(pred, targets)` that fills `p` with
`PredictionAndAnswer(pred.at(i), targets.at(i))`, a `float` and an `int`. -/
def auc_fill : List ℚ → List ℚ → Except Failure (List PredictionAndAnswer)
  | [], _ => pure []
  | _ :: _, [] => throw Failure.out_of_range
  | x :: pred, t :: targets => do
    let p ← auc_fill pred targets
    pure (⟨to_float x, to_int t⟩ :: p)

/-- The variables of the threshold sweep of `auc`. -/
structure AucSweep where
  threshold : ℚ
  accum : Int
  tp0 : Int
  tn : Int
  truePos : Int
deriving DecidableEq

/-- Body of the threshold sweep of `auc`. -/
def auc_step (st : AucSweep) (pi : PredictionAndAnswer) : AucSweep :=
  let st := if pi.prediction ≠ st.threshold then
      { threshold := pi.prediction
        accum := wrap32 (st.accum + st.tn * (st.truePos + st.tp0))
        tp0 := st.truePos
        tn := 0
        truePos := st.truePos }
    else st
  { st with tn := st.tn + (1 - pi.answer), truePos := st.truePos - pi.answer }

/-- Member `auc(pred, targets)`.  `std::sort` leaves the order of equal predictions
unspecified; the sweep adds up within a run of equal predictions, so that order
has no effect, and the insertion sort stands for it. -/
def auc (pred targets : List ℚ) : Except Failure (Option ℚ) := do
  let p ← auc_fill pred targets
  let count : Int := p.length
  let p := p.insertionSort (fun p1 p2 => p1.prediction ≤ p2.prediction)
  let ones : Int := p.foldl (fun ones pi => ones + pi.answer) 0
  if 0 = ones ∨ count = ones then pure (some 1)
  else
    match p with
    | [] => throw Failure.undefined
    | p0 :: _ =>
      let st : AucSweep := ⟨p0.prediction, 0, ones, 0, ones⟩
      let st := p.foldl auc_step st
      let accum := wrap32 (st.accum + st.tn * (st.truePos + st.tp0))
      pure (fdiv accum (wrap32 (2 * ones * (count - ones))))

/-- Member `auc(ad)`. -/
def auc_batch (ad : EvalBatch) : Except Failure (Option ℚ) := do
  let pred1 ← ad.samples.mapM (fun bad =>
    match bad.pred[1]? with
    | none => throw Failure.out_of_range
    | some x => pure x)
  auc pred1 (ad.samples.map (fun bad => bad.target))

/-- Modelled from the spec: the value under the key `target` of an entry of an
evaluation batch, a scalar or a per-dimension vector (the variant type of the data
object is not part of the source file). -/
inductive TargetValue where
  | num (t : ℚ)
  | vec (v : List ℚ)
deriving DecidableEq

/-- One entry of the evaluation batch read by `eucll`: the key `pred` and the key
`target`, which `eucll` reads as a vector or as a scalar. -/
structure RegSample where
  pred : List ℚ
  target : TargetValue
deriving DecidableEq

/-- The loop over `target` in `eucll`, from position `i` on: `pred` and `target` are
`predictions` and `target` from that position on. -/
def eucll_dims : List ℚ → List ℚ → ℚ → Except Failure ℚ
  | _, [], eucl => pure eucl
  | pred, t :: target, eucl =>
    if t ≥ 0 then
      match pred with
      | [] => throw Failure.out_of_range
      | p :: pred => eucll_dims pred target (eucl + (p - t) * (p - t))
    else eucll_dims pred.tail target eucl

/-- Body of the loop over the samples in `eucll`. -/
def eucll_sample (eucl : ℚ) (bad : RegSample) : Except Failure ℚ := do
  let target ←
    if bad.pred.length > 1 then
      match bad.target with
      | .vec v => pure v
      | .num _ => throw Failure.bad_access
    else
      match bad.target with
      | .num t => pure [t]
      | .vec _ => throw Failure.bad_access
  eucll_dims bad.pred target eucl

/-- Member `eucll(ad)`; `samples` are the entries of `ad` and `batch_size` is their
number. -/
def eucll (samples : List RegSample) : Except Failure (Option ℚ) := do
  let eucl ← samples.foldlM eucll_sample 0
  pure (fdiv eucl (samples.length : Int))

/-- One entry of an evaluation batch whose key `target` holds a vector. -/
structure VSample where
  pred : List ℚ
  target : List ℚ
deriving DecidableEq

/-- An evaluation batch whose entries hold target vectors. -/
structure VBatch where
  nclasses : Int
  samples : List VSample
deriving DecidableEq

/-- The key `batch_size` of an evaluation batch with target vectors. -/
def VBatch.batch_size (ad : VBatch) : Int := ad.samples.length

/-- The counters of `multilabel_acc`. -/
structure MlCounts where
  tp : ℚ
  fp : ℚ
  tn : ℚ
  fn : ℚ
  count_pos : ℚ
  count_neg : ℚ
deriving DecidableEq

/-- The loop over `j` in `multilabel_acc`, from position `j` on. -/
def multilabel_count : List ℚ → List ℚ → MlCounts → Except Failure MlCounts
  | [], _, c => pure c
  | _ :: _, [], _ => throw Failure.out_of_range
  | p :: predictions, t :: targets, c =>
    if t < 0 then multilabel_count predictions targets c
    else if t ≥ 1 / 2 then
      let c := if p ≥ 0 then { c with tp := c.tp + 1 } else { c with fn := c.fn + 1 }
      multilabel_count predictions targets { c with count_pos := c.count_pos + 1 }
    else
      let c := if p < 0 then { c with tn := c.tn + 1 } else { c with fp := c.fp + 1 }
      multilabel_count predictions targets { c with count_neg := c.count_neg + 1 }

/-- A double that may be an infinity (`neg` for the negative one) or NaN. -/
inductive XDouble where
  | fin (x : ℚ)
  | inf (neg : Bool)
  | nan
deriving DecidableEq

/-- Quotient of two finite doubles, the divisor not a negative zero. -/
def xdiv (a b : ℚ) : XDouble :=
  if b = 0 then (if a = 0 then XDouble.nan else XDouble.inf (decide (a < 0)))
  else XDouble.fin (a / b)

/-- Sum of two doubles. -/
def xadd : XDouble → XDouble → XDouble
  | .fin a, .fin b => .fin (a + b)
  | .nan, _ => .nan
  | _, .nan => .nan
  | .inf s, .inf s' => if s = s' then .inf s else .nan
  | .inf s, .fin _ => .inf s
  | .fin _, .inf s => .inf s

/-- Quotient of a finite double by a double; a quotient by an infinity is a zero. -/
def xrdiv (a : ℚ) : XDouble → XDouble
  | .fin b => xdiv a b
  | .inf _ => .fin 0
  | .nan => .nan

/-- The finite value of a double, if it has one. -/
def XDouble.toOption : XDouble → Option ℚ
  | .fin x => some x
  | _ => none

/-- What `multilabel_acc` leaves in its reference arguments; it returns `f1`. -/
structure MlResult where
  sensitivity : Option ℚ
  specificity : Option ℚ
  harmmean : Option ℚ
  precision : Option ℚ
  f1 : Option ℚ
deriving DecidableEq

/-- Member `multilabel_acc(ad, sensitivity, specificity, harmmean, precision, f1)`. -/
def multilabel_acc (ad : VBatch) : Except Failure MlResult := do
  let c ← ad.samples.foldlM (fun c bad => multilabel_count bad.pred bad.target c)
    (⟨0, 0, 0, 0, 0, 0⟩ : MlCounts)
  pure {
    sensitivity := if c.count_pos > 0 then fdiv c.tp c.count_pos else some 0
    specificity := if c.count_neg > 0 then fdiv c.tn c.count_neg else some 0
    harmmean := if c.count_pos + c.count_neg > 0 then
        (xrdiv 2 (xadd (xdiv c.count_pos c.tp) (xdiv c.count_neg c.tn))).toOption
      else some 0
    precision := if c.tp > 0 then fdiv c.tp (c.tp + c.fp) else some 0
    f1 := if c.tp > 0 then fdiv (2 * c.tp) (2 * c.tp + c.fp + c.fn) else some 0 }

/-- The accumulators of the first loop of `multilabel_acc_soft`. -/
structure SoftAcc where
  kl_divergence : ℚ
  js_divergence : ℚ
  wasserstein : ℚ
  kolmogorov_smirnov : ℚ
  total_number : Int
  tmean : ℚ
  delta_scores : List ℚ
deriving DecidableEq

/-- Body of the loop over `j` in the first loop of `multilabel_acc_soft`, for an entry
that is not ignored; `log` is `std::log`. -/
def soft_entry (log : ℚ → ℚ) (deltas : List ℚ) (p t : ℚ) (a : SoftAcc) : SoftAcc :=
  let eps : ℚ := 1 / 100000
  let tval := if t < eps then eps else t
  let pval := if p < eps then eps else p
  let dif := t - p
  let adif := |dif|
  { kl_divergence := a.kl_divergence + tval * log (tval / pval)
    js_divergence := a.js_divergence + (1 / 2 * (tval * log (2 * tval / (tval + pval)))
      + 1 / 2 * (pval * log (2 * pval / (tval + pval))))
    wasserstein := a.wasserstein + dif * dif
    kolmogorov_smirnov := if adif > a.kolmogorov_smirnov then adif else a.kolmogorov_smirnov
    total_number := a.total_number + 1
    tmean := a.tmean + t
    delta_scores := List.zipWith (fun d s => if adif < d then s + 1 else s) deltas
      a.delta_scores }

/-- The loop over `j` in the first loop of `multilabel_acc_soft`, from position `j`
on; `targets[j]` past the end of `targets` is undefined. -/
def soft_count (log : ℚ → ℚ) (deltas : List ℚ) :
    List ℚ → List ℚ → SoftAcc → Except Failure SoftAcc
  | [], _, a => pure a
  | _ :: _, [], _ => throw Failure.undefined
  | p :: predictions, t :: targets, a =>
    if t < 0 then soft_count log deltas predictions targets a
    else soft_count log deltas predictions targets (soft_entry log deltas p t a)

/-- The loop over `j` in the loop of `multilabel_acc_soft` that adds up `sstot`. -/
def soft_sstot (tmean : ℚ) : List ℚ → List ℚ → ℚ → Except Failure ℚ
  | [], _, sstot => pure sstot
  | _ :: _, [], _ => throw Failure.undefined
  | _ :: predictions, t :: targets, sstot =>
    if t < 0 then soft_sstot tmean predictions targets sstot
    else soft_sstot tmean predictions targets (sstot + (t - tmean) * (t - tmean))

/-- Read of `v[j]` on a `std::vector`, undefined past its end. -/
def vector_read (v : List ℚ) (j : Nat) : Except Failure ℚ :=
  match v[j]? with
  | some x => pure x
  | none => throw Failure.undefined

/-- Read of `a[i]` on an array declared without initializer, whose entries are `none`
until they are written: undefined outside the array and on an entry never written. -/
def array_read (a : List (Option ℚ)) (i : Nat) : Except Failure ℚ :=
  match a[i]? with
  | some (some x) => pure x
  | _ => throw Failure.undefined

/-- Assignment `a[i] = x` on an array, undefined outside the array. -/
def array_write (a : List (Option ℚ)) (i : Nat) (x : ℚ) : Except Failure (List (Option ℚ)) :=
  if i < a.length then pure (a.set i (some x)) else throw Failure.undefined

/-- Assignment `a[i] += x` on an array. -/
def array_add (a : List (Option ℚ)) (i : Nat) (x : ℚ) : Except Failure (List (Option ℚ)) := do
  let v ← array_read a i
  array_write a i (v + x)

/-- Assignment `a[i] /= d` on an array, for a divisor that is not zero. -/
def array_div (a : List (Option ℚ)) (i : Nat) (d : ℚ) : Except Failure (List (Option ℚ)) := do
  let v ← array_read a i
  array_write a i (v / d)

/-- The arrays `t_jk`, `p_jk` (row after row, `nclasses` entries each), `t_j`, `t_k`,
`p_j` and `p_k` of `multilabel_acc_soft`. -/
structure DistArrays where
  t_jk : List (Option ℚ)
  p_jk : List (Option ℚ)
  t_j : List (Option ℚ)
  t_k : List (Option ℚ)
  p_j : List (Option ℚ)
  p_k : List (Option ℚ)
deriving DecidableEq

/-- The pairs `(j, k)` in the order of the loops `for j` and `for k` over
`0 .. nclasses - 1`. -/
def index_pairs (nclasses : Nat) : List (Nat × Nat) :=
  (List.range nclasses).flatMap (fun j => (List.range nclasses).map (fun k => (j, k)))

/-- Body of the loop that fills `p_jk` and `t_jk` for one sample of
`multilabel_acc_soft`. -/
def dist_pair (sqrt : ℚ → ℚ) (nclasses : Nat) (targets predictions : List ℚ)
    (a : DistArrays) (jk : Nat × Nat) : Except Failure DistArrays := do
  let j := jk.1
  let k := jk.2
  let tj ← vector_read targets j
  if tj < 0 then pure a
  else
    let tk ← vector_read targets k
    if tk < 0 then pure a
    else
      let pj ← vector_read predictions j
      let pk ← vector_read predictions k
      let p_jk ← array_write a.p_jk (j * nclasses + k) (sqrt ((pj - pk) * (pj - pk)))
      let t_jk ← array_write a.t_jk (j * nclasses + k) (sqrt ((tj - tk) * (tj - tk)))
      pure { a with p_jk := p_jk, t_jk := t_jk }

/-- Body of the loop `for m` of `multilabel_acc_soft`. -/
def dist_inner (nclasses l : Nat) (a : DistArrays) (m : Nat) : Except Failure DistArrays := do
  let t_j ← array_add a.t_j m (← array_read a.t_jk (l * nclasses + m))
  let t_k ← array_add a.t_k m (← array_read a.t_jk (m * nclasses + l))
  let p_j ← array_add a.p_j m (← array_read a.p_jk (l * nclasses + m))
  let p_k ← array_add a.p_k m (← array_read a.p_jk (m * nclasses + l))
  pure { a with t_j := t_j, t_k := t_k, p_j := p_j, p_k := p_k }

/-- The arrays and the sums `t_` and `p_` in the loop `for l` of
`multilabel_acc_soft`. -/
structure DistMeans where
  arrays : DistArrays
  t_ : ℚ
  p_ : ℚ
deriving DecidableEq

/-- Body of the loop `for l` of `multilabel_acc_soft` for the sample at position `i`:
`t_j` is divided at `l`, and `t_k`, `p_j` and `p_k` are divided and `p_j` is read at
the position `i` of the sample. -/
def dist_row (nclasses i : Nat) (s : DistMeans) (l : Nat) : Except Failure DistMeans := do
  let a := s.arrays
  let t_j ← array_write a.t_j l 0
  let t_k ← array_write a.t_k l 0
  let p_j ← array_write a.p_j l 0
  let p_k ← array_write a.p_k l 0
  let a ← (List.range nclasses).foldlM (dist_inner nclasses l)
    { a with t_j := t_j, t_k := t_k, p_j := p_j, p_k := p_k }
  let t_j ← array_div a.t_j l nclasses
  let t_ := s.t_ + (← array_read t_j l)
  let t_k ← array_div a.t_k i nclasses
  let p_j ← array_div a.p_j i nclasses
  let p_ := s.p_ + (← array_read p_j i)
  let p_k ← array_div a.p_k i nclasses
  pure ⟨{ a with t_j := t_j, t_k := t_k, p_j := p_j, p_k := p_k }, t_, p_⟩

/-- The sums `dcov`, `dvart` and `dvarp` of `multilabel_acc_soft`. -/
structure DistSums where
  dcov : ℚ
  dvart : ℚ
  dvarp : ℚ
deriving DecidableEq

/-- Body of the loop that adds up `dcov`, `dvart` and `dvarp` in
`multilabel_acc_soft`. -/
def dist_cell (nclasses : Nat) (a : DistArrays) (t_ p_ : ℚ) (s : DistSums)
    (jk : Nat × Nat) : Except Failure DistSums := do
  let j := jk.1
  let k := jk.2
  let p := (← array_read a.p_jk (j * nclasses + k)) - (← array_read a.p_j j)
    - (← array_read a.p_k k) + p_
  let t := (← array_read a.t_jk (j * nclasses + k)) - (← array_read a.t_j j)
    - (← array_read a.t_k k) + t_
  pure ⟨s.dcov + p * t, s.dvart + t * t, s.dvarp + p * p⟩

/-- Body of the loop over the samples that adds up `distance_correlation` in
`multilabel_acc_soft`; `ib` is the position `i` of the sample with its entry.  The
arrays are declared before the loop and keep their entries from one sample to the
next.  The quotients of `t_` and `p_` by `nclasses` are read in the loop over the
pairs only, which has no pass when `nclasses` is 0. -/
def dist_sample (sqrt : ℚ → ℚ) (nclasses : Nat) (s : DistArrays × Option ℚ)
    (ib : Nat × VSample) : Except Failure (DistArrays × Option ℚ) := do
  let i := ib.1
  let targets := ib.2.target
  let predictions := ib.2.pred
  let a ← (index_pairs nclasses).foldlM (dist_pair sqrt nclasses targets predictions) s.1
  let m ← (List.range nclasses).foldlM (dist_row nclasses i) ⟨a, 0, 0⟩
  let t_ := m.t_ / nclasses
  let p_ := m.p_ / nclasses
  let sums ← (index_pairs nclasses).foldlM (dist_cell nclasses m.arrays t_ p_) ⟨0, 0, 0⟩
  let dcov := fdiv sums.dcov ((nclasses * nclasses : Nat) : ℚ)
  let dvart := fdiv sums.dvart ((nclasses * nclasses : Nat) : ℚ)
  let dvarp := fdiv sums.dvarp ((nclasses * nclasses : Nat) : ℚ)
  let dcov := osqrt sqrt dcov
  let dvart := osqrt sqrt dvart
  let dvarp := osqrt sqrt dvarp
  let distance_correlation :=
    if dvart ≠ some 0 ∧ dvarp ≠ some 0 then
      oadd s.2 (odiv dcov (osqrt sqrt (omul dvart dvarp)))
    else s.2
  pure (m.arrays, distance_correlation)

/-- What `multilabel_acc_soft` leaves in its reference arguments; it returns `r_2`. -/
structure SoftResult where
  kl_divergence : Option ℚ
  js_divergence : Option ℚ
  wasserstein : Option ℚ
  kolmogorov_smirnov : ℚ
  distance_correlation : Option ℚ
  r_2 : Option ℚ
  delta_scores : List (Option ℚ)
deriving DecidableEq

/-- Member `multilabel_acc_soft(ad, kl_divergence, js_divergence, wasserstein,
kolmogorov_smirnov, distance_correlation, r_2, delta_scores, deltas, ndeltas)`, with
`deltas` holding `ndeltas` thresholds; `log` and `sqrt` are `std::log` and `std::sqrt`.
Without an entry that is not ignored `tmean` is not a number and `sstot` stays 0.
The number `nclasses` of the arrays is the size of the target of the entry 0; a batch
without entries has no such target and the read of it fails.  The arrays are taken to
fit on the stack, and `nclasses * nclasses` in an `int`. -/
def multilabel_acc_soft (log sqrt : ℚ → ℚ) (ad : VBatch) (deltas : List ℚ) :
    Except Failure SoftResult := do
  let a ← ad.samples.foldlM (fun a bad => soft_count log deltas bad.pred bad.target a)
    (⟨0, 0, 0, 0, 0, 0, deltas.map (fun _ => 0)⟩ : SoftAcc)
  let ssres := a.wasserstein
  let total : ℚ := a.total_number
  let sstot ←
    match fdiv a.tmean total with
    | none => pure 0
    | some tmean => ad.samples.foldlM (fun sstot bad =>
        soft_sstot tmean bad.pred bad.target sstot) 0
  let nclasses ←
    match ad.samples with
    | [] => throw Failure.bad_access
    | bad :: _ => pure bad.target.length
  let row : List (Option ℚ) := List.replicate nclasses none
  let table : List (Option ℚ) := List.replicate (nclasses * nclasses) none
  let d ← ((List.range ad.samples.length).zip ad.samples).foldlM
    (dist_sample sqrt nclasses) (⟨table, table, row, row, row, row⟩, some 0)
  pure {
    kl_divergence := fdiv a.kl_divergence total
    js_divergence := fdiv a.js_divergence total
    wasserstein := fdiv (sqrt ssres) (sqrt total)
    kolmogorov_smirnov := a.kolmogorov_smirnov
    distance_correlation := odiv d.2 (some (ad.batch_size : ℚ))
    r_2 := (fdiv ssres sstot).map (fun q => 1 - q)
    delta_scores := a.delta_scores.map (fun s => fdiv s total) }

/-- The thresholds `deltas` that `measure` passes to `multilabel_acc_soft`. -/
def measure_deltas : List ℚ := [5 / 100, 1 / 10, 2 / 10, 5 / 10]

/-- The accumulators of `acc_v`: the vectors by class, of `nclasses` entries each. -/
structure AccVAcc where
  acc_v : ℚ
  mean_acc : Nat → ℚ
  mean_acc_bs : Nat → ℚ
  mean_iou : Nat → Option ℚ
  mean_iou_bs : Nat → ℚ

/-- Expression `dpred - dtarg` on vectors of the same size; other sizes are
undefined. -/
def vec_sub (a b : List ℚ) : Except Failure (List ℚ) :=
  if a.length = b.length then pure (List.zipWith (fun x y => x - y) a b)
  else throw Failure.undefined

/-- What the body of the loop over `c` in `acc_v` computes for class `c` on one sample:
`c_sum`, `c_total_targ`, `c_false_neg` and `c_false_pos`. -/
structure ClassCounts where
  c_sum : ℚ
  c_total_targ : ℚ
  c_false_neg : ℚ
  c_false_pos : ℚ
deriving DecidableEq

/-- The counts of the body of the loop over `c` in `acc_v`. -/
def class_counts (dpred dtarg : List ℚ) (c : Nat) : ClassCounts :=
  let dpredc := dpred.map (fun (x : ℚ) => if x = (c : ℚ) then x else -2)
  let dtargc := dtarg.map (fun (x : ℚ) => if x = (c : ℚ) then x else -1)
  let ddiffc := List.zipWith (fun (x y : ℚ) => x - y) dpredc dtargc
  { c_sum := ddiffc.countP (fun d => decide (|d| = 0))
    c_total_targ := dtarg.countP (fun x => decide (x = (c : ℚ)))
    c_false_neg := ddiffc.countP (fun d => decide (d = -2 - (c : ℚ)))
    c_false_pos := ddiffc.countP (fun d => decide (d = (c : ℚ) + 1)) }

/-- Body of the loop over the samples in `acc_v`. -/
def acc_v_sample (n : Nat) (a : AccVAcc) (bad : VSample) : Except Failure AccVAcc := do
  if bad.pred = [] ∨ bad.target = [] then throw Failure.out_of_range
  let ddiff ← vec_sub bad.pred bad.target
  let acc : ℚ := (ddiff.countP (fun d => decide (|d| = 0)) : ℚ) / bad.pred.length
  let counts := class_counts bad.pred bad.target
  pure {
    acc_v := a.acc_v + acc
    mean_acc := fun c =>
      if c < n then
        if (counts c).c_sum = 0 ∨ (counts c).c_total_targ = 0 then a.mean_acc c
        else a.mean_acc c + (counts c).c_sum / (counts c).c_total_targ
      else a.mean_acc c
    mean_acc_bs := fun c =>
      if c < n then
        if (counts c).c_sum = 0 ∨ (counts c).c_total_targ = 0 then a.mean_acc_bs c
        else a.mean_acc_bs c + 1
      else a.mean_acc_bs c
    mean_iou := fun c =>
      if c < n then
        (a.mean_iou c).bind (fun x =>
          (fdiv (counts c).c_sum
            ((counts c).c_false_pos + (counts c).c_sum + (counts c).c_false_neg)).map
            (fun iou => x + iou))
      else a.mean_iou c
    mean_iou_bs := fun c => if c < n then a.mean_iou_bs c + 1 else a.mean_iou_bs c }

/-- What `acc_v` returns (`acc`) and leaves in its reference arguments. -/
structure AccVResult where
  acc : Option ℚ
  meanacc : Option ℚ
  meaniou : Option ℚ
  clacc : List ℚ
deriving DecidableEq

/-- Member `acc_v(ad, meanacc, meaniou, clacc)`. -/
def acc_v (ad : VBatch) : Except Failure AccVResult := do
  if ad.nclasses < 0 then throw Failure.length_error
  let n := ad.nclasses.toNat
  let a ← ad.samples.foldlM (acc_v_sample n)
    (⟨0, fun _ => 0, fun _ => 0, fun _ => some 0, fun _ => 0⟩ : AccVAcc)
  let seen : Nat → Bool := fun c => decide (a.mean_acc_bs c > 0)
  let mean_acc : Nat → ℚ := fun c =>
    if seen c then a.mean_acc c / a.mean_acc_bs c else a.mean_acc c
  let mean_iou : Nat → Option ℚ := fun c =>
    if seen c then (a.mean_iou c).bind (fun x => fdiv x (a.mean_iou_bs c)) else a.mean_iou c
  let c_nclasses : Nat := (List.range n).countP seen
  pure {
    acc := fdiv a.acc_v ad.batch_size
    meanacc := fdiv ((List.range n).map mean_acc).sum c_nclasses
    meaniou := (osum ((List.range n).map mean_iou)).bind (fun x => fdiv x c_nclasses)
    clacc := (List.range n).map mean_acc }

/-- The struct `K` of `comp_gini`. -/
structure K where
  a : ℚ
  p : ℚ
deriving DecidableEq

/-- Insertion of `x` into a range sorted by decreasing `p`, before the first entry
whose `p` is not larger than that of `x`. -/
def stable_insert (x : K) : List K → List K
  | [] => [x]
  | y :: ys => if x.p < y.p then y :: stable_insert x ys else x :: y :: ys

/-- Call `std::stable_sort(k, k + a.size(), comp)` of `comp_gini`, where `comp(a, b)`
is `a.p > b.p`: decreasing `p`, entries with equal `p` in their order in `k`. -/
def stable_sort : List K → List K
  | [] => []
  | x :: xs => stable_insert x (stable_sort xs)

/-- The locals `accPopPercSum`, `accLossPercSum` and `giniSum` of `comp_gini`. -/
structure GiniSums where
  accPopPercSum : Option ℚ
  accLossPercSum : Option ℚ
  giniSum : Option ℚ
deriving DecidableEq

/-- Body of the loop `for (auto &i: k)` of `comp_gini`; `size` is `a.size()`. -/
def gini_step (sum : ℚ) (size : Nat) (s : GiniSums) (i : K) : GiniSums :=
  let accLossPercSum := oadd s.accLossPercSum (fdiv i.a sum)
  let accPopPercSum := oadd s.accPopPercSum (fdiv 1 size)
  let giniSum := oadd s.giniSum (osub accLossPercSum accPopPercSum)
  ⟨accPopPercSum, accLossPercSum, giniSum⟩

/-- Function `comp_gini(a, p)`; `p[i]` is read for every position of `a`. -/
def comp_gini (a p : List ℚ) : Except Failure (Option ℚ) :=
  if p.length < a.length then throw Failure.undefined
  else
    let k := (a.zip p).map (fun e => (⟨e.1, e.2⟩ : K))
    let k := stable_sort k
    let sum := a.foldl (fun sum i => sum + i) 0
    let s := k.foldl (gini_step sum a.length) ⟨some 0, some 0, some 0⟩
    pure (odiv s.giniSum (some (a.length : ℚ)))

/-- Function `comp_gini_normalized(a, p)`. -/
def comp_gini_normalized (a p : List ℚ) : Except Failure (Option ℚ) := do
  let num ← comp_gini a p
  let den ← comp_gini a a
  pure (odiv num den)

/-- Body of the loop of `gini`: the values stored in `a.at(i)` and `p.at(i)`, the
latter left at its initial 0 when not `regression`. -/
def gini_entry (regression : Bool) (bad : Sample) : Except Failure (ℚ × ℚ) :=
  let a := bad.target
  if regression then
    match bad.pred[0]? with
    | some p => pure (a, p)
    | none => throw Failure.out_of_range
  else
    let allpreds := bad.pred
    let a := (max_element allpreds : ℚ)
    pure (a, 0)

/-- Function `gini(ad, regression)`. -/
def gini (ad : EvalBatch) (regression : Bool) : Except Failure (Option ℚ) := do
  let ap ← ad.samples.mapM (gini_entry regression)
  comp_gini_normalized (ap.map Prod.fst) (ap.map Prod.snd)

end SupervisedOutput

/-! ## Vocabulary of the statements and proofs -/

/-- The iteration order of a multimap filled by inserting `l` front to back. -/
def ranked {α : Type} (l : List (ℚ × α)) : List (ℚ × α) :=
  l.foldl (fun acc kv => mm_insert kv acc) []

/-- The input positions `0 .. probs.length - 1` in the order in which a multimap
filled with the scores `probs` iterates them. -/
def rank_order (probs : List ℚ) : List Nat :=
  (ranked (probs.zip (List.range probs.length))).map Prod.snd

/-- Order of the entries of a multimap filled front to back with indexed scores:
strictly higher score first, and among equal scores the lower index first. -/
def StableDesc (l : List (ℚ × Nat)) : Prop :=
  l.Pairwise (fun a b => b.1 < a.1 ∨ (b.1 = a.1 ∧ a.2 < b.2))

/-- Entries of `l` at the positions marked `true` in `mask`. -/
def select {α : Type} : List Bool → List α → List α
  | m :: ms, a :: as => if m then a :: select ms as else select ms as
  | _, _ => []

namespace SupervisedOutput

/-- Shape condition under which the inner loop of `add_results` runs through the
first `n` positions. -/
def fits_upto (ad : RawTuple) (n : Nat) : Prop :=
  n ≤ ad.cats.length ∧
  (ad.bboxes.getD [] ≠ [] → n ≤ (ad.bboxes.getD []).length) ∧
  (ad.vals.getD [] ≠ [] → n ≤ (ad.vals.getD []).length)

instance (ad : RawTuple) (n : Nat) : Decidable (fits_upto ad n) := by
  unfold fits_upto; infer_instance

/-- The record held for a data object after the first `n` rounds of the inner loop of
`add_results`. -/
def filled (ad : RawTuple) (n : Nat) : sup_result :=
  { _label := ad.uri
    _loss := ad.loss
    _cats := ((ad.probs.zip ad.cats).take n).foldl multimap.insert multimap.empty
    _bboxes := ((ad.probs.zip (ad.bboxes.getD [])).take n).foldl multimap.insert multimap.empty
    _vals := ((ad.probs.zip (ad.vals.getD [])).take n).foldl multimap.insert multimap.empty }

/-- Shape condition under which `add_results` accepts a data object with a new uri. -/
def fits (ad : RawTuple) : Prop := fits_upto ad ad.probs.length

instance (ad : RawTuple) : Decidable (fits ad) := by
  unfold fits; infer_instance

/-- The record `add_results` builds for a data object with a new uri. -/
def record_of (ad : RawTuple) : sup_result := filled ad ad.probs.length

/-- The labels of the records, in record order. -/
def labels (s : SupervisedOutput) : List String := s._vvcats.map (fun r => r._label)

/-- The map `m` sends each label of `L` to its position, and nothing else. -/
def SyncedL (m : unordered_map) (L : List String) : Prop :=
  ∀ (u : String) (i : Int), m.find u = some i ↔ 0 ≤ i ∧ L[i.toNat]? = some u

/-- What `add_results` has established after consuming `vrad` from an empty connector:
the records follow the first appearances of the uris, the map is synchronized with
them, and each record is the one built from the first data object of its uri. -/
def AggInv (vrad : List RawTuple) (s : SupervisedOutput) : Prop :=
  SyncedL s._vcats (labels s) ∧
  (∀ u, u ∈ labels s ↔ u ∈ vrad.map (fun t => t.uri)) ∧
  (labels s).Pairwise (fun a b =>
    (vrad.map (fun t => t.uri)).indexOf a < (vrad.map (fun t => t.uri)).indexOf b) ∧
  (∀ r ∈ s._vvcats, ∃ t, vrad.find? (fun t => decide (t.uri = r._label)) = some t ∧
    fits t ∧ r = record_of t)

/-- The destination of `best_cats` after the reduced records `rs` were pushed. -/
def pushes (bcats : SupervisedOutput) (rs : List sup_result) : SupervisedOutput :=
  rs.foldl push_result bcats

/-- The decisions of the dedup loop of `best_cats`, one per box in iteration order:
`true` where the entry is kept. -/
def dedup_mask (best : Int) : unordered_map → List (ℚ × BBox) → List Bool
  | _, [] => []
  | lboxes, x :: mitx =>
    match lboxes.find (bbkey x.2) with
    | some n => decide (n + 1 ≤ best) :: dedup_mask best (lboxes.incr (bbkey x.2)) mitx
    | none => true :: dedup_mask best (lboxes.insert (bbkey x.2) 1) mitx

/-- Shape condition under which the dedup loop of `best_cats` stays within its three
containers: as many categories as boxes and, with `has_roi`, as many regions. -/
def DedupReady (has_roi : Bool) (r : sup_result) : Prop :=
  r._bboxes.size ≤ r._cats.size ∧ (has_roi = true → r._bboxes.size ≤ r._vals.size)

instance (has_roi : Bool) (r : sup_result) : Decidable (DedupReady has_roi r) := by
  unfold DedupReady; infer_instance

/-- The three lengths `(_cats, _bboxes, _vals)` of each record of `s`. -/
def record_sizes (s : SupervisedOutput) : List (Nat × Nat × Nat) :=
  s._vvcats.map (fun r => (r._cats.size, r._bboxes.size, r._vals.size))

/-- One record of the input and its reduction list the same ranks: there is a mask of
retained ranks that yields the output categories and boxes, categories and boxes
have the same length again when boxes were populated, and the same holds for the
regions when `regions_kept`. -/
def CoIndexed (regions_kept : Prop) (r o : sup_result) : Prop :=
  ∃ mask : List Bool,
    o._cats.1 = select mask r._cats.1 ∧
    o._bboxes.1 = select mask r._bboxes.1 ∧
    (r._bboxes.size ≠ 0 → o._bboxes.size = o._cats.size) ∧
    (regions_kept → o._vals.1 = select mask r._vals.1 ∧
      (r._vals.size ≠ 0 → o._vals.size = o._cats.size))

/-- Reduction of a list of records one by one, each on its own: the list of the
reduced records, or nothing when one of them has no reduction. -/
def reduce_each (f : sup_result → Option sup_result) :
    List sup_result → Option (List sup_result)
  | [] => some []
  | r :: rs =>
    match f r, reduce_each f rs with
    | some o, some os => some (o :: os)
    | _, _ => none

/-- The failure `conf_step` ends with on a sample, if any; it does not depend on the
matrix. -/
def conf_check (nclasses : Int) (bad : Sample) : Option Failure :=
  if bad.target < 0 then some Failure.bad_param
  else if bad.target ≥ nclasses then some Failure.bad_param
  else if nclasses ≤ max_element bad.pred then some Failure.undefined
  else none

/-- Number of samples whose largest prediction is at `i` and whose target converts to
the class `j`: the cell of the confusion matrix at row `i` and column `j`. -/
def conf_count (samples : List Sample) (i j : Nat) : ℚ :=
  (samples.countP (fun bad =>
    decide (max_element bad.pred = i ∧ (to_int bad.target).toNat = j)) : ℚ)

/-- Sum of column `j` of an `n`-by-`n` matrix. -/
def col_sum (C : dMat) (n j : Nat) : ℚ := ((List.range n).map (fun i => C i j)).sum

/-- Sum of row `i` of an `n`-by-`n` matrix. -/
def row_sum (C : dMat) (n i : Nat) : ℚ := ((List.range n).map (fun j => C i j)).sum

/-- Sum of the diagonal of an `n`-by-`n` matrix. -/
def trace (C : dMat) (n : Nat) : ℚ := ((List.range n).map (fun i => C i i)).sum

/-- Sum of all cells of an `n`-by-`n` matrix. -/
def total (C : dMat) (n : Nat) : ℚ := ((List.range n).map (fun j => col_sum C n j)).sum

/-- A function that agrees with `std::sqrt` on the squares of rationals. -/
def sqrt_model (x : ℚ) : ℚ := (Nat.sqrt x.num.natAbs : ℚ) / (Nat.sqrt x.den : ℚ)

/-- A function that agrees with `std::log` at 1. -/
def log_model (x : ℚ) : ℚ := x - 1

/-- One conforming `std::partial_sort` under `acc_comp(v)`: the whole index vector in
the order of decreasing scores, equal scores in their order in `l`. -/
def psort_model (v : List ℚ) (_m : Nat) (l : List Nat) : List Nat :=
  (ranked (l.map (fun i => (v.getD i 0, i)))).map Prod.snd

/-- Whether `acc` counts the sample for `k`: the sample has at least `k` predictions
and its target is one of the first `k` entries of the index vector after the partial
sort at `k - 1`. -/
def acc_counted (psort : List ℚ → Nat → List Nat → List Nat) (k : Int) (bad : Sample) : Bool :=
  decide (k ≤ bad.pred.length) &&
    ((psort bad.pred (k - 1).toNat (List.range bad.pred.length)).take k.toNat).any
      (fun i => decide ((i : ℚ) = bad.target))

/-- The fraction the specification names for `k`: the samples whose target is among
the `k - 1` highest-scored predicted indices, over the batch size. -/
def top_fraction (ad : EvalBatch) (k : Int) : Option ℚ :=
  fdiv (ad.samples.countP (fun bad =>
    ((rank_order bad.pred).take (k - 1).toNat).any (fun i => decide ((i : ℚ) = bad.target))))
    ad.batch_size

/-- What `to_ad` writes into the per-rank entry `nad` of the category `m`: the label
under `cat` unless `autoencoder`, the score under `val`, `loss` or `prob`, and the
marker `last` when `is_last`. -/
def RankEntry (regression autoencoder is_last : Bool) (m : ℚ × String) (nad : APIData) : Prop :=
  nad.lookup "cat" = (if autoencoder then none else some (ad_value.str m.2)) ∧
  nad.lookup "val" = (if regression then some (ad_value.num m.1) else none) ∧
  nad.lookup "loss" = (if !regression && autoencoder then some (ad_value.num m.1) else none) ∧
  nad.lookup "prob" = (if !regression && !autoencoder then some (ad_value.num m.1) else none) ∧
  nad.lookup "last" = (if is_last then some (ad_value.flag true) else none)

/-- The key under which `to_ad` stores the per-rank entries of a record. -/
def group_key (regression autoencoder has_roi : Bool) : String :=
  if regression then "vector"
  else if autoencoder then "losses"
  else if has_roi then "rois"
  else "classes"

/-- The record has a box, and with `has_roi` a region, for each of its categories
where `to_ad` reads them. -/
def Serializable (has_bbox has_roi : Bool) (r : sup_result) : Prop :=
  ((has_bbox || has_roi) = true → r._cats.size ≤ r._bboxes.size) ∧
  (has_roi = true → r._cats.size ≤ r._vals.size)

/-- The target of a sample by dimension: the vector, or the scalar as its one
dimension. -/
def target_dims (bad : RegSample) : List ℚ :=
  match bad.target with
  | .num t => [t]
  | .vec v => v

/-- The sum, over the target dimensions of a sample with a target that is not negative,
of the squared difference of prediction and target. -/
def sq_err (bad : RegSample) : ℚ :=
  (((bad.pred.zip (target_dims bad)).filter (fun pt => decide (0 ≤ pt.2))).map
    (fun pt => (pt.1 - pt.2) ^ 2)).sum

/-- A sample as `eucll` expects it: a scalar target beside at most one prediction (one
when the target is not negative), or a target vector beside more than one prediction
and not longer than the predictions. -/
def EucllShaped (bad : RegSample) : Prop :=
  match bad.target with
  | .num t => bad.pred.length ≤ 1 ∧ (0 ≤ t → bad.pred.length = 1)
  | .vec v => 1 < bad.pred.length ∧ v.length ≤ bad.pred.length

/-- The label positions of a batch with target vectors: prediction and target of each
position of each sample, in order. -/
def positions (samples : List VSample) : List (ℚ × ℚ) :=
  samples.flatMap (fun bad => bad.pred.zip bad.target)

/-- Number of the positions that are not ignored and satisfy `f`, as a double. -/
def tally (f : ℚ → ℚ → Bool) (es : List (ℚ × ℚ)) : ℚ :=
  (es.countP (fun pt => decide (0 ≤ pt.2) && f pt.1 pt.2) : Nat)

/-- True positive: the target is at least 0.5 and the prediction at least 0. -/
def is_tp (p t : ℚ) : Bool := decide (1 / 2 ≤ t) && decide (0 ≤ p)

/-- False negative: the target is at least 0.5 and the prediction below 0. -/
def is_fn (p t : ℚ) : Bool := decide (1 / 2 ≤ t) && decide (p < 0)

/-- True negative: the target is below 0.5 and the prediction below 0. -/
def is_tn (p t : ℚ) : Bool := decide (t < 1 / 2) && decide (p < 0)

/-- False positive: the target is below 0.5 and the prediction at least 0. -/
def is_fp (p t : ℚ) : Bool := decide (t < 1 / 2) && decide (0 ≤ p)

/-- The prediction is within `d` of the target. -/
def within (d : ℚ) (p t : ℚ) : Bool := decide (|t - p| < d)

/-- Every position. -/
def any_position (_p _t : ℚ) : Bool := true

/-- Number of the pixels of a sample that have class `c` as target and as
prediction. -/
def correct (c : Nat) (bad : VSample) : Nat :=
  (bad.pred.zip bad.target).countP (fun pt => decide (pt.1 = (c : ℚ) ∧ pt.2 = (c : ℚ)))

/-- Number of the pixels of a sample that have class `c` as target. -/
def occurs (c : Nat) (bad : VSample) : Nat :=
  bad.target.countP (fun t => decide (t = (c : ℚ)))

/-- The samples in which class `c` is predicted correctly at least once. -/
def hit_samples (c : Nat) (samples : List VSample) : List VSample :=
  samples.filter (fun bad => decide (correct c bad ≠ 0))

/-- The accuracy `acc_v` leaves for class `c`: the mean, over the samples in which the
class is predicted correctly at least once, of its correctly predicted pixels over
its target pixels, and 0 without such a sample. -/
def class_acc (samples : List VSample) (c : Nat) : ℚ :=
  if hit_samples c samples = [] then 0
  else ((hit_samples c samples).map (fun bad => (correct c bad : ℚ) / (occurs c bad : ℚ))).sum
    / (hit_samples c samples).length

/-- The classes below `n` that are predicted correctly at least once in some sample. -/
def hit_classes (n : Nat) (samples : List VSample) : List Nat :=
  (List.range n).filter (fun c => decide (hit_samples c samples ≠ []))

/-- The mean class accuracy as the specification words it: the mean, over the classes
below `n` that occur in the targets of some sample, of the mean, over the samples in
which the class occurs, of its correctly predicted pixels over its target pixels. -/
def meanacc_over_present (n : Nat) (samples : List VSample) : Option ℚ :=
  let present := (List.range n).filter (fun c => samples.any (fun bad => decide (occurs c bad ≠ 0)))
  fdiv ((present.map (fun c =>
      let ss := samples.filter (fun bad => decide (occurs c bad ≠ 0))
      (ss.map (fun bad => (correct c bad : ℚ) / (occurs c bad : ℚ))).sum / ss.length)).sum)
    present.length

/-- A sample as `acc_v` expects it: as many targets as predictions, at least one. -/
def PixelShaped (bad : VSample) : Prop :=
  bad.pred ≠ [] ∧ bad.pred.length = bad.target.length

/-- Twice what a pair of a negative with score `a` and a positive with score `b` adds
to the rank statistic: 2 when the positive has the higher score, 1 when the scores
are equal. -/
def pair_weight (a b : ℚ) : Int := if a < b then 2 else if a = b then 1 else 0

/-- Sum of the pair weights of the score `t` against the positives of `l`. -/
def posw (t : ℚ) (l : List PredictionAndAnswer) : Int :=
  (l.map (fun p => p.answer * pair_weight t p.prediction)).sum

/-- Number of the negatives of `l` with score `t`. -/
def negeq (t : ℚ) (l : List PredictionAndAnswer) : Int :=
  (l.map (fun n => (1 - n.answer) * (if n.prediction = t then 1 else 0))).sum

/-- Sum of the pair weights over the pairs of a negative and a positive of `l`. -/
def cross (l : List PredictionAndAnswer) : Int :=
  (l.map (fun n => (1 - n.answer) * posw n.prediction l)).sum

/-- The value `accum` would have if the sweep of `auc` ended in the state `st`. -/
def closed_accum (st : AucSweep) : Int := st.accum + st.tn * (st.truePos + st.tp0)

/-- The samples as `auc(pred, targets)` compares them: the prediction as a `float` and
the target as an `int`. -/
def scored (pred targets : List ℚ) : List PredictionAndAnswer :=
  List.zipWith (fun x t => (⟨to_float x, to_int t⟩ : PredictionAndAnswer)) pred targets

/-- Number of the positives of `l`. -/
def positives (l : List PredictionAndAnswer) : Nat := l.countP (fun p => decide (p.answer = 1))

/-- Number of the negatives of `l`. -/
def negatives (l : List PredictionAndAnswer) : Nat := l.countP (fun n => decide (n.answer = 0))

/-- The pair of the negative `n` and the positive `p` has the higher score on its
positive. -/
def is_higher (n p : PredictionAndAnswer) : Bool :=
  decide (n.answer = 0 ∧ p.answer = 1 ∧ n.prediction < p.prediction)

/-- The pair of the negative `n` and the positive `p` has equal scores. -/
def is_tied (n p : PredictionAndAnswer) : Bool :=
  decide (n.answer = 0 ∧ p.answer = 1 ∧ n.prediction = p.prediction)

/-- Number of the pairs of a negative and a positive of `l` whose positive has the
higher score. -/
def higher_pairs (l : List PredictionAndAnswer) : Nat :=
  (l.map (fun n => l.countP (is_higher n))).sum

/-- Number of the pairs of a negative and a positive of `l` with equal scores. -/
def tied_pairs (l : List PredictionAndAnswer) : Nat :=
  (l.map (fun n => l.countP (is_tied n))).sum

/-- The rank statistic of the samples `l`: the pairs of a negative and a positive whose
positive has the higher score, plus half the pairs with equal scores, over the number
of pairs of a negative and a positive. -/
def rank_statistic (l : List PredictionAndAnswer) : ℚ :=
  ((higher_pairs l : ℚ) + (tied_pairs l : ℚ) / 2) / ((positives l : ℚ) * (negatives l : ℚ))

/-- The samples with their scores as given, not rounded. -/
def unrounded (pred targets : List ℚ) : List PredictionAndAnswer :=
  List.zipWith (fun x t => (⟨x, to_int t⟩ : PredictionAndAnswer)) pred targets

/-- Sample input: three data objects, the third repeating the uri of the first. -/
def sample_vrad : List RawTuple :=
  [⟨"a", 0, [9, 1], ["cat0", "cat1"], none, none⟩,
   ⟨"b", 0, [3, 7], ["cat0", "cat1"], none, none⟩,
   ⟨"a", 0, [5, 5, 2], ["cat0", "cat1", "cat2"], none, none⟩]

/-- The connector state `add_results` reaches on `sample_vrad`. -/
def sample_out : SupervisedOutput :=
  { _best := 1
    _vcats := [("a", 0), ("b", 1)]
    _vvcats := [
      ⟨"a", 0, ⟨[(9, "cat0"), (1, "cat1")], by decide⟩, multimap.empty, multimap.empty⟩,
      ⟨"b", 0, ⟨[(7, "cat1"), (3, "cat0")], by decide⟩, multimap.empty, multimap.empty⟩] }

/-- A data object with one score and two category names. -/
def long_cats_tuple : RawTuple := ⟨"a", 0, [1], ["cat0", "cat1"], none, none⟩

/-- A data object with two scores and one category name. -/
def short_cats_tuple : RawTuple := ⟨"c", 0, [1, 2], ["cat0"], none, none⟩

/-- Sample input with boxes: one data object with three scores and three boxes. -/
def sample_boxed : List RawTuple :=
  [⟨"img", 0, [4, 8, 8], ["cat", "dog", "fox"],
    some [⟨0, 0, 1, 1⟩, ⟨0, 0, 2, 2⟩, ⟨0, 0, 3, 3⟩], none⟩]

/-- The connector state `add_results` reaches on `sample_boxed`. -/
def sample_boxed_out : SupervisedOutput :=
  { _best := 1
    _vcats := [("img", 0)]
    _vvcats := [
      ⟨"img", 0, ⟨[(8, "dog"), (8, "fox"), (4, "cat")], by decide⟩,
        ⟨[(8, ⟨0, 0, 2, 2⟩), (8, ⟨0, 0, 3, 3⟩), (4, ⟨0, 0, 1, 1⟩)], by decide⟩,
        multimap.empty⟩] }

/-- A set with one record holding one category, one box and one region. -/
def roi_set : SupervisedOutput :=
  { _best := 1
    _vcats := [("img", 0)]
    _vvcats := [
      ⟨"img", 0, ⟨[(9, "cat")], by decide⟩, ⟨[(9, ⟨0, 0, 1, 1⟩)], by decide⟩,
        ⟨[(9, [1, 2])], by decide⟩⟩] }

/-- A set with two records that hold the same box twice each. -/
def two_records : SupervisedOutput :=
  { _best := 1
    _vcats := [("a", 0), ("b", 1)]
    _vvcats := [
      ⟨"a", 0, ⟨[(9, "cat"), (8, "dog")], by decide⟩,
        ⟨[(9, ⟨0, 0, 1, 1⟩), (8, ⟨0, 0, 1, 1⟩)], by decide⟩, multimap.empty⟩,
      ⟨"b", 0, ⟨[(7, "cat"), (6, "dog")], by decide⟩,
        ⟨[(7, ⟨0, 0, 1, 1⟩), (6, ⟨0, 0, 1, 1⟩)], by decide⟩, multimap.empty⟩] }

/-- The set `two_records` with its records in the other order. -/
def two_records_swapped : SupervisedOutput :=
  { _best := 1
    _vcats := [("b", 0), ("a", 1)]
    _vvcats := [
      ⟨"b", 0, ⟨[(7, "cat"), (6, "dog")], by decide⟩,
        ⟨[(7, ⟨0, 0, 1, 1⟩), (6, ⟨0, 0, 1, 1⟩)], by decide⟩, multimap.empty⟩,
      ⟨"a", 0, ⟨[(9, "cat"), (8, "dog")], by decide⟩,
        ⟨[(9, ⟨0, 0, 1, 1⟩), (8, ⟨0, 0, 1, 1⟩)], by decide⟩, multimap.empty⟩] }

/-- The reduction of `two_records` in dedup mode with `best = 1`. -/
def two_records_out : SupervisedOutput :=
  { _best := 1
    _vcats := [("a", 0), ("b", 1)]
    _vvcats := [
      ⟨"a", 0, ⟨[(9, "cat")], by decide⟩, ⟨[(9, ⟨0, 0, 1, 1⟩)], by decide⟩, multimap.empty⟩,
      ⟨"b", 0, ⟨[(7, "cat")], by decide⟩, ⟨[(7, ⟨0, 0, 1, 1⟩)], by decide⟩, multimap.empty⟩] }

/-- The reduction of `two_records_swapped` in dedup mode with `best = 1`. -/
def two_records_swapped_out : SupervisedOutput :=
  { _best := 1
    _vcats := [("b", 0), ("a", 1)]
    _vvcats := [
      ⟨"b", 0, ⟨[(7, "cat")], by decide⟩, ⟨[(7, ⟨0, 0, 1, 1⟩)], by decide⟩, multimap.empty⟩,
      ⟨"a", 0, ⟨[(9, "cat")], by decide⟩, ⟨[(9, ⟨0, 0, 1, 1⟩)], by decide⟩, multimap.empty⟩] }

/-- Three samples `a`, `b`, `c` with two categories and the scores `[0.9, 0.1]`,
`[0.3, 0.7]`, `[0.5, 0.5]`. -/
def abc_vrad : List RawTuple :=
  [⟨"a", 0, [9 / 10, 1 / 10], ["cat0", "cat1"], none, none⟩,
   ⟨"b", 0, [3 / 10, 7 / 10], ["cat0", "cat1"], none, none⟩,
   ⟨"c", 0, [5 / 10, 5 / 10], ["cat0", "cat1"], none, none⟩]

/-- A batch of 20 samples with two classes whose confusion matrix, predicted class by
row and true class by column, is `[[8, 2], [1, 9]]`. -/
def cm_batch : EvalBatch :=
  { nclasses := 2
    samples := List.replicate 8 ⟨[1, 0], 0⟩ ++ List.replicate 2 ⟨[1, 0], 1⟩
      ++ List.replicate 1 ⟨[0, 1], 0⟩ ++ List.replicate 9 ⟨[0, 1], 1⟩ }

/-- A batch with two classes in which every sample is predicted 0 with target 0. -/
def one_cell_batch : EvalBatch :=
  { nclasses := 2
    samples := [⟨[7, 3], 0⟩, ⟨[8, 2], 0⟩, ⟨[6, 6], 0⟩] }

/-- A batch with two classes whose second sample has the target 2. -/
def high_target_batch : EvalBatch :=
  { nclasses := 2
    samples := [⟨[7, 3], 0⟩, ⟨[2, 8], 2⟩] }

/-- A batch with two classes and one sample whose target is 5. -/
def stray_target_batch : EvalBatch :=
  { nclasses := 2
    samples := [⟨[7, 3], 5⟩] }

/-- The batch without samples, two classes. -/
def empty_batch : EvalBatch :=
  { nclasses := 2
    samples := [] }

/-- A batch of two samples whose prediction vectors give 1 to the target class. -/
def sure_batch : EvalBatch :=
  { nclasses := 2
    samples := [⟨[1, 0], 0⟩, ⟨[0, 1], 1⟩] }

/-- A batch of one sample with one prediction, its target the index 0. -/
def one_score_batch : EvalBatch :=
  { nclasses := 1
    samples := [⟨[1], 0⟩] }

/-- A batch of one sample whose target is the lower scored of two indices. -/
def second_best_batch : EvalBatch :=
  { nclasses := 2
    samples := [⟨[9/10, 1/10], 1⟩] }

/-- A batch of four samples with three predictions each. -/
def ranked_batch : EvalBatch :=
  { nclasses := 3
    samples := [⟨[5/10, 3/10, 2/10], 0⟩, ⟨[5/10, 3/10, 2/10], 1⟩,
      ⟨[5/10, 3/10, 2/10], 2⟩, ⟨[1/10, 2/10, 7/10], 2⟩] }

/-- A batch of one sample with three predictions, its target the top index. -/
def three_score_batch : EvalBatch :=
  { nclasses := 3
    samples := [⟨[5/10, 3/10, 2/10], 0⟩] }

/-- The batch `three_score_batch` with one more sample, which has one prediction. -/
def with_short_batch : EvalBatch :=
  { nclasses := 3
    samples := [⟨[5/10, 3/10, 2/10], 0⟩, ⟨[1], 0⟩] }

/-- A batch of a sample with a target vector, its second dimension ignored, and a
sample with a scalar target. -/
def eucl_batch : List RegSample :=
  [⟨[1, 2], .vec [1, -1]⟩, ⟨[3], .num 1⟩]

/-- A multilabel batch of one sample with a true positive, a false positive, an
ignored position and a false negative. -/
def ml_batch : VBatch :=
  { nclasses := 4
    samples := [⟨[1, 1, 1, -1], [1, 0, -1, 1]⟩] }

/-- A segmentation batch of one sample with two pixels, both predicted as class 0, the
second of class 1. -/
def missed_class_batch : VBatch :=
  { nclasses := 2
    samples := [⟨[0, 0], [0, 1]⟩] }

/-- A segmentation batch of two samples with two pixels each. -/
def pixel_batch : VBatch :=
  { nclasses := 2
    samples := [⟨[0, 1], [0, 1]⟩, ⟨[1, 1], [0, 1]⟩] }

/-- A batch with two classes and one sample, of class 0 and predicted 0. -/
def unseen_class_batch : EvalBatch :=
  { nclasses := 2
    samples := [⟨[9/10, 1/10], 0⟩] }

/-- A batch with two classes whose samples give every class a probability above 0. -/
def mixed_batch : EvalBatch :=
  { nclasses := 2
    samples := [⟨[7/10, 3/10], 0⟩, ⟨[4/10, 6/10], 1⟩, ⟨[6/10, 4/10], 1⟩] }

/-- A multilabel batch of one position, with target 0 and a negative prediction. -/
def one_negative_batch : VBatch :=
  { nclasses := 1
    samples := [⟨[-1], [0]⟩] }

/-- A segmentation batch with three classes of one sample in which class 2 is neither a
target nor predicted. -/
def absent_class_batch : VBatch :=
  { nclasses := 3
    samples := [⟨[0, 0], [0, 1]⟩] }

/-- A segmentation batch of one sample with one pixel, of class 0 and predicted as
class 1. -/
def no_hit_batch : VBatch :=
  { nclasses := 2
    samples := [⟨[1], [0]⟩] }

/-- A batch of six samples with two classes whose confusion matrix, predicted class by
row and true class by column, is `[[2, 1], [1, 2]]`. -/
def balanced_batch : EvalBatch :=
  { nclasses := 2
    samples := [⟨[1, 0], 0⟩, ⟨[1, 0], 0⟩, ⟨[1, 0], 1⟩, ⟨[0, 1], 0⟩, ⟨[0, 1], 1⟩, ⟨[0, 1], 1⟩] }

/-- A batch of three samples with two classes. -/
def gini_batch : EvalBatch :=
  { nclasses := 2
    samples := [⟨[1, 0], 0⟩, ⟨[0, 1], 1⟩, ⟨[0, 1], 0⟩] }

/-- The batch `gini_batch` with other targets. -/
def gini_batch_retargeted : EvalBatch :=
  { nclasses := 2
    samples := [⟨[1, 0], 1⟩, ⟨[0, 1], 0⟩, ⟨[0, 1], 7⟩] }

/-- A batch of three samples with one label each, every prediction equal to its
target. -/
def overrun_batch : VBatch :=
  { nclasses := 1
    samples := [⟨[1 / 2], [1 / 2]⟩, ⟨[1 / 4], [1 / 4]⟩, ⟨[1], [1]⟩] }

/-! ## Aggregation: the inner loop of `add_results` -/

theorem at_apply_last (vv : List sup_result) (r : sup_result) (f : sup_result → sup_result) :
    at_apply (vv ++ [r]) (vv.length : Int) f = some (vv ++ [f r]) := by
  unfold at_apply
  have h0 : ¬ ((vv.length : Int) < 0) := by omega
  simp only [h0, if_false, Int.toNat_ofNat]
  rw [List.getElem?_append_right (le_refl _)]
  simp [List.set_append_right]

theorem take_succ_zip {α β : Type} (l₁ : List α) (l₂ : List β) (n : Nat) (a : α) (b : β)
    (ha : l₁[n]? = some a) (hb : l₂[n]? = some b) :
    (l₁.zip l₂).take (n + 1) = (l₁.zip l₂).take n ++ [(a, b)] := by
  rw [List.take_succ]
  have : (l₁.zip l₂)[n]? = some (a, b) := List.getElem?_zip_eq_some.2 ⟨ha, hb⟩
  rw [this]; rfl

theorem fits_upto_succ (ad : RawTuple) (n : Nat) :
    fits_upto ad (n + 1) ↔ fits_upto ad n ∧ n < ad.cats.length ∧
      (ad.bboxes.getD [] ≠ [] → n < (ad.bboxes.getD []).length) ∧
      (ad.vals.getD [] ≠ [] → n < (ad.vals.getD []).length) := by
  unfold fits_upto
  constructor
  · rintro ⟨h1, h2, h3⟩
    exact ⟨⟨by omega, fun h => by have := h2 h; omega, fun h => by have := h3 h; omega⟩,
      h1, h2, h3⟩
  · rintro ⟨-, h1, h2, h3⟩
    exact ⟨h1, h2, h3⟩

theorem isEmpty_false_of_ne_nil {α : Type} (l : List α) (h : l ≠ []) : l.isEmpty = false := by
  cases l with
  | nil => exact absurd rfl h
  | cons _ _ => rfl

theorem add_results_step_filled (ad : RawTuple) (vv : List sup_result) (n : Nat)
    (hn : n < ad.probs.length) :
    add_results_step ad.probs ad.cats (ad.bboxes.getD []) (ad.vals.getD []) vv.length
      (vv ++ [filled ad n]) n
    = if fits_upto ad (n + 1) then some (vv ++ [filled ad (n + 1)]) else none := by
  have hp : ad.probs[n]? = some ad.probs[n] := List.getElem?_eq_getElem hn
  unfold add_results_step
  simp only [hp, Option.bind_eq_bind, Option.some_bind, Option.pure_def]
  by_cases hc : n < ad.cats.length
  · have hcs : ad.cats[n]? = some ad.cats[n] := List.getElem?_eq_getElem hc
    simp only [hcs, Option.some_bind, at_apply_last]
    by_cases hb0 : ad.bboxes.getD [] = []
    · by_cases hr0 : ad.vals.getD [] = []
      · have hf : fits_upto ad (n + 1) := ⟨hc, fun h => absurd hb0 h, fun h => absurd hr0 h⟩
        simp only [hb0, hr0, hf, List.isEmpty_nil, Bool.not_true, if_true, Option.some_bind]
        simp [filled, sup_result.add_cat, take_succ_zip _ _ n _ _ hp hcs, hb0, hr0,
          List.foldl_append]
      · have he := isEmpty_false_of_ne_nil _ hr0
        by_cases hr : n < (ad.vals.getD []).length
        · have hrs : (ad.vals.getD [])[n]? = some (ad.vals.getD [])[n] :=
            List.getElem?_eq_getElem hr
          have hf : fits_upto ad (n + 1) := ⟨hc, fun h => absurd hb0 h, fun _ => hr⟩
          simp only [hb0, he, hf, hrs, List.isEmpty_nil, Bool.not_true, Bool.not_false, if_true,
            Option.some_bind, at_apply_last]
          simp [filled, sup_result.add_cat, sup_result.add_val,
            take_succ_zip _ _ n _ _ hp hcs, take_succ_zip _ _ n _ _ hp hrs, hb0,
            List.foldl_append]
        · have hf : ¬ fits_upto ad (n + 1) := fun h => hr (h.2.2 hr0)
          simp [hb0, he, hf, List.getElem?_eq_none (not_lt.1 hr)]
    · have heb := isEmpty_false_of_ne_nil _ hb0
      by_cases hb : n < (ad.bboxes.getD []).length
      · have hbs : (ad.bboxes.getD [])[n]? = some (ad.bboxes.getD [])[n] :=
          List.getElem?_eq_getElem hb
        by_cases hr0 : ad.vals.getD [] = []
        · have hf : fits_upto ad (n + 1) := ⟨hc, fun _ => hb, fun h => absurd hr0 h⟩
          simp only [heb, hr0, hf, hbs, List.isEmpty_nil, Bool.not_true, Bool.not_false, if_true,
            Option.some_bind, at_apply_last]
          simp [filled, sup_result.add_cat, sup_result.add_bbox,
            take_succ_zip _ _ n _ _ hp hcs, take_succ_zip _ _ n _ _ hp hbs, hr0,
            List.foldl_append]
        · have he := isEmpty_false_of_ne_nil _ hr0
          by_cases hr : n < (ad.vals.getD []).length
          · have hrs : (ad.vals.getD [])[n]? = some (ad.vals.getD [])[n] :=
              List.getElem?_eq_getElem hr
            have hf : fits_upto ad (n + 1) := ⟨hc, fun _ => hb, fun _ => hr⟩
            simp only [heb, he, hf, hbs, hrs, Bool.not_false, if_true,
              Option.some_bind, at_apply_last]
            simp [filled, sup_result.add_cat, sup_result.add_val, sup_result.add_bbox,
              take_succ_zip _ _ n _ _ hp hcs, take_succ_zip _ _ n _ _ hp hrs,
              take_succ_zip _ _ n _ _ hp hbs, List.foldl_append]
          · have hf : ¬ fits_upto ad (n + 1) := fun h => hr (h.2.2 hr0)
            simp [heb, he, hbs, at_apply_last, hf, List.getElem?_eq_none (not_lt.1 hr)]
      · have hf : ¬ fits_upto ad (n + 1) := fun h => hb (h.2.1 hb0)
        simp [heb, hf, List.getElem?_eq_none (not_lt.1 hb)]
  · have : ¬ fits_upto ad (n + 1) := fun h => hc h.1
    simp [this, List.getElem?_eq_none (not_lt.1 hc)]

theorem fill_range (ad : RawTuple) (vv : List sup_result) (n : Nat)
    (hn : n ≤ ad.probs.length) :
    (List.range n).foldlM
      (add_results_step ad.probs ad.cats (ad.bboxes.getD []) (ad.vals.getD []) vv.length)
      (vv ++ [sup_result.new ad.uri ad.loss])
    = if fits_upto ad n then some (vv ++ [filled ad n]) else none := by
  induction n with
  | zero =>
    have : fits_upto ad 0 := ⟨Nat.zero_le _, fun _ => Nat.zero_le _, fun _ => Nat.zero_le _⟩
    simp [this, filled, sup_result.new]
  | succ n ih =>
    rw [List.range_succ, List.foldlM_append, ih (Nat.le_of_succ_le hn)]
    by_cases hf : fits_upto ad n
    · rw [if_pos hf]
      simp only [Option.bind_eq_bind, Option.some_bind, List.foldlM_cons, List.foldlM_nil,
        Option.pure_def]
      rw [add_results_step_filled ad vv n (by omega)]
      split <;> rfl
    · rw [if_neg hf]
      have : ¬ fits_upto ad (n + 1) := fun h => hf ((fits_upto_succ ad n).1 h).1
      simp [this]

/-! ## Aggregation: `add_results` from an empty connector -/

theorem add_result_eq (s : SupervisedOutput) (ad : RawTuple) :
    add_result s ad =
      match s._vcats.find ad.uri with
      | some _ => some s
      | none => if fits ad then
          some { s with _vcats := s._vcats.insert ad.uri s._vvcats.length
                        _vvcats := s._vvcats ++ [record_of ad] }
        else none := by
  unfold add_result
  cases hfind : s._vcats.find ad.uri with
  | some _ => rfl
  | none =>
    simp only
    rw [fill_range ad s._vvcats ad.probs.length (le_refl _)]
    by_cases hf : fits ad
    · have hf2 : fits_upto ad ad.probs.length := hf
      simp only [hf, hf2, if_true, record_of]
    · have hf2 : ¬ fits_upto ad ad.probs.length := hf
      simp only [hf, hf2, if_false]

theorem add_results_snoc (s : SupervisedOutput) (l : List RawTuple) (t : RawTuple) :
    add_results s (l ++ [t]) = (add_results s l).bind (fun s1 => add_result s1 t) := by
  unfold add_results
  rw [List.foldlM_append]
  simp only [Option.bind_eq_bind, List.foldlM_cons, List.foldlM_nil, Option.pure_def]
  congr 1
  funext s1
  cases add_result s1 t <;> rfl

theorem syncedL_nil : SyncedL [] [] := by
  intro u i
  simp [unordered_map.find]

theorem syncedL_find_none {m : unordered_map} {L : List String} (h : SyncedL m L)
    (u : String) : m.find u = none ↔ u ∉ L := by
  constructor
  · intro hn hu
    obtain ⟨n, hn'⟩ := List.mem_iff_getElem?.1 hu
    have := (h u (n : Int)).2 ⟨by omega, by simpa using hn'⟩
    rw [hn] at this
    exact Option.noConfusion this
  · intro hu
    cases hf : m.find u with
    | none => rfl
    | some i =>
      have := ((h u i).1 hf).2
      exact absurd (List.mem_iff_getElem?.2 ⟨_, this⟩) hu

theorem syncedL_push {m : unordered_map} {L : List String} (h : SyncedL m L)
    (u : String) (hu : m.find u = none) :
    SyncedL (m.insert u L.length) (L ++ [u]) := by
  have hnot : u ∉ L := (syncedL_find_none h u).1 hu
  have hins : m.insert u L.length = m ++ [(u, (L.length : Int))] := by
    unfold unordered_map.insert
    unfold unordered_map.find at hu
    rw [hu]
  rw [hins]
  intro v i
  unfold unordered_map.find
  rw [List.lookup_append]
  by_cases hv : v = u
  · subst hv
    have hl : List.lookup v m = none := hu
    rw [hl]
    simp only [Option.none_or, List.lookup_cons, beq_self_eq_true, Option.some.injEq]
    constructor
    · intro hi
      subst hi
      exact ⟨by omega, by simp⟩
    · rintro ⟨h0, hget⟩
      by_cases hlt : i.toNat < L.length
      · rw [List.getElem?_append_left hlt] at hget
        exact absurd (List.mem_iff_getElem?.2 ⟨_, hget⟩) hnot
      · by_cases heq : i.toNat = L.length
        · omega
        · rw [List.getElem?_eq_none (by simp; omega)] at hget
          exact Option.noConfusion hget
  · have hne : (v == u) = false := by simpa using hv
    have hl2 : List.lookup v [(u, (L.length : Int))] = none := by
      simp [List.lookup_cons, hne]
    rw [hl2, Option.or_none]
    have := h v i
    unfold unordered_map.find at this
    rw [this]
    constructor
    · rintro ⟨h0, hget⟩
      refine ⟨h0, ?_⟩
      have hlt : i.toNat < L.length := (List.getElem?_eq_some.1 hget).1
      rw [List.getElem?_append_left hlt]; exact hget
    · rintro ⟨h0, hget⟩
      refine ⟨h0, ?_⟩
      by_cases hlt : i.toNat < L.length
      · rw [List.getElem?_append_left hlt] at hget; exact hget
      · rw [List.getElem?_append_right (not_lt.1 hlt)] at hget
        have : u = v := by
          cases hk : i.toNat - L.length with
          | zero => rw [hk] at hget; simpa using hget
          | succ k => rw [hk] at hget; simp at hget
        exact absurd this.symm hv

theorem record_of_label (t : RawTuple) : (record_of t)._label = t.uri := rfl

theorem aggInv_step (l : List RawTuple) (t : RawTuple) (s s1 : SupervisedOutput)
    (hinv : AggInv l s) (hstep : add_result s t = some s1) : AggInv (l ++ [t]) s1 := by
  obtain ⟨hsync, hmem, hord, hrec⟩ := hinv
  rw [add_result_eq] at hstep
  have hidx : ∀ a, a ∈ labels s →
      (List.map (fun t => t.uri) (l ++ [t])).indexOf a = (l.map (fun t => t.uri)).indexOf a := by
    intro a ha
    rw [List.map_append, List.indexOf_append_of_mem ((hmem a).1 ha)]
  have hord2 : (labels s).Pairwise (fun a b =>
      (List.map (fun t => t.uri) (l ++ [t])).indexOf a
        < (List.map (fun t => t.uri) (l ++ [t])).indexOf b) := by
    refine List.Pairwise.imp_of_mem ?_ hord
    intro a b ha hb hab
    rw [hidx a ha, hidx b hb]; exact hab
  have hrec2 : ∀ r ∈ s._vvcats, ∃ t0,
      (l ++ [t]).find? (fun t => decide (t.uri = r._label)) = some t0 ∧ fits t0
        ∧ r = record_of t0 := by
    intro r hr
    obtain ⟨t0, hfind, hfit, hr⟩ := hrec r hr
    exact ⟨t0, by rw [List.find?_append, hfind]; rfl, hfit, hr⟩
  cases hfind : s._vcats.find t.uri with
  | some i =>
    rw [hfind] at hstep
    simp only [Option.some.injEq] at hstep
    subst hstep
    have hin : t.uri ∈ labels s := by
      by_contra hc
      rw [(syncedL_find_none hsync t.uri).2 hc] at hfind
      exact Option.noConfusion hfind
    refine ⟨hsync, ?_, hord2, hrec2⟩
    intro u
    rw [hmem u, List.map_append, List.mem_append]
    constructor
    · exact Or.inl
    · rintro (h | h)
      · exact h
      · simp only [List.map_cons, List.map_nil, List.mem_singleton] at h
        subst h; exact (hmem _).1 hin
  | none =>
    rw [hfind] at hstep
    by_cases hf : fits t
    · simp only [hf, if_true, Option.some.injEq] at hstep
      subst hstep
      have hnot : t.uri ∉ labels s := (syncedL_find_none hsync t.uri).1 hfind
      have hnot2 : t.uri ∉ l.map (fun t => t.uri) := fun h => hnot ((hmem _).2 h)
      have hlab : labels { s with _vcats := s._vcats.insert t.uri s._vvcats.length
                                  _vvcats := s._vvcats ++ [record_of t] }
          = labels s ++ [t.uri] := by
        simp [labels, record_of_label]
      have hlen : (s._vvcats.length : Int) = ((labels s).length : Int) := by
        simp [labels]
      refine ⟨?_, ?_, ?_, ?_⟩
      · rw [hlab]
        simp only
        rw [hlen]
        exact syncedL_push hsync t.uri hfind
      · intro u
        rw [hlab, List.mem_append, hmem u, List.map_append, List.mem_append]
        simp
      · rw [hlab, List.pairwise_append]
        refine ⟨hord2, List.pairwise_singleton _ _, ?_⟩
        intro a ha b hb
        rw [List.mem_singleton] at hb
        subst hb
        rw [hidx a ha, List.map_append, List.indexOf_append_of_not_mem hnot2]
        have : (l.map (fun t => t.uri)).indexOf a < (l.map (fun t => t.uri)).length :=
          List.indexOf_lt_length.2 ((hmem a).1 ha)
        omega
      · intro r hr
        rcases List.mem_append.1 hr with hr | hr
        · exact hrec2 r hr
        rw [List.mem_singleton] at hr
        subst hr
        refine ⟨t, ?_, hf, rfl⟩
        rw [List.find?_append, record_of_label]
        have : l.find? (fun t0 => decide (t0.uri = t.uri)) = none := by
          rw [List.find?_eq_none]
          intro x hx hxu
          simp only [decide_eq_true_eq] at hxu
          exact hnot2 (List.mem_map.2 ⟨x, hx, hxu⟩)
        rw [this]
        simp
    · simp only [hf, if_false] at hstep
      exact Option.noConfusion hstep

theorem aggInv_nil (best : Int) : AggInv [] ⟨best, [], []⟩ := by
  refine ⟨syncedL_nil, ?_, ?_, ?_⟩
  · intro u; simp [labels]
  · simp [labels]
  · simp [labels]

theorem add_results_aggInv (best : Int) (vrad : List RawTuple) :
    ∀ s, add_results ⟨best, [], []⟩ vrad = some s → AggInv vrad s := by
  induction vrad using List.reverseRecOn with
  | nil =>
    intro s h
    simp only [add_results, List.foldlM_nil, Option.pure_def, Option.some.injEq] at h
    subst h
    exact aggInv_nil best
  | append_singleton l t ih =>
    intro s h
    rw [add_results_snoc] at h
    cases h1 : add_results ⟨best, [], []⟩ l with
    | none => rw [h1] at h; exact Option.noConfusion h
    | some s1 =>
      rw [h1] at h
      exact aggInv_step l t s1 s (ih s1 h1) h

theorem sample_run : add_results ⟨1, [], []⟩ sample_vrad = some sample_out := by decide

/-! ## Claims on `add_results` -/

/-- C1. After a successful `add_results` on an empty connector, `_vvcats` holds exactly
one record per distinct uri of the input (labels without repetition, the same set as
the input uris, as many records as distinct uris), ordered by first appearance, and
`_vcats` maps a uri to `i` exactly when record `i` carries that label. -/
theorem add_results_one_record_per_uri (best : Int) (vrad : List RawTuple)
    (s : SupervisedOutput) (h : add_results ⟨best, [], []⟩ vrad = some s) :
    (s._vvcats.map (fun r => r._label)).Nodup ∧
    (∀ u, u ∈ s._vvcats.map (fun r => r._label) ↔ u ∈ vrad.map (fun t => t.uri)) ∧
    s._vvcats.length = (vrad.map (fun t => t.uri)).toFinset.card ∧
    (s._vvcats.map (fun r => r._label)).Pairwise (fun a b =>
      (vrad.map (fun t => t.uri)).indexOf a < (vrad.map (fun t => t.uri)).indexOf b) ∧
    (∀ (u : String) (i : Int), s._vcats.find u = some i ↔
      0 ≤ i ∧ ∃ r, s._vvcats[i.toNat]? = some r ∧ r._label = u) := by
  obtain ⟨hsync, hmem, hord, -⟩ := add_results_aggInv best vrad s h
  have hnd : (s._vvcats.map (fun r => r._label)).Nodup := by
    refine List.Pairwise.imp ?_ hord
    intro a b hab heq
    subst heq
    exact lt_irrefl _ hab
  refine ⟨hnd, hmem, ?_, hord, ?_⟩
  · have hfs : (s._vvcats.map (fun r => r._label)).toFinset
        = (vrad.map (fun t => t.uri)).toFinset := by
      ext u
      simp only [List.mem_toFinset]
      exact hmem u
    rw [← hfs, List.toFinset_card_of_nodup hnd, List.length_map]
  · intro u i
    rw [hsync u i]
    unfold labels
    rw [List.getElem?_map]
    constructor
    · rintro ⟨h0, hget⟩
      cases hr : s._vvcats[i.toNat]? with
      | none => rw [hr] at hget; exact Option.noConfusion hget
      | some r =>
        rw [hr] at hget
        exact ⟨h0, r, rfl, by simpa using hget⟩
    · rintro ⟨h0, r, hr, hl⟩
      exact ⟨h0, by rw [hr, ← hl]; rfl⟩

theorem add_results_one_record_per_uri_witness :
    add_results ⟨1, [], []⟩ sample_vrad = some sample_out ∧
    (sample_out._vvcats.map (fun r => r._label)).Nodup ∧
    (∀ u, u ∈ sample_out._vvcats.map (fun r => r._label) ↔
      u ∈ sample_vrad.map (fun t => t.uri)) ∧
    sample_out._vvcats.length = (sample_vrad.map (fun t => t.uri)).toFinset.card ∧
    (sample_out._vvcats.map (fun r => r._label)).Pairwise (fun a b =>
      (sample_vrad.map (fun t => t.uri)).indexOf a
        < (sample_vrad.map (fun t => t.uri)).indexOf b) ∧
    (∀ (u : String) (i : Int), sample_out._vcats.find u = some i ↔
      0 ≤ i ∧ ∃ r, sample_out._vvcats[i.toNat]? = some r ∧ r._label = u) :=
  ⟨sample_run, add_results_one_record_per_uri 1 sample_vrad sample_out sample_run⟩

end SupervisedOutput

theorem mm_insert_length {α : Type} (kv : ℚ × α) (l : List (ℚ × α)) :
    (mm_insert kv l).length = l.length + 1 := by
  induction l with
  | nil => rfl
  | cons e l ih =>
    unfold mm_insert
    split
    · rfl
    · simp [ih]

theorem foldl_mm_insert_length {α : Type} (l acc : List (ℚ × α)) :
    (l.foldl (fun acc kv => mm_insert kv acc) acc).length = acc.length + l.length := by
  induction l generalizing acc with
  | nil => rfl
  | cons e l ih =>
    rw [List.foldl_cons, ih, mm_insert_length, List.length_cons]; omega

theorem ranked_length {α : Type} (l : List (ℚ × α)) : (ranked l).length = l.length := by
  unfold ranked
  rw [foldl_mm_insert_length]; simp

theorem foldl_insert_val {α : Type} (l : List (ℚ × α)) (m : multimap α) :
    (l.foldl multimap.insert m).1 = l.foldl (fun acc kv => mm_insert kv acc) m.1 := by
  induction l generalizing m with
  | nil => rfl
  | cons e l ih => rw [List.foldl_cons, ih]; rfl

namespace SupervisedOutput

theorem take_length_zip {α β : Type} (l₁ : List α) (l₂ : List β) :
    (l₁.zip l₂).take l₁.length = l₁.zip l₂ := by
  apply List.take_of_length_le
  rw [List.length_zip]; omega

theorem record_of_cats (t : RawTuple) : (record_of t)._cats.1 = ranked (t.probs.zip t.cats) := by
  unfold record_of filled
  simp only [take_length_zip, foldl_insert_val]
  rfl

theorem record_of_bboxes (t : RawTuple) :
    (record_of t)._bboxes.1 = ranked (t.probs.zip (t.bboxes.getD [])) := by
  unfold record_of filled
  simp only [take_length_zip, foldl_insert_val]
  rfl

theorem record_of_vals (t : RawTuple) :
    (record_of t)._vals.1 = ranked (t.probs.zip (t.vals.getD [])) := by
  unfold record_of filled
  simp only [take_length_zip, foldl_insert_val]
  rfl

theorem record_of_cats_size (t : RawTuple) (hf : fits t) :
    (record_of t)._cats.size = t.probs.length := by
  unfold multimap.size
  rw [record_of_cats, ranked_length, List.length_zip]
  exact Nat.min_eq_left hf.1

theorem record_of_bboxes_size (t : RawTuple) (hf : fits t) :
    (record_of t)._bboxes.size = 0 ∨ (record_of t)._bboxes.size = (record_of t)._cats.size := by
  rw [record_of_cats_size t hf]
  unfold multimap.size
  rw [record_of_bboxes, ranked_length, List.length_zip]
  by_cases h : t.bboxes.getD [] = []
  · left; rw [h]; simp
  · right; exact Nat.min_eq_left (hf.2.1 h)

theorem record_of_vals_size (t : RawTuple) (hf : fits t) :
    (record_of t)._vals.size = 0 ∨ (record_of t)._vals.size = (record_of t)._cats.size := by
  rw [record_of_cats_size t hf]
  unfold multimap.size
  rw [record_of_vals, ranked_length, List.length_zip]
  by_cases h : t.vals.getD [] = []
  · left; rw [h]; simp
  · right; exact Nat.min_eq_left (hf.2.2 h)

/-- C2, counterexample. The first and the third data object of `sample_vrad` share the
uri `a`, with 2 and 3 scores; the record of `a` holds the 2 pairs of the first only. -/
theorem add_results_same_uri_not_accumulated :
    add_results ⟨1, [], []⟩ sample_vrad = some sample_out ∧
    sample_vrad.map (fun t => (t.uri, t.probs.length)) = [("a", 2), ("b", 2), ("a", 3)] ∧
    sample_out._vvcats.map (fun r => (r._label, r._cats.size)) = [("a", 2), ("b", 2)] ∧
    ¬ (∀ s, add_results ⟨1, [], []⟩ sample_vrad = some s →
        ∃ r ∈ s._vvcats, r._label = "a" ∧ r._cats.size = 2 + 3) := by
  refine ⟨sample_run, by decide, by decide, ?_⟩
  intro h
  obtain ⟨r, hr, hl, hs⟩ := h sample_out sample_run
  revert r
  decide

/-- C2, amended. A data object whose uri was already seen is ignored: after a
successful `add_results` on an empty connector, every uri of the input has a record,
and that record holds exactly the (score, category) pairs of the first data object
with that uri, as many as that object has scores. -/
theorem add_results_first_tuple_only (best : Int) (vrad : List RawTuple)
    (s : SupervisedOutput) (h : add_results ⟨best, [], []⟩ vrad = some s) :
    (∀ t ∈ vrad, ∃ r ∈ s._vvcats, r._label = t.uri) ∧
    (∀ r ∈ s._vvcats, ∃ t, vrad.find? (fun t => decide (t.uri = r._label)) = some t ∧
      r._cats.1 = ranked (t.probs.zip t.cats) ∧ r._cats.size = t.probs.length) := by
  obtain ⟨-, hmem, -, hrec⟩ := add_results_aggInv best vrad s h
  constructor
  · intro t ht
    have : t.uri ∈ labels s := (hmem t.uri).2 (List.mem_map.2 ⟨t, ht, rfl⟩)
    obtain ⟨r, hr, hl⟩ := List.mem_map.1 this
    exact ⟨r, hr, hl⟩
  · intro r hr
    obtain ⟨t, hfind, hfit, hrt⟩ := hrec r hr
    refine ⟨t, hfind, ?_, ?_⟩
    · rw [hrt]; exact record_of_cats t
    · rw [hrt]; exact record_of_cats_size t hfit

theorem add_results_first_tuple_only_witness :
    add_results ⟨1, [], []⟩ sample_vrad = some sample_out ∧
    (∀ t ∈ sample_vrad, ∃ r ∈ sample_out._vvcats, r._label = t.uri) ∧
    (∀ r ∈ sample_out._vvcats, ∃ t,
      sample_vrad.find? (fun t => decide (t.uri = r._label)) = some t ∧
      r._cats.1 = ranked (t.probs.zip t.cats) ∧ r._cats.size = t.probs.length) :=
  ⟨sample_run, add_results_first_tuple_only 1 sample_vrad sample_out sample_run⟩

/-- C3, counterexample. A data object whose category vector is longer than its score
vector is accepted: the surplus names are never read. -/
theorem add_results_accepts_longer_cats :
    long_cats_tuple.cats.length ≠ long_cats_tuple.probs.length ∧
    add_results ⟨1, [], []⟩ [long_cats_tuple] = some
      { _best := 1
        _vcats := [("a", 0)]
        _vvcats := [⟨"a", 0, ⟨[(1, "cat0")], by decide⟩, multimap.empty, multimap.empty⟩] } := by
  decide

theorem add_results_append_cons (s : SupervisedOutput) (pre suf : List RawTuple)
    (t : RawTuple) :
    add_results s (pre ++ t :: suf) =
      (add_results s pre).bind (fun s1 => (add_result s1 t).bind (fun s2 =>
        add_results s2 suf)) := by
  unfold add_results
  rw [List.foldlM_append]
  simp only [Option.bind_eq_bind, List.foldlM_cons]

/-- C3, amended. `add_results` on an empty connector fails for every input that contains
a data object whose uri does not occur earlier in the input and whose category vector
is shorter than its score vector. -/
theorem add_results_fails_on_shorter_cats (best : Int) (pre suf : List RawTuple)
    (t : RawTuple) (hnew : t.uri ∉ pre.map (fun t => t.uri))
    (hshort : t.cats.length < t.probs.length) :
    add_results ⟨best, [], []⟩ (pre ++ t :: suf) = none := by
  rw [add_results_append_cons]
  cases h1 : add_results ⟨best, [], []⟩ pre with
  | none => rfl
  | some s1 =>
    obtain ⟨hsync, hmem, -, -⟩ := add_results_aggInv best pre s1 h1
    have hfind : s1._vcats.find t.uri = none :=
      (syncedL_find_none hsync t.uri).2 (fun h => hnew ((hmem _).1 h))
    have hfit : ¬ fits t := fun h => absurd h.1 (by omega)
    simp only [Option.some_bind, add_result_eq, hfind, hfit, if_false, Option.none_bind]

theorem add_results_fails_on_shorter_cats_witness :
    short_cats_tuple.uri ∉ sample_vrad.map (fun t => t.uri) ∧
    short_cats_tuple.cats.length < short_cats_tuple.probs.length ∧
    add_results ⟨1, [], []⟩ (sample_vrad ++ short_cats_tuple :: [long_cats_tuple]) = none :=
  ⟨by decide, by decide,
    add_results_fails_on_shorter_cats 1 sample_vrad [long_cats_tuple] short_cats_tuple
      (by decide) (by decide)⟩

theorem sample_boxed_run : add_results ⟨1, [], []⟩ sample_boxed = some sample_boxed_out := by
  decide

/-- C4. After a successful `add_results` on an empty connector, every record has
`_bboxes` empty or as long as `_cats`, and `_vals` empty or as long as `_cats`. -/
theorem add_results_lengths_synchronized (best : Int) (vrad : List RawTuple)
    (s : SupervisedOutput) (h : add_results ⟨best, [], []⟩ vrad = some s) :
    ∀ r ∈ s._vvcats,
      (r._bboxes.size = 0 ∨ r._bboxes.size = r._cats.size) ∧
      (r._vals.size = 0 ∨ r._vals.size = r._cats.size) := by
  obtain ⟨-, -, -, hrec⟩ := add_results_aggInv best vrad s h
  intro r hr
  obtain ⟨t, -, hfit, hrt⟩ := hrec r hr
  subst hrt
  exact ⟨record_of_bboxes_size t hfit, record_of_vals_size t hfit⟩

theorem add_results_lengths_synchronized_witness :
    add_results ⟨1, [], []⟩ sample_boxed = some sample_boxed_out ∧
    ∀ r ∈ sample_boxed_out._vvcats,
      (r._bboxes.size = 0 ∨ r._bboxes.size = r._cats.size) ∧
      (r._vals.size = 0 ∨ r._vals.size = r._cats.size) :=
  ⟨sample_boxed_run,
    add_results_lengths_synchronized 1 sample_boxed sample_boxed_out sample_boxed_run⟩

end SupervisedOutput

/-! ## Rank order of a filled multimap -/

theorem mm_insert_map {α β : Type} (f : α → β) (kv : ℚ × α) (l : List (ℚ × α)) :
    mm_insert (kv.1, f kv.2) (l.map (fun e => (e.1, f e.2)))
      = (mm_insert kv l).map (fun e => (e.1, f e.2)) := by
  induction l with
  | nil => rfl
  | cons e l ih =>
    simp only [List.map_cons, mm_insert]
    split
    · rfl
    · rw [List.map_cons, ih]

theorem foldl_mm_insert_map {α β : Type} (f : α → β) (l acc : List (ℚ × α)) :
    (l.map (fun e => (e.1, f e.2))).foldl (fun acc kv => mm_insert kv acc)
        (acc.map (fun e => (e.1, f e.2)))
      = (l.foldl (fun acc kv => mm_insert kv acc) acc).map (fun e => (e.1, f e.2)) := by
  induction l generalizing acc with
  | nil => rfl
  | cons e l ih =>
    simp only [List.map_cons, List.foldl_cons]
    rw [mm_insert_map f e acc, ih]

theorem ranked_map {α β : Type} (f : α → β) (l : List (ℚ × α)) :
    ranked (l.map (fun e => (e.1, f e.2))) = (ranked l).map (fun e => (e.1, f e.2)) := by
  unfold ranked
  exact foldl_mm_insert_map f l []

theorem mm_insert_perm {α : Type} (kv : ℚ × α) (l : List (ℚ × α)) :
    (mm_insert kv l).Perm (kv :: l) := by
  induction l with
  | nil => exact List.Perm.refl _
  | cons e l ih =>
    unfold mm_insert
    split
    · exact List.Perm.refl _
    · exact (List.Perm.cons e ih).trans (List.Perm.swap kv e l)

theorem foldl_mm_insert_perm {α : Type} (l acc : List (ℚ × α)) :
    (l.foldl (fun acc kv => mm_insert kv acc) acc).Perm (l.reverse ++ acc) := by
  induction l generalizing acc with
  | nil => exact List.Perm.refl _
  | cons e l ih =>
    rw [List.foldl_cons, List.reverse_cons, List.append_assoc]
    refine (ih _).trans ?_
    exact List.Perm.append_left _ (mm_insert_perm e acc)

theorem ranked_perm {α : Type} (l : List (ℚ × α)) : (ranked l).Perm l := by
  unfold ranked
  have := foldl_mm_insert_perm l []
  rw [List.append_nil] at this
  exact this.trans (List.reverse_perm l)

theorem ranked_snoc {α : Type} (l : List (ℚ × α)) (kv : ℚ × α) :
    ranked (l ++ [kv]) = mm_insert kv (ranked l) := by
  unfold ranked
  rw [List.foldl_append]; rfl

theorem ranked_desc {α : Type} (l : List (ℚ × α)) : Desc (ranked l) := by
  induction l using List.reverseRecOn with
  | nil => exact List.Pairwise.nil
  | append_singleton l kv ih => rw [ranked_snoc]; exact mm_insert_desc kv _ ih

theorem mm_insert_stable (p : ℚ) (n : Nat) (l : List (ℚ × Nat)) (h : StableDesc l)
    (hb : ∀ e ∈ l, e.2 < n) : StableDesc (mm_insert (p, n) l) := by
  induction l with
  | nil => simp [mm_insert, StableDesc]
  | cons e l ih =>
    unfold StableDesc at h ih ⊢
    rw [List.pairwise_cons] at h
    unfold mm_insert
    split
    · rename_i hlt
      refine List.pairwise_cons.2 ⟨?_, List.pairwise_cons.2 h⟩
      intro b hbm
      rcases List.mem_cons.1 hbm with rfl | hbm
      · exact Or.inl hlt
      · rcases h.1 b hbm with h1 | ⟨h1, -⟩
        · exact Or.inl (lt_trans h1 hlt)
        · exact Or.inl (by rw [h1]; exact hlt)
    · rename_i hnlt
      refine List.pairwise_cons.2 ⟨?_, ih h.2 (fun x hx => hb x (List.mem_cons_of_mem _ hx))⟩
      intro b hbm
      rcases (mm_insert_mem (p, n) b l).1 hbm with rfl | hbm
      · rcases lt_or_eq_of_le (not_lt.1 hnlt) with h1 | h1
        · exact Or.inl h1
        · exact Or.inr ⟨h1, hb e (List.mem_cons_self _ _)⟩
      · exact h.1 b hbm

theorem zip_range_snoc (ps : List ℚ) (p : ℚ) :
    (ps ++ [p]).zip (List.range (ps ++ [p]).length)
      = ps.zip (List.range ps.length) ++ [(p, ps.length)] := by
  rw [List.length_append, List.length_singleton, List.range_succ,
    List.zip_append (by simp)]
  rfl

theorem mem_zip_range (ps : List ℚ) (e : ℚ × Nat) (h : e ∈ ps.zip (List.range ps.length)) :
    ps[e.2]? = some e.1 := by
  obtain ⟨i, hi⟩ := List.mem_iff_getElem?.1 h
  have := List.getElem?_zip_eq_some.1 hi
  have h2 : e.2 = i := by
    have := this.2
    rw [List.getElem?_range] at this
    · simpa using this.symm
    · by_contra hc
      rw [List.getElem?_eq_none (by simpa using hc)] at this
      exact Option.noConfusion this
  rw [h2]; exact this.1

theorem ranked_zip_range_stable (ps : List ℚ) :
    StableDesc (ranked (ps.zip (List.range ps.length))) := by
  induction ps using List.reverseRecOn with
  | nil => exact List.Pairwise.nil
  | append_singleton ps p ih =>
    rw [zip_range_snoc, ranked_snoc]
    refine mm_insert_stable p ps.length _ ih ?_
    intro e he
    have hm := (ranked_perm _).mem_iff.1 he
    have := mem_zip_range ps e hm
    exact (List.getElem?_eq_some.1 this).1

theorem zip_eq_map_zip_range' {β : Type} (d : β) (ps : List ℚ) :
    ∀ (pre xs : List β), ps.length ≤ xs.length →
      ps.zip xs = (ps.zip (List.range' pre.length ps.length)).map
        (fun e => (e.1, (pre ++ xs).getD e.2 d)) := by
  induction ps with
  | nil => intro pre xs _; rfl
  | cons p ps ih =>
    intro pre xs hlen
    cases xs with
    | nil => simp at hlen
    | cons x xs =>
      simp only [List.length_cons, List.range'_succ, List.zip_cons_cons, List.map_cons]
      have h0 : (pre ++ x :: xs).getD pre.length d = x := by
        rw [List.getD_eq_getElem?_getD, List.getElem?_append_right (le_refl _)]
        simp
      rw [h0]
      have := ih (pre ++ [x]) xs (by simpa using hlen)
      simp only [List.length_append, List.length_singleton, List.append_assoc,
        List.singleton_append] at this
      rw [← this]

theorem zip_eq_map_zip_range {β : Type} (d : β) (ps : List ℚ) (xs : List β)
    (h : ps.length ≤ xs.length) :
    ps.zip xs = (ps.zip (List.range ps.length)).map (fun e => (e.1, xs.getD e.2 d)) := by
  have := zip_eq_map_zip_range' d ps [] xs h
  rw [List.range_eq_range']
  simpa using this

theorem mem_ranked_zip_range (ps : List ℚ) (e : ℚ × Nat)
    (h : e ∈ ranked (ps.zip (List.range ps.length))) : ps.getD e.2 0 = e.1 := by
  have := mem_zip_range ps e ((ranked_perm _).mem_iff.1 h)
  rw [List.getD_eq_getElem?_getD, this]; rfl

theorem ranked_zip_eq {β : Type} (d : β) (ps : List ℚ) (xs : List β)
    (h : ps.length ≤ xs.length) :
    ranked (ps.zip xs) = (rank_order ps).map (fun i => (ps.getD i 0, xs.getD i d)) := by
  rw [zip_eq_map_zip_range d ps xs h, ranked_map (fun i => xs.getD i d)]
  unfold rank_order
  rw [List.map_map]
  apply List.map_congr_left
  intro e he
  simp only [Function.comp_apply]
  rw [mem_ranked_zip_range ps e he]

theorem rank_order_perm (ps : List ℚ) : (rank_order ps).Perm (List.range ps.length) := by
  unfold rank_order
  have h1 := (ranked_perm (ps.zip (List.range ps.length))).map Prod.snd
  refine h1.trans ?_
  rw [← List.unzip_snd, List.unzip_zip (by simp)]

theorem rank_order_stable (ps : List ℚ) :
    (rank_order ps).Pairwise (fun i j =>
      ps.getD j 0 < ps.getD i 0 ∨ (ps.getD j 0 = ps.getD i 0 ∧ i < j)) := by
  unfold rank_order
  rw [List.pairwise_map]
  refine List.Pairwise.imp_of_mem ?_ (ranked_zip_range_stable ps)
  intro a b ha hb hab
  rw [mem_ranked_zip_range ps a ha, mem_ranked_zip_range ps b hb]
  exact hab

namespace SupervisedOutput

/-- C5. After a successful `add_results` on an empty connector, each record lists the
input positions of the first data object of its uri in the order `rank_order`: a
rearrangement of the positions with non-increasing scores and, among equal scores,
increasing input position.  The entry of `_cats` at each rank, and the entry of
`_bboxes` (and `_vals`) when boxes (regions) were supplied, is the score with the
category respectively box (region) supplied at that same input position. -/
theorem add_results_rank_correspondence (best : Int) (vrad : List RawTuple)
    (s : SupervisedOutput) (h : add_results ⟨best, [], []⟩ vrad = some s) :
    ∀ r ∈ s._vvcats, ∃ t, vrad.find? (fun t => decide (t.uri = r._label)) = some t ∧
      (rank_order t.probs).Perm (List.range t.probs.length) ∧
      (rank_order t.probs).Pairwise (fun i j =>
        t.probs.getD j 0 < t.probs.getD i 0 ∨ (t.probs.getD j 0 = t.probs.getD i 0 ∧ i < j)) ∧
      r._cats.1 = (rank_order t.probs).map (fun i => (t.probs.getD i 0, t.cats.getD i "")) ∧
      (t.bboxes.getD [] ≠ [] → r._bboxes.1 = (rank_order t.probs).map
        (fun i => (t.probs.getD i 0, (t.bboxes.getD []).getD i ⟨0, 0, 0, 0⟩))) ∧
      (t.vals.getD [] ≠ [] → r._vals.1 = (rank_order t.probs).map
        (fun i => (t.probs.getD i 0, (t.vals.getD []).getD i []))) := by
  obtain ⟨-, -, -, hrec⟩ := add_results_aggInv best vrad s h
  intro r hr
  obtain ⟨t, hfind, hfit, hrt⟩ := hrec r hr
  subst hrt
  refine ⟨t, hfind, rank_order_perm _, rank_order_stable _, ?_, ?_, ?_⟩
  · rw [record_of_cats]; exact ranked_zip_eq "" _ _ hfit.1
  · intro hb
    rw [record_of_bboxes]; exact ranked_zip_eq _ _ _ (hfit.2.1 hb)
  · intro hv
    rw [record_of_vals]; exact ranked_zip_eq _ _ _ (hfit.2.2 hv)

theorem add_results_rank_correspondence_witness :
    add_results ⟨1, [], []⟩ sample_boxed = some sample_boxed_out ∧
    rank_order [4, 8, 8] = [1, 2, 0] ∧
    ∀ r ∈ sample_boxed_out._vvcats,
      ∃ t, sample_boxed.find? (fun t => decide (t.uri = r._label)) = some t ∧
      (rank_order t.probs).Perm (List.range t.probs.length) ∧
      (rank_order t.probs).Pairwise (fun i j =>
        t.probs.getD j 0 < t.probs.getD i 0 ∨ (t.probs.getD j 0 = t.probs.getD i 0 ∧ i < j)) ∧
      r._cats.1 = (rank_order t.probs).map (fun i => (t.probs.getD i 0, t.cats.getD i "")) ∧
      (t.bboxes.getD [] ≠ [] → r._bboxes.1 = (rank_order t.probs).map
        (fun i => (t.probs.getD i 0, (t.bboxes.getD []).getD i ⟨0, 0, 0, 0⟩))) ∧
      (t.vals.getD [] ≠ [] → r._vals.1 = (rank_order t.probs).map
        (fun i => (t.probs.getD i 0, (t.vals.getD []).getD i []))) :=
  ⟨sample_boxed_run, by decide,
    add_results_rank_correspondence 1 sample_boxed sample_boxed_out sample_boxed_run⟩

end SupervisedOutput

/-! ## Selection without dedup: `best_plain` and `best_all` -/

theorem mm_insert_last {α : Type} (kv : ℚ × α) (l : List (ℚ × α))
    (h : ∀ a ∈ l, kv.1 ≤ a.1) : mm_insert kv l = l ++ [kv] := by
  induction l with
  | nil => rfl
  | cons e l ih =>
    unfold mm_insert
    have he : ¬ e.1 < kv.1 := not_lt.2 (h e (List.mem_cons_self _ _))
    rw [if_neg he, ih (fun a ha => h a (List.mem_cons_of_mem _ ha))]
    rfl

theorem foldl_mm_insert_desc {α : Type} (l acc : List (ℚ × α)) (h : Desc (acc ++ l)) :
    l.foldl (fun acc kv => mm_insert kv acc) acc = acc ++ l := by
  induction l generalizing acc with
  | nil => simp
  | cons e l ih =>
    rw [List.foldl_cons]
    have hlast : mm_insert e acc = acc ++ [e] := by
      apply mm_insert_last
      intro a ha
      unfold Desc at h
      exact (List.pairwise_append.1 h).2.2 a ha e (List.mem_cons_self _ _)
    rw [hlast, ih (acc ++ [e]) (by simpa using h)]
    simp

theorem ranked_of_desc {α : Type} (l : List (ℚ × α)) (h : Desc l) : ranked l = l := by
  unfold ranked
  rw [foldl_mm_insert_desc l [] (by simpa using h)]
  rfl

theorem desc_take {α : Type} (l : List (ℚ × α)) (h : Desc l) (n : Nat) : Desc (l.take n) :=
  List.Pairwise.sublist (List.take_sublist n l) h

/-- Copying the first `n` entries of a multimap into an empty one yields exactly those
entries, in the same order. -/
theorem copy_n_empty {α : Type} (src : multimap α) (n : Int) :
    (copy_n src n multimap.empty).1 = src.1.take n.toNat := by
  unfold copy_n
  rw [foldl_insert_val]
  exact ranked_of_desc _ (desc_take src.1 src.2 _)

theorem take_min_size {α : Type} (l : List α) (k : Int) :
    l.take (min k (l.length : Int)).toNat = l.take k.toNat := by
  rcases le_total k (l.length : Int) with h | h
  · rw [min_eq_left h]
  · rw [min_eq_right h, Int.toNat_ofNat, List.take_length]
    rw [List.take_of_length_le]
    omega

namespace SupervisedOutput

theorem best_plain_eq (k : Int) (r : sup_result) :
    best_plain k r =
      { _label := r._label
        _loss := r._loss
        _cats := copy_n r._cats (min k r._cats.size) multimap.empty
        _bboxes := if r._bboxes.isEmpty then multimap.empty
          else copy_n r._bboxes (min k r._bboxes.size) multimap.empty
        _vals := if r._vals.isEmpty then multimap.empty
          else copy_n r._vals (min k r._vals.size) multimap.empty } := by
  unfold best_plain sup_result.new
  cases r._bboxes.isEmpty <;> cases r._vals.isEmpty <;> rfl

theorem best_all_eq (r : sup_result) :
    best_all r =
      { _label := r._label
        _loss := r._loss
        _cats := copy_n r._cats (min (r._cats.size : Int) r._cats.size) multimap.empty
        _bboxes := if r._bboxes.isEmpty then multimap.empty
          else copy_n r._bboxes (min (r._cats.size : Int) r._bboxes.size) multimap.empty
        _vals := multimap.empty } := by
  unfold best_all sup_result.new
  cases r._bboxes.isEmpty <;> rfl

theorem isEmpty_iff {α : Type} (m : multimap α) : m.isEmpty = true ↔ m.1 = [] := by
  unfold multimap.isEmpty
  exact List.isEmpty_iff

theorem copy_or_empty {α : Type} (m : multimap α) (n : Int) :
    (if m.isEmpty then multimap.empty else copy_n m n multimap.empty).1 = m.1.take n.toNat := by
  by_cases h : m.isEmpty = true
  · rw [if_pos h, (isEmpty_iff m).1 h, List.take_nil]; rfl
  · rw [if_neg h, copy_n_empty]

theorem best_plain_label (k : Int) (r : sup_result) : (best_plain k r)._label = r._label := by
  rw [best_plain_eq]

theorem best_plain_loss (k : Int) (r : sup_result) : (best_plain k r)._loss = r._loss := by
  rw [best_plain_eq]

theorem best_plain_cats (k : Int) (r : sup_result) :
    (best_plain k r)._cats.1 = r._cats.1.take k.toNat := by
  rw [best_plain_eq, copy_n_empty]
  exact take_min_size _ _

theorem best_plain_bboxes (k : Int) (r : sup_result) :
    (best_plain k r)._bboxes.1 = r._bboxes.1.take k.toNat := by
  rw [best_plain_eq, copy_or_empty]
  exact take_min_size _ _

theorem best_plain_vals (k : Int) (r : sup_result) :
    (best_plain k r)._vals.1 = r._vals.1.take k.toNat := by
  rw [best_plain_eq, copy_or_empty]
  exact take_min_size _ _

theorem best_all_label (r : sup_result) : (best_all r)._label = r._label := by
  rw [best_all_eq]

theorem best_all_loss (r : sup_result) : (best_all r)._loss = r._loss := by
  rw [best_all_eq]

theorem best_all_cats (r : sup_result) : (best_all r)._cats.1 = r._cats.1 := by
  rw [best_all_eq, copy_n_empty]
  refine (take_min_size r._cats.1 _).trans ?_
  simp [multimap.size]

theorem best_all_bboxes (r : sup_result) :
    (best_all r)._bboxes.1 = r._bboxes.1.take r._cats.size := by
  rw [best_all_eq, copy_or_empty]
  refine (take_min_size r._bboxes.1 _).trans ?_
  simp

theorem best_all_vals (r : sup_result) : (best_all r)._vals.1 = [] := by
  rw [best_all_eq]; rfl

theorem sup_result_ext (a b : sup_result) (h1 : a._label = b._label) (h2 : a._loss = b._loss)
    (h3 : a._cats.1 = b._cats.1) (h4 : a._bboxes.1 = b._bboxes.1) (h5 : a._vals.1 = b._vals.1) :
    a = b := by
  cases a; cases b
  simp only [sup_result.mk.injEq]
  exact ⟨h1, h2, Subtype.ext h3, Subtype.ext h4, Subtype.ext h5⟩

theorem best_cats_of_total (s : SupervisedOutput) (ad_best : Option Int)
    (bcats : SupervisedOutput) (nclasses : Int) (has_bbox has_roi : Bool)
    (f : sup_result → sup_result)
    (hf : ∀ r ∈ s._vvcats,
      best_record (best_of s._best ad_best nclasses) nclasses has_bbox has_roi r = some (f r)) :
    best_cats s ad_best bcats nclasses has_bbox has_roi
      = some (pushes bcats (s._vvcats.map f)) := by
  unfold best_cats pushes
  simp only
  generalize s._vvcats = l at hf
  induction l generalizing bcats with
  | nil => rfl
  | cons r l ih =>
    rw [List.foldlM_cons, hf r (List.mem_cons_self _ _)]
    simp only [Option.map_some', Option.bind_eq_bind, Option.some_bind, List.map_cons,
      List.foldl_cons]
    exact ih _ (fun x hx => hf x (List.mem_cons_of_mem _ hx))

theorem pushes_vvcats (bcats : SupervisedOutput) (rs : List sup_result) :
    (pushes bcats rs)._vvcats = bcats._vvcats ++ rs := by
  unfold pushes
  induction rs generalizing bcats with
  | nil => simp
  | cons r rs ih =>
    rw [List.foldl_cons, ih]
    simp [push_result]

theorem pushes_best (bcats : SupervisedOutput) (rs : List sup_result) :
    (pushes bcats rs)._best = bcats._best := by
  unfold pushes
  induction rs generalizing bcats with
  | nil => rfl
  | cons r rs ih => rw [List.foldl_cons, ih]; rfl

theorem pushes_synced (b : SupervisedOutput) (rs : List sup_result)
    (hs : SyncedL b._vcats (labels b))
    (hnd : (labels b ++ rs.map (fun r => r._label)).Nodup) :
    SyncedL (pushes b rs)._vcats (labels b ++ rs.map (fun r => r._label)) := by
  unfold pushes
  induction rs generalizing b with
  | nil => simpa using hs
  | cons r rs ih =>
    rw [List.foldl_cons]
    have hlab : labels (push_result b r) = labels b ++ [r._label] := by
      simp [labels, push_result]
    have hnot : r._label ∉ labels b := by
      intro hin
      have := (List.nodup_append.1 hnd).2.2
      exact this hin (by simp)
    have hfind : b._vcats.find r._label = none := (syncedL_find_none hs _).2 hnot
    have hlen : (b._vvcats.length : Int) = ((labels b).length : Int) := by simp [labels]
    have h1 : SyncedL (push_result b r)._vcats (labels (push_result b r)) := by
      rw [hlab]
      simp only [push_result]
      rw [hlen]
      exact syncedL_push hs _ hfind
    have := ih (push_result b r) h1 (by rw [hlab]; simpa using hnd)
    rw [hlab] at this
    simpa using this

theorem syncedL_nodup {m : unordered_map} {L : List String} (h : SyncedL m L) : L.Nodup := by
  rw [List.nodup_iff_injective_getElem]
  intro i j hij
  have hi := (h L[i] (i.1 : Int)).2 ⟨by omega, by simp⟩
  have hj := (h L[i] (j.1 : Int)).2 ⟨by omega, by simp [hij]⟩
  rw [hi] at hj
  have : (i.1 : Int) = j.1 := by simpa using hj
  exact Fin.ext (by omega)

theorem syncedL_unique {m m' : unordered_map} {L : List String} (h : SyncedL m L)
    (h' : SyncedL m' L) (u : String) : m.find u = m'.find u := by
  cases hf : m.find u with
  | none =>
    have := (syncedL_find_none h u).1 hf
    exact ((syncedL_find_none h' u).2 this).symm
  | some i => exact ((h' u i).2 ((h u i).1 hf)).symm

/-- C6. Without boxes and regions (`has_bbox = false`, `has_roi = false`), `best_cats`
on an empty destination returns a set whose records hold, in record order, the first
`min(best, size)` entries of the input record's `_cats`, and likewise of its `_vals`,
for the effective `best`; that is `min(best, size)` entries when `best` is not
negative, and no entry when it is. -/
theorem best_cats_plain_takes_first (s : SupervisedOutput) (ad_best : Option Int)
    (b nclasses : Int) :
    ∃ out, best_cats s ad_best ⟨b, [], []⟩ nclasses false false = some out ∧
      out._vvcats.map (fun o => o._cats.1) = s._vvcats.map (fun r =>
        r._cats.1.take (min (best_of s._best ad_best nclasses) r._cats.size).toNat) ∧
      out._vvcats.map (fun o => o._vals.1) = s._vvcats.map (fun r =>
        r._vals.1.take (min (best_of s._best ad_best nclasses) r._vals.size).toNat) := by
  have htot := best_cats_of_total s ad_best ⟨b, [], []⟩ nclasses false false
    (best_plain (best_of s._best ad_best nclasses)) (fun r _ => rfl)
  refine ⟨_, htot, ?_, ?_⟩
  · rw [pushes_vvcats]
    simp only [List.nil_append, List.map_map]
    apply List.map_congr_left
    intro r _
    simp only [Function.comp_apply]
    rw [best_plain_cats]
    exact (take_min_size _ _).symm
  · rw [pushes_vvcats]
    simp only [List.nil_append, List.map_map]
    apply List.map_congr_left
    intro r _
    simp only [Function.comp_apply]
    rw [best_plain_vals]
    exact (take_min_size _ _).symm

/-- C9. With boxes (`has_bbox = true`) and an effective `best` equal to `nclasses`,
`best_cats` on an empty destination returns a set whose records have, in record
order, the `_cats` and the `_bboxes` of the input records, whenever every input
record has `_bboxes` empty or as long as `_cats`. -/
theorem best_cats_all_keeps_every_entry (s : SupervisedOutput) (ad_best : Option Int)
    (b nclasses : Int) (has_roi : Bool)
    (hall : best_of s._best ad_best nclasses = nclasses)
    (hinv : ∀ r ∈ s._vvcats, r._bboxes.size = 0 ∨ r._bboxes.size = r._cats.size) :
    ∃ out, best_cats s ad_best ⟨b, [], []⟩ nclasses true has_roi = some out ∧
      out._vvcats.map (fun o => o._cats) = s._vvcats.map (fun r => r._cats) ∧
      out._vvcats.map (fun o => o._bboxes) = s._vvcats.map (fun r => r._bboxes) := by
  have htot := best_cats_of_total s ad_best ⟨b, [], []⟩ nclasses true has_roi best_all
    (fun r _ => by simp [best_record, hall])
  refine ⟨_, htot, ?_, ?_⟩
  · rw [pushes_vvcats]
    simp only [List.nil_append, List.map_map]
    apply List.map_congr_left
    intro r _
    exact Subtype.ext (best_all_cats r)
  · rw [pushes_vvcats]
    simp only [List.nil_append, List.map_map]
    apply List.map_congr_left
    intro r hr
    apply Subtype.ext
    simp only [Function.comp_apply]
    rw [best_all_bboxes]
    apply List.take_of_length_le
    have := hinv r hr
    unfold multimap.size at this ⊢
    omega

theorem best_cats_all_keeps_every_entry_witness :
    best_of sample_boxed_out._best (some (-1)) 3 = 3 ∧
    (∀ r ∈ sample_boxed_out._vvcats, r._bboxes.size = 0 ∨ r._bboxes.size = r._cats.size) ∧
    ∃ out, best_cats sample_boxed_out (some (-1)) ⟨1, [], []⟩ 3 true false = some out ∧
      out._vvcats.map (fun o => o._cats) = sample_boxed_out._vvcats.map (fun r => r._cats) ∧
      out._vvcats.map (fun o => o._bboxes)
        = sample_boxed_out._vvcats.map (fun r => r._bboxes) :=
  ⟨by decide, by decide,
    best_cats_all_keeps_every_entry sample_boxed_out (some (-1)) 1 3 false
      (by decide) (by decide)⟩

theorem best_plain_idem (k : Int) (r : sup_result) :
    best_plain k (best_plain k r) = best_plain k r := by
  apply sup_result_ext
  · rw [best_plain_label]
  · rw [best_plain_loss]
  · rw [best_plain_cats, best_plain_cats, List.take_take, min_self]
  · rw [best_plain_bboxes, best_plain_bboxes, List.take_take, min_self]
  · rw [best_plain_vals, best_plain_vals, List.take_take, min_self]

theorem best_all_idem (r : sup_result) : best_all (best_all r) = best_all r := by
  apply sup_result_ext
  · rw [best_all_label]
  · rw [best_all_loss]
  · rw [best_all_cats]
  · rw [best_all_bboxes, best_all_bboxes]
    have : (best_all r)._cats.size = r._cats.size := by
      unfold multimap.size; rw [best_all_cats]
    rw [this, List.take_take, min_self]
  · rw [best_all_vals, best_all_vals]

/-- C10. With an effective `best` equal to `nclasses`, running `best_cats` on its own
output (again with an effective `best` equal to `nclasses`, into an empty destination
with the same default) returns that output unchanged, for all task flags. -/
theorem best_cats_all_idempotent (s : SupervisedOutput) (ad_best ad_best2 : Option Int)
    (b nclasses : Int) (has_bbox has_roi : Bool)
    (hall : best_of s._best ad_best nclasses = nclasses)
    (hall2 : best_of b ad_best2 nclasses = nclasses) :
    ∃ out, best_cats s ad_best ⟨b, [], []⟩ nclasses has_bbox has_roi = some out ∧
      best_cats out ad_best2 ⟨b, [], []⟩ nclasses has_bbox has_roi = some out := by
  let f : sup_result → sup_result :=
    if !has_bbox && !has_roi then best_plain nclasses else best_all
  have hidem : ∀ r, f (f r) = f r := by
    intro r
    simp only [f]
    split
    · exact best_plain_idem _ _
    · exact best_all_idem _
  have hrec : ∀ k, k = nclasses → ∀ r, best_record k nclasses has_bbox has_roi r = some (f r) := by
    intro k hk r
    subst hk
    simp only [best_record, f]
    split <;> simp
  have h1 := best_cats_of_total s ad_best ⟨b, [], []⟩ nclasses has_bbox has_roi f
    (fun r _ => hrec _ hall r)
  refine ⟨_, h1, ?_⟩
  have hb : (pushes ⟨b, [], []⟩ (s._vvcats.map f))._best = b := pushes_best _ _
  have h2 := best_cats_of_total (pushes ⟨b, [], []⟩ (s._vvcats.map f)) ad_best2 ⟨b, [], []⟩
    nclasses has_bbox has_roi f (fun r _ => hrec _ (by rw [hb]; exact hall2) r)
  rw [h2, pushes_vvcats]
  simp only [List.nil_append, List.map_map]
  have : (f ∘ f) = f := funext hidem
  rw [this]

theorem best_cats_all_idempotent_witness :
    best_of sample_boxed_out._best (some 3) 3 = 3 ∧ best_of 1 (some (-1)) 3 = 3 ∧
    ∃ out, best_cats sample_boxed_out (some 3) ⟨1, [], []⟩ 3 true false = some out ∧
      best_cats out (some (-1)) ⟨1, [], []⟩ 3 true false = some out :=
  ⟨by decide, by decide,
    best_cats_all_idempotent sample_boxed_out (some 3) (some (-1)) 1 3 true false
      (by decide) (by decide)⟩

end SupervisedOutput

namespace unordered_map

end unordered_map

/-! ## The dedup loop of `best_cats` -/

theorem desc_append_cons_drop {α : Type} (a : List (ℚ × α)) (c : ℚ × α) (l : List (ℚ × α))
    (h : Desc (a ++ c :: l)) : Desc (a ++ l) := by
  unfold Desc at h ⊢
  refine List.Pairwise.sublist ?_ h
  exact List.Sublist.append_left (List.sublist_cons_self c l) a

theorem mm_insert_of_desc_append {α : Type} (a : List (ℚ × α)) (c : ℚ × α) (l : List (ℚ × α))
    (h : Desc (a ++ c :: l)) : mm_insert c a = a ++ [c] := by
  apply mm_insert_last
  intro x hx
  unfold Desc at h
  exact (List.pairwise_append.1 h).2.2 x hx c (List.mem_cons_self _ _)

theorem desc_append_snoc {α : Type} (a : List (ℚ × α)) (c : ℚ × α) (l : List (ℚ × α))
    (h : Desc (a ++ c :: l)) : Desc ((a ++ [c]) ++ l) := by
  simpa using h

namespace SupervisedOutput

theorem dedup_keep_label (hr : Bool) (c : ℚ × String) (x : ℚ × BBox) (vv : Option (ℚ × Vals))
    (bs : sup_result) : (dedup_keep hr c x vv bs)._label = bs._label := by
  unfold dedup_keep; cases hr <;> cases vv <;> rfl

theorem dedup_keep_loss (hr : Bool) (c : ℚ × String) (x : ℚ × BBox) (vv : Option (ℚ × Vals))
    (bs : sup_result) : (dedup_keep hr c x vv bs)._loss = bs._loss := by
  unfold dedup_keep; cases hr <;> cases vv <;> rfl

theorem dedup_keep_cats (hr : Bool) (c : ℚ × String) (x : ℚ × BBox) (vv : Option (ℚ × Vals))
    (bs : sup_result) : (dedup_keep hr c x vv bs)._cats.1 = mm_insert c bs._cats.1 := by
  unfold dedup_keep; cases hr <;> cases vv <;> rfl

theorem dedup_keep_bboxes (hr : Bool) (c : ℚ × String) (x : ℚ × BBox)
    (vv : Option (ℚ × Vals)) (bs : sup_result) :
    (dedup_keep hr c x vv bs)._bboxes.1 = mm_insert x bs._bboxes.1 := by
  unfold dedup_keep; cases hr <;> cases vv <;> rfl

theorem dedup_keep_vals_false (c : ℚ × String) (x : ℚ × BBox) (vv : Option (ℚ × Vals))
    (bs : sup_result) : (dedup_keep false c x vv bs)._vals.1 = bs._vals.1 := by
  unfold dedup_keep; cases vv <;> rfl

theorem dedup_keep_vals_true (c : ℚ × String) (x : ℚ × BBox) (v : ℚ × Vals)
    (bs : sup_result) :
    (dedup_keep true c x (some v) bs)._vals.1 = mm_insert v bs._vals.1 := by
  unfold dedup_keep; rfl

/-- The dedup loop without regions: it runs to the end of the boxes and appends the
kept categories and boxes to the record under construction. -/
theorem dedup_loop_no_roi (best : Int) :
    ∀ (B : List (ℚ × BBox)) (C : List (ℚ × String)) (V : List (ℚ × Vals))
      (lb : unordered_map) (bs : sup_result),
      B.length ≤ C.length → Desc (bs._cats.1 ++ C) → Desc (bs._bboxes.1 ++ B) →
      ∃ o, dedup_loop best false B C V lb bs = some o ∧
        o._label = bs._label ∧ o._loss = bs._loss ∧
        o._cats.1 = bs._cats.1 ++ select (dedup_mask best lb B) C ∧
        o._bboxes.1 = bs._bboxes.1 ++ select (dedup_mask best lb B) B ∧
        o._vals.1 = bs._vals.1 := by
  intro B
  induction B with
  | nil =>
    intro C V lb bs _ _ _
    exact ⟨bs, by simp [dedup_loop], rfl, rfl, by simp [dedup_mask, select],
      by simp [dedup_mask, select], rfl⟩
  | cons x B ih =>
    intro C V lb bs hlen hC hB
    cases C with
    | nil => simp at hlen
    | cons c C =>
      have hlen' : B.length ≤ C.length := by simpa using hlen
      have hkeep : ∀ lb', ∃ o,
          dedup_loop best false B C V lb' (dedup_keep false c x V.head? bs) = some o ∧
          o._label = bs._label ∧ o._loss = bs._loss ∧
          o._cats.1 = bs._cats.1 ++ c :: select (dedup_mask best lb' B) C ∧
          o._bboxes.1 = bs._bboxes.1 ++ x :: select (dedup_mask best lb' B) B ∧
          o._vals.1 = bs._vals.1 := by
        intro lb'
        have hc := dedup_keep_cats false c x V.head? bs
        have hx := dedup_keep_bboxes false c x V.head? bs
        rw [mm_insert_of_desc_append _ c C hC] at hc
        rw [mm_insert_of_desc_append _ x B hB] at hx
        obtain ⟨o, ho, h1, h2, h3, h4, h5⟩ := ih C V lb' (dedup_keep false c x V.head? bs)
          hlen' (by rw [hc]; exact desc_append_snoc _ c C hC)
          (by rw [hx]; exact desc_append_snoc _ x B hB)
        refine ⟨o, ho, ?_, ?_, ?_, ?_, ?_⟩
        · rw [h1, dedup_keep_label]
        · rw [h2, dedup_keep_loss]
        · rw [h3, hc]; simp
        · rw [h4, hx]; simp
        · rw [h5, dedup_keep_vals_false]
      have hskip : ∀ lb', ∃ o,
          dedup_loop best false B C V lb' bs = some o ∧
          o._label = bs._label ∧ o._loss = bs._loss ∧
          o._cats.1 = bs._cats.1 ++ select (dedup_mask best lb' B) C ∧
          o._bboxes.1 = bs._bboxes.1 ++ select (dedup_mask best lb' B) B ∧
          o._vals.1 = bs._vals.1 :=
        fun lb' => ih C V lb' bs hlen' (desc_append_cons_drop _ c C hC)
          (desc_append_cons_drop _ x B hB)
      unfold dedup_loop dedup_mask
      simp only [Bool.false_and, Bool.false_eq_true, if_false]
      cases hfind : lb.find (bbkey x.2) with
      | none =>
        simp only [select, if_true]
        exact hkeep _
      | some n =>
        simp only
        by_cases hn : n + 1 ≤ best
        · simp only [hn, if_true, decide_True, select]
          exact hkeep _
        · simp only [hn, if_false, decide_False, select]
          simpa using hskip _

/-- The dedup loop with regions: it runs to the end of the boxes and appends the kept
categories, boxes and regions to the record under construction. -/
theorem dedup_loop_roi (best : Int) :
    ∀ (B : List (ℚ × BBox)) (C : List (ℚ × String)) (V : List (ℚ × Vals))
      (lb : unordered_map) (bs : sup_result),
      B.length ≤ C.length → B.length ≤ V.length →
      Desc (bs._cats.1 ++ C) → Desc (bs._bboxes.1 ++ B) → Desc (bs._vals.1 ++ V) →
      ∃ o, dedup_loop best true B C V lb bs = some o ∧
        o._label = bs._label ∧ o._loss = bs._loss ∧
        o._cats.1 = bs._cats.1 ++ select (dedup_mask best lb B) C ∧
        o._bboxes.1 = bs._bboxes.1 ++ select (dedup_mask best lb B) B ∧
        o._vals.1 = bs._vals.1 ++ select (dedup_mask best lb B) V := by
  intro B
  induction B with
  | nil =>
    intro C V lb bs _ _ _ _ _
    exact ⟨bs, by simp [dedup_loop], rfl, rfl, by simp [dedup_mask, select],
      by simp [dedup_mask, select], by simp [dedup_mask, select]⟩
  | cons x B ih =>
    intro C V lb bs hlen hlenV hC hB hV
    cases C with
    | nil => simp at hlen
    | cons c C =>
    cases V with
    | nil => simp at hlenV
    | cons v V =>
      have hlen' : B.length ≤ C.length := by simpa using hlen
      have hlenV' : B.length ≤ V.length := by simpa using hlenV
      have hkeep : ∀ lb', ∃ o,
          dedup_loop best true B C V lb' (dedup_keep true c x (some v) bs) = some o ∧
          o._label = bs._label ∧ o._loss = bs._loss ∧
          o._cats.1 = bs._cats.1 ++ c :: select (dedup_mask best lb' B) C ∧
          o._bboxes.1 = bs._bboxes.1 ++ x :: select (dedup_mask best lb' B) B ∧
          o._vals.1 = bs._vals.1 ++ v :: select (dedup_mask best lb' B) V := by
        intro lb'
        have hc := dedup_keep_cats true c x (some v) bs
        have hx := dedup_keep_bboxes true c x (some v) bs
        have hv := dedup_keep_vals_true c x v bs
        rw [mm_insert_of_desc_append _ c C hC] at hc
        rw [mm_insert_of_desc_append _ x B hB] at hx
        rw [mm_insert_of_desc_append _ v V hV] at hv
        obtain ⟨o, ho, h1, h2, h3, h4, h5⟩ := ih C V lb' (dedup_keep true c x (some v) bs)
          hlen' hlenV' (by rw [hc]; exact desc_append_snoc _ c C hC)
          (by rw [hx]; exact desc_append_snoc _ x B hB)
          (by rw [hv]; exact desc_append_snoc _ v V hV)
        refine ⟨o, ho, ?_, ?_, ?_, ?_, ?_⟩
        · rw [h1, dedup_keep_label]
        · rw [h2, dedup_keep_loss]
        · rw [h3, hc]; simp
        · rw [h4, hx]; simp
        · rw [h5, hv]; simp
      have hskip : ∀ lb', ∃ o,
          dedup_loop best true B C V lb' bs = some o ∧
          o._label = bs._label ∧ o._loss = bs._loss ∧
          o._cats.1 = bs._cats.1 ++ select (dedup_mask best lb' B) C ∧
          o._bboxes.1 = bs._bboxes.1 ++ select (dedup_mask best lb' B) B ∧
          o._vals.1 = bs._vals.1 ++ select (dedup_mask best lb' B) V :=
        fun lb' => ih C V lb' bs hlen' hlenV' (desc_append_cons_drop _ c C hC)
          (desc_append_cons_drop _ x B hB) (desc_append_cons_drop _ v V hV)
      unfold dedup_loop dedup_mask
      simp only [Bool.true_and, List.isEmpty_cons, Bool.false_eq_true, if_false, if_true,
        List.head?_cons, List.tail_cons]
      cases hfind : lb.find (bbkey x.2) with
      | none =>
        simp only [select, if_true]
        exact hkeep _
      | some n =>
        simp only
        by_cases hn : n + 1 ≤ best
        · simp only [hn, if_true, decide_True, select]
          exact hkeep _
        · simp only [hn, if_false, decide_False, select]
          simpa using hskip _

/-- The result of the dedup branch on a record that satisfies `DedupReady`. -/
theorem best_dedup_eq (best : Int) (has_roi : Bool) (r : sup_result)
    (hready : DedupReady has_roi r) :
    ∃ o, best_dedup best has_roi r = some o ∧
      o._label = r._label ∧ o._loss = r._loss ∧
      o._cats.1 = select (dedup_mask best [] r._bboxes.1) r._cats.1 ∧
      o._bboxes.1 = select (dedup_mask best [] r._bboxes.1) r._bboxes.1 ∧
      o._vals.1 = if has_roi then select (dedup_mask best [] r._bboxes.1) r._vals.1 else [] := by
  unfold best_dedup
  cases has_roi with
  | false =>
    obtain ⟨o, ho, h1, h2, h3, h4, h5⟩ := dedup_loop_no_roi best r._bboxes.1 r._cats.1
      r._vals.1 [] (sup_result.new r._label r._loss) hready.1
      (by simpa [sup_result.new, multimap.empty] using r._cats.2)
      (by simpa [sup_result.new, multimap.empty] using r._bboxes.2)
    exact ⟨o, ho, h1, h2, by simpa [sup_result.new, multimap.empty] using h3,
      by simpa [sup_result.new, multimap.empty] using h4,
      by simpa [sup_result.new, multimap.empty] using h5⟩
  | true =>
    obtain ⟨o, ho, h1, h2, h3, h4, h5⟩ := dedup_loop_roi best r._bboxes.1 r._cats.1
      r._vals.1 [] (sup_result.new r._label r._loss) hready.1 (hready.2 rfl)
      (by simpa [sup_result.new, multimap.empty] using r._cats.2)
      (by simpa [sup_result.new, multimap.empty] using r._bboxes.2)
      (by simpa [sup_result.new, multimap.empty] using r._vals.2)
    exact ⟨o, ho, h1, h2, by simpa [sup_result.new, multimap.empty] using h3,
      by simpa [sup_result.new, multimap.empty] using h4,
      by simpa [sup_result.new, multimap.empty] using h5⟩

theorem best_record_dedup (best nclasses : Int) (has_bbox has_roi : Bool) (r : sup_result)
    (hmode : (has_bbox || has_roi) = true) (hne : best ≠ nclasses) :
    best_record best nclasses has_bbox has_roi r = best_dedup best has_roi r := by
  unfold best_record
  have h1 : ¬ ((!has_bbox && !has_roi) = true) := by
    cases has_bbox <;> cases has_roi <;> simp at hmode ⊢
  rw [if_neg h1, if_neg hne]

/-- In every branch `best_cats` reduces a record to one with the same label and loss;
the dedup branch needs the record to satisfy `DedupReady`. -/
theorem best_record_total (best nclasses : Int) (has_bbox has_roi : Bool) (r : sup_result)
    (hready : (has_bbox || has_roi) = true → best ≠ nclasses → DedupReady has_roi r) :
    ∃ o, best_record best nclasses has_bbox has_roi r = some o ∧
      o._label = r._label ∧ o._loss = r._loss := by
  by_cases hmode : (has_bbox || has_roi) = true
  · by_cases hne : best = nclasses
    · refine ⟨best_all r, ?_, best_all_label r, best_all_loss r⟩
      unfold best_record
      have h1 : ¬ ((!has_bbox && !has_roi) = true) := by
        cases has_bbox <;> cases has_roi <;> simp at hmode ⊢
      rw [if_neg h1, if_pos hne]
    · rw [best_record_dedup best nclasses has_bbox has_roi r hmode hne]
      obtain ⟨o, ho, h1, h2, -⟩ := best_dedup_eq best has_roi r (hready hmode hne)
      exact ⟨o, ho, h1, h2⟩
  · refine ⟨best_plain best r, ?_, best_plain_label best r, best_plain_loss best r⟩
    unfold best_record
    have h1 : (!has_bbox && !has_roi) = true := by
      cases has_bbox <;> cases has_roi <;> simp at hmode ⊢
    rw [if_pos h1]

/-- C7, counterexample. The record of `sample_boxed_out` has three boxes and no region;
in dedup mode with `has_roi` the loop reads the region under an iterator that is at
`end()`, and no set is produced. -/
theorem best_cats_roi_without_regions :
    sample_boxed_out._vvcats.map (fun r => (r._cats.size, r._bboxes.size, r._vals.size))
      = [(3, 3, 0)] ∧
    best_of sample_boxed_out._best (some 1) 2 = 1 ∧
    best_cats sample_boxed_out (some 1) ⟨1, [], []⟩ 2 true true = none := by
  decide!

/-- C7, amended. For every set whose map is synchronized with its records, and all `k`,
`nclasses`, `has_bbox`, `has_roi` such that, in dedup mode (boxes or regions, effective
`best` different from `nclasses`), every record has at least as many categories as
boxes and, with `has_roi`, as many regions as boxes, `best_cats` on an empty
destination returns a set with as many records, carrying in the same order the
labels and losses of the input records, and whose map finds what the input map
finds. -/
theorem best_cats_frame (s : SupervisedOutput) (ad_best : Option Int)
    (b nclasses : Int) (has_bbox has_roi : Bool)
    (hsync : SyncedL s._vcats (labels s))
    (hready : (has_bbox || has_roi) = true → best_of s._best ad_best nclasses ≠ nclasses →
      ∀ r ∈ s._vvcats, DedupReady has_roi r) :
    ∃ out, best_cats s ad_best ⟨b, [], []⟩ nclasses has_bbox has_roi = some out ∧
      out._vvcats.length = s._vvcats.length ∧
      out._vvcats.map (fun o => (o._label, o._loss))
        = s._vvcats.map (fun r => (r._label, r._loss)) ∧
      ∀ u, out._vcats.find u = s._vcats.find u := by
  let k := best_of s._best ad_best nclasses
  let f : sup_result → sup_result :=
    fun r => (best_record k nclasses has_bbox has_roi r).getD r
  have hspec : ∀ r ∈ s._vvcats, best_record k nclasses has_bbox has_roi r = some (f r) ∧
      (f r)._label = r._label ∧ (f r)._loss = r._loss := by
    intro r hr
    obtain ⟨o, ho, h1, h2⟩ := best_record_total k nclasses has_bbox has_roi r
      (fun hm hn => hready hm hn r hr)
    have hfr : f r = o := by simp only [f, ho, Option.getD_some]
    rw [hfr]
    exact ⟨ho, h1, h2⟩
  have hout := best_cats_of_total s ad_best ⟨b, [], []⟩ nclasses has_bbox has_roi f
    (fun r hr => (hspec r hr).1)
  have hlab : (s._vvcats.map f).map (fun r => r._label) = labels s := by
    unfold labels
    rw [List.map_map]
    apply List.map_congr_left
    intro r hr
    exact (hspec r hr).2.1
  refine ⟨_, hout, ?_, ?_, ?_⟩
  · rw [pushes_vvcats]; simp
  · rw [pushes_vvcats]
    simp only [List.nil_append, List.map_map]
    apply List.map_congr_left
    intro r hr
    simp only [Function.comp_apply, (hspec r hr).2.1, (hspec r hr).2.2]
  · intro u
    have h0 : SyncedL (⟨b, [], []⟩ : SupervisedOutput)._vcats
        (labels (⟨b, [], []⟩ : SupervisedOutput)) := syncedL_nil
    have hs := pushes_synced ⟨b, [], []⟩ (s._vvcats.map f) h0
      (by rw [hlab]; simpa [labels] using syncedL_nodup hsync)
    rw [hlab] at hs
    have hs' : SyncedL (pushes ⟨b, [], []⟩ (s._vvcats.map f))._vcats (labels s) := by
      simpa [labels] using hs
    exact syncedL_unique hs' hsync u

theorem best_cats_frame_witness :
    SyncedL sample_out._vcats (labels sample_out) ∧
    ((true || false) = true → best_of sample_out._best (some 1) 2 ≠ 2 →
      ∀ r ∈ sample_out._vvcats, DedupReady false r) ∧
    ∃ out, best_cats sample_out (some 1) ⟨1, [], []⟩ 2 true false = some out ∧
      out._vvcats.length = sample_out._vvcats.length ∧
      out._vvcats.map (fun o => (o._label, o._loss))
        = sample_out._vvcats.map (fun r => (r._label, r._loss)) ∧
      ∀ u, out._vcats.find u = sample_out._vcats.find u :=
  ⟨(add_results_aggInv 1 sample_vrad sample_out sample_run).1, by decide,
    best_cats_frame sample_out (some 1) 1 2 true false
      (add_results_aggInv 1 sample_vrad sample_out sample_run).1 (by decide)⟩

end SupervisedOutput

/-! ## Regions after `best_cats` -/

theorem select_replicate_true {α : Type} (n : Nat) (l : List α) :
    select (List.replicate n true) l = l.take n := by
  induction n generalizing l with
  | zero => cases l <;> simp [select]
  | succ n ih =>
    cases l with
    | nil => simp [select, List.replicate]
    | cons a l => simp [select, List.replicate, ih]

theorem select_length_congr {α β : Type} (mask : List Bool) (l₁ : List α) (l₂ : List β)
    (h : l₁.length = l₂.length) : (select mask l₁).length = (select mask l₂).length := by
  induction mask generalizing l₁ l₂ with
  | nil => cases l₁ <;> cases l₂ <;> simp [select]
  | cons m mask ih =>
    cases l₁ with
    | nil =>
      cases l₂ with
      | nil => simp [select]
      | cons _ _ => simp at h
    | cons a l₁ =>
      cases l₂ with
      | nil => simp at h
      | cons b l₂ =>
        have := ih l₁ l₂ (by simpa using h)
        cases m <;> simp [select, this]

theorem select_nil {α : Type} (mask : List Bool) : select mask ([] : List α) = [] := by
  cases mask <;> simp [select]

namespace SupervisedOutput

/-- C11, counterexample. The record of `roi_set` has one category, one box and one
region.  In dedup mode without `has_roi` the regions are not carried over: the
output record has one category, one box and no region.  And on the record of
`sample_boxed_out`, three categories and boxes and no region, the dedup mode with
`has_roi` produces no record at all. -/
theorem best_cats_drops_regions_without_roi :
    record_sizes roi_set = [(1, 1, 1)] ∧
    best_of roi_set._best (some 1) 2 = 1 ∧
    (best_cats roi_set (some 1) ⟨1, [], []⟩ 2 true false).map record_sizes
      = some [(1, 1, 0)] ∧
    record_sizes sample_boxed_out = [(3, 3, 0)] ∧
    (best_cats sample_boxed_out (some 1) ⟨1, [], []⟩ 2 true true).map record_sizes
      = none := by
  decide!

/-- With boxes or regions and an effective `best` equal to `nclasses`, `best_cats`
copies categories and boxes only: the regions of `roi_set` are dropped even with
`has_roi`, unlike in the two other branches. -/
theorem best_cats_all_drops_regions :
    best_of roi_set._best (some (-1)) 2 = 2 ∧
    (best_cats roi_set (some (-1)) ⟨1, [], []⟩ 2 true true).map record_sizes
      = some [(1, 1, 0)] ∧
    (best_cats roi_set (some 1) ⟨1, [], []⟩ 2 true true).map record_sizes
      = some [(1, 1, 1)] ∧
    (best_cats roi_set (some 1) ⟨1, [], []⟩ 2 false false).map record_sizes
      = some [(1, 1, 1)] := by
  decide!

theorem best_record_co_indexed (best nclasses : Int) (has_bbox has_roi : Bool)
    (r : sup_result)
    (hinv : (r._bboxes.size = 0 ∨ r._bboxes.size = r._cats.size) ∧
      (r._vals.size = 0 ∨ r._vals.size = r._cats.size))
    (hroi : has_roi = true → best ≠ nclasses → r._bboxes.size ≤ r._vals.size) :
    ∃ o, best_record best nclasses has_bbox has_roi r = some o ∧
      CoIndexed ((has_bbox || has_roi) = false ∨ (has_roi = true ∧ best ≠ nclasses)) r o := by
  have hsize : ∀ {α β : Type} (mask : List Bool) (a : multimap α) (b : multimap β)
      (x : multimap α) (y : multimap β), x.1 = select mask a.1 → y.1 = select mask b.1 →
      a.size = b.size → x.size = y.size := by
    intro α β mask a b x y hx hy hab
    unfold multimap.size at hab ⊢
    rw [hx, hy]
    exact select_length_congr mask _ _ hab
  by_cases hmode : (has_bbox || has_roi) = true
  · by_cases hne : best = nclasses
    · -- every entry is taken, the regions are not
      refine ⟨best_all r, ?_, List.replicate r._cats.size true, ?_, ?_, ?_, ?_⟩
      · unfold best_record
        have h1 : ¬ ((!has_bbox && !has_roi) = true) := by
          cases has_bbox <;> cases has_roi <;> simp at hmode ⊢
        rw [if_neg h1, if_pos hne]
      · rw [best_all_cats, select_replicate_true]
        exact (List.take_of_length_le (le_refl _)).symm
      · rw [best_all_bboxes, select_replicate_true]
      · intro hb
        refine hsize (List.replicate r._cats.size true) r._bboxes r._cats _ _ ?_ ?_ ?_
        · rw [best_all_bboxes, select_replicate_true]
        · rw [best_all_cats, select_replicate_true]
          exact (List.take_of_length_le (le_refl _)).symm
        · rcases hinv.1 with h | h
          · exact absurd h hb
          · exact h
      · rintro (h | ⟨-, h⟩)
        · rw [hmode] at h; exact Bool.noConfusion h
        · exact absurd hne h
    · -- dedup loop
      have hready : DedupReady has_roi r := by
        refine ⟨?_, fun h => hroi h hne⟩
        rcases hinv.1 with h | h <;> omega
      rw [best_record_dedup best nclasses has_bbox has_roi r hmode hne]
      obtain ⟨o, ho, -, -, hC, hB, hV⟩ := best_dedup_eq best has_roi r hready
      refine ⟨o, ho, dedup_mask best [] r._bboxes.1, hC, hB, ?_, ?_⟩
      · intro hb
        refine hsize _ r._bboxes r._cats _ _ hB hC ?_
        rcases hinv.1 with h | h
        · exact absurd h hb
        · exact h
      · rintro (h | ⟨h, -⟩)
        · rw [hmode] at h; exact Bool.noConfusion h
        · rw [h] at hV
          simp only [if_true] at hV
          refine ⟨hV, fun hv => ?_⟩
          refine hsize _ r._vals r._cats _ _ hV hC ?_
          rcases hinv.2 with h' | h'
          · exact absurd h' hv
          · exact h'
  · -- no boxes, no regions: the first `best` entries of each container
    refine ⟨best_plain best r, ?_, List.replicate best.toNat true, ?_, ?_, ?_, ?_⟩
    · unfold best_record
      have h1 : (!has_bbox && !has_roi) = true := by
        cases has_bbox <;> cases has_roi <;> simp at hmode ⊢
      rw [if_pos h1]
    · rw [best_plain_cats, select_replicate_true]
    · rw [best_plain_bboxes, select_replicate_true]
    · intro hb
      refine hsize (List.replicate best.toNat true) r._bboxes r._cats _ _ ?_ ?_ ?_
      · rw [best_plain_bboxes, select_replicate_true]
      · rw [best_plain_cats, select_replicate_true]
      · rcases hinv.1 with h | h
        · exact absurd h hb
        · exact h
    · intro _
      refine ⟨by rw [best_plain_vals, select_replicate_true], fun hv => ?_⟩
      refine hsize (List.replicate best.toNat true) r._vals r._cats _ _ ?_ ?_ ?_
      · rw [best_plain_vals, select_replicate_true]
      · rw [best_plain_cats, select_replicate_true]
      · rcases hinv.2 with h | h
        · exact absurd h hv
        · exact h

/-- C11, amended. For every set whose records have boxes and regions each empty or as
many as categories (and, in dedup mode with `has_roi`, regions wherever there are
boxes), and every `k`, `nclasses`, `has_bbox`, `has_roi`, `best_cats` returns a set
whose records keep categories and boxes co-indexed: one mask of retained ranks
yields both, and they have the same length again when boxes were populated.  The
regions follow the same mask, with the same length when populated, in the branch
without boxes and regions and in the dedup branch with `has_roi`. -/
theorem best_cats_keeps_co_indexed (s : SupervisedOutput) (ad_best : Option Int)
    (b nclasses : Int) (has_bbox has_roi : Bool)
    (hinv : ∀ r ∈ s._vvcats, (r._bboxes.size = 0 ∨ r._bboxes.size = r._cats.size) ∧
      (r._vals.size = 0 ∨ r._vals.size = r._cats.size))
    (hroi : has_roi = true → best_of s._best ad_best nclasses ≠ nclasses →
      ∀ r ∈ s._vvcats, r._bboxes.size ≤ r._vals.size) :
    ∃ out, best_cats s ad_best ⟨b, [], []⟩ nclasses has_bbox has_roi = some out ∧
      List.Forall₂ (CoIndexed ((has_bbox || has_roi) = false ∨
          (has_roi = true ∧ best_of s._best ad_best nclasses ≠ nclasses)))
        s._vvcats out._vvcats := by
  let k := best_of s._best ad_best nclasses
  let f : sup_result → sup_result :=
    fun r => (best_record k nclasses has_bbox has_roi r).getD r
  have hspec : ∀ r ∈ s._vvcats, best_record k nclasses has_bbox has_roi r = some (f r) ∧
      CoIndexed ((has_bbox || has_roi) = false ∨ (has_roi = true ∧ k ≠ nclasses)) r (f r) := by
    intro r hr
    obtain ⟨o, ho, hco⟩ := best_record_co_indexed k nclasses has_bbox has_roi r (hinv r hr)
      (fun h1 h2 => hroi h1 h2 r hr)
    have hfr : f r = o := by simp only [f, ho, Option.getD_some]
    rw [hfr]
    exact ⟨ho, hco⟩
  refine ⟨_, best_cats_of_total s ad_best ⟨b, [], []⟩ nclasses has_bbox has_roi f
    (fun r hr => (hspec r hr).1), ?_⟩
  rw [pushes_vvcats]
  simp only [List.nil_append]
  rw [List.forall₂_map_right_iff, List.forall₂_same]
  exact fun r hr => (hspec r hr).2

theorem best_cats_keeps_co_indexed_witness :
    (∀ r ∈ roi_set._vvcats, (r._bboxes.size = 0 ∨ r._bboxes.size = r._cats.size) ∧
      (r._vals.size = 0 ∨ r._vals.size = r._cats.size)) ∧
    (true = true → best_of roi_set._best (some 1) 2 ≠ 2 →
      ∀ r ∈ roi_set._vvcats, r._bboxes.size ≤ r._vals.size) ∧
    ∃ out, best_cats roi_set (some 1) ⟨1, [], []⟩ 2 true true = some out ∧
      List.Forall₂ (CoIndexed ((true || true) = false ∨
          (true = true ∧ best_of roi_set._best (some 1) 2 ≠ 2)))
        roi_set._vvcats out._vvcats :=
  ⟨by decide, by decide,
    best_cats_keeps_co_indexed roi_set (some 1) 1 2 true true (by decide) (by decide)⟩

/-! ## `best_cats` record by record -/

theorem reduce_each_eq_some (f : sup_result → Option sup_result) :
    ∀ (l os : List sup_result), reduce_each f l = some os ↔
      List.Forall₂ (fun r o => f r = some o) l os := by
  intro l
  induction l with
  | nil =>
    intro os
    cases os with
    | nil => simp [reduce_each]
    | cons _ _ => simp [reduce_each]
  | cons r l ih =>
    intro os
    cases hf : f r with
    | none =>
      simp only [reduce_each, hf]
      constructor
      · intro h; exact Option.noConfusion h
      · intro h
        cases h with
        | cons h1 _ => rw [hf] at h1; exact Option.noConfusion h1
    | some o =>
      cases hr : reduce_each f l with
      | none =>
        simp only [reduce_each, hf, hr]
        constructor
        · intro h; exact Option.noConfusion h
        · intro h
          cases h with
          | cons _ h2 =>
            rw [← ih] at h2
            rw [hr] at h2; exact Option.noConfusion h2
      | some os' =>
        simp only [reduce_each, hf, hr, Option.some.injEq]
        constructor
        · intro h
          subst h
          exact List.Forall₂.cons hf ((ih os').1 hr)
        · intro h
          cases h with
          | cons h1 h2 =>
            rw [hf] at h1
            rw [← ih, hr] at h2
            simp only [Option.some.injEq] at h1 h2
            rw [h1, h2]

theorem best_cats_eq_reduce_each (s : SupervisedOutput) (ad_best : Option Int)
    (bcats : SupervisedOutput) (nclasses : Int) (has_bbox has_roi : Bool) :
    best_cats s ad_best bcats nclasses has_bbox has_roi
      = (reduce_each (best_record (best_of s._best ad_best nclasses) nclasses has_bbox has_roi)
          s._vvcats).map (pushes bcats) := by
  unfold best_cats pushes
  simp only
  generalize s._vvcats = l
  induction l generalizing bcats with
  | nil => rfl
  | cons r l ih =>
    rw [List.foldlM_cons]
    cases hf : best_record (best_of s._best ad_best nclasses) nclasses has_bbox has_roi r with
    | none => simp [reduce_each, hf]
    | some o =>
      simp only [Option.map_some', Option.bind_eq_bind, Option.some_bind]
      rw [ih]
      cases hr : reduce_each
          (best_record (best_of s._best ad_best nclasses) nclasses has_bbox has_roi) l with
      | none => simp [reduce_each, hf, hr]
      | some os => simp [reduce_each, hf, hr]

theorem forall₂_getElem? {α β : Type} {R : α → β → Prop} :
    ∀ {l : List α} {os : List β}, List.Forall₂ R l os → ∀ (i : Nat) (r : α),
      l[i]? = some r → ∃ o, os[i]? = some o ∧ R r o := by
  intro l os h
  induction h with
  | nil => intro i r hi; simp at hi
  | cons hab _ ih =>
    intro i r hi
    cases i with
    | zero =>
      simp only [List.getElem?_cons_zero, Option.some.injEq] at hi
      subst hi
      exact ⟨_, by simp, hab⟩
    | succ i =>
      simp only [List.getElem?_cons_succ] at hi ⊢
      exact ih i r hi

theorem best_cats_getElem? (s : SupervisedOutput) (ad_best : Option Int) (b nclasses : Int)
    (has_bbox has_roi : Bool) (out : SupervisedOutput)
    (h : best_cats s ad_best ⟨b, [], []⟩ nclasses has_bbox has_roi = some out)
    (i : Nat) (r : sup_result) (hi : s._vvcats[i]? = some r) :
    out._vvcats[i]?
      = best_record (best_of s._best ad_best nclasses) nclasses has_bbox has_roi r := by
  rw [best_cats_eq_reduce_each] at h
  cases hr : reduce_each
      (best_record (best_of s._best ad_best nclasses) nclasses has_bbox has_roi) s._vvcats with
  | none => rw [hr] at h; exact Option.noConfusion h
  | some os =>
    rw [hr] at h
    simp only [Option.map_some', Option.some.injEq] at h
    subst h
    rw [pushes_vvcats]
    simp only [List.nil_append]
    obtain ⟨o, ho, hro⟩ := forall₂_getElem? ((reduce_each_eq_some _ _ _).1 hr) i r hi
    rw [ho, hro]

/-- C12. `best_cats` on a set is the reduction of each record on its own, pushed in
order to the destination: the record it returns at a position is `best_record` of
the input record at that position, a function of that record, the effective `best`,
`nclasses` and the flags alone (the dedup counters start empty for each record).
Hence a record that occurs in two sets, at whatever positions and among whatever
other records, has the same reduction in both. -/
theorem best_cats_per_record (s₁ s₂ : SupervisedOutput) (ad₁ ad₂ : Option Int)
    (b₁ b₂ nclasses : Int) (has_bbox has_roi : Bool) (out₁ out₂ : SupervisedOutput)
    (i j : Nat) (r : sup_result)
    (hk : best_of s₁._best ad₁ nclasses = best_of s₂._best ad₂ nclasses)
    (h₁ : best_cats s₁ ad₁ ⟨b₁, [], []⟩ nclasses has_bbox has_roi = some out₁)
    (h₂ : best_cats s₂ ad₂ ⟨b₂, [], []⟩ nclasses has_bbox has_roi = some out₂)
    (hi : s₁._vvcats[i]? = some r) (hj : s₂._vvcats[j]? = some r) :
    best_cats s₁ ad₁ ⟨b₁, [], []⟩ nclasses has_bbox has_roi
      = (reduce_each (best_record (best_of s₁._best ad₁ nclasses) nclasses has_bbox has_roi)
          s₁._vvcats).map (pushes ⟨b₁, [], []⟩) ∧
    out₁._vvcats[i]?
      = best_record (best_of s₁._best ad₁ nclasses) nclasses has_bbox has_roi r ∧
    out₁._vvcats[i]? = out₂._vvcats[j]? := by
  refine ⟨best_cats_eq_reduce_each _ _ _ _ _ _, ?_, ?_⟩
  · exact best_cats_getElem? s₁ ad₁ b₁ nclasses has_bbox has_roi out₁ h₁ i r hi
  · rw [best_cats_getElem? s₁ ad₁ b₁ nclasses has_bbox has_roi out₁ h₁ i r hi,
      best_cats_getElem? s₂ ad₂ b₂ nclasses has_bbox has_roi out₂ h₂ j r hj, hk]

theorem two_records_run :
    best_cats two_records (some 1) ⟨1, [], []⟩ 5 true false = some two_records_out := by
  decide!

theorem two_records_swapped_run :
    best_cats two_records_swapped (some 1) ⟨1, [], []⟩ 5 true false
      = some two_records_swapped_out := by
  decide!

theorem best_cats_per_record_witness :
    best_cats two_records (some 1) ⟨1, [], []⟩ 5 true false = some two_records_out ∧
    best_cats two_records_swapped (some 1) ⟨1, [], []⟩ 5 true false
      = some two_records_swapped_out ∧
    (best_cats two_records (some 1) ⟨1, [], []⟩ 5 true false
      = (reduce_each (best_record (best_of two_records._best (some 1) 5) 5 true false)
          two_records._vvcats).map (pushes ⟨1, [], []⟩) ∧
    two_records_out._vvcats[1]?
      = best_record (best_of two_records._best (some 1) 5) 5 true false
          ⟨"b", 0, ⟨[(7, "cat"), (6, "dog")], by decide⟩,
            ⟨[(7, ⟨0, 0, 1, 1⟩), (6, ⟨0, 0, 1, 1⟩)], by decide⟩, multimap.empty⟩ ∧
    two_records_out._vvcats[1]? = two_records_swapped_out._vvcats[0]?) :=
  ⟨two_records_run, two_records_swapped_run,
    best_cats_per_record two_records two_records_swapped (some 1) (some 1) 1 1 5 true false
      two_records_out two_records_swapped_out 1 0 _ rfl two_records_run
      two_records_swapped_run rfl rfl⟩

/-! ## Aggregation, selection and serialization end to end -/

/-- C13. Aggregating the three samples of `abc_vrad`, selecting with `best = 1` without
boxes and regions and writing the result for a classification task: each record
keeps one category, `cat0` for `a`, `cat1` for `b` and `cat0` for `c`, and each
per-record entry holds its ranks under the key `classes`. -/
theorem abc_end_to_end :
    ((add_results ⟨1, [], []⟩ abc_vrad).bind (fun s =>
        best_cats s (some 1) s.copy 2 false false)).map
      (fun bcats => bcats._vvcats.map (fun r => (r._label, r._cats.1)))
      = some [("a", [(9 / 10, "cat0")]), ("b", [(7 / 10, "cat1")]),
          ("c", [(5 / 10, "cat0")])] ∧
    ((add_results ⟨1, [], []⟩ abc_vrad).bind (fun s =>
        best_cats s (some 1) s.copy 2 false false)).bind
      (fun bcats => to_ad bcats false false false false)
      = some [
          [("uri", pred_value.str "a"),
           ("classes", pred_value.objs [[("cat", ad_value.str "cat0"),
              ("prob", ad_value.num (9 / 10)), ("last", ad_value.flag true)]])],
          [("uri", pred_value.str "b"),
           ("classes", pred_value.objs [[("cat", ad_value.str "cat1"),
              ("prob", ad_value.num (7 / 10)), ("last", ad_value.flag true)]])],
          [("uri", pred_value.str "c"),
           ("classes", pred_value.objs [[("cat", ad_value.str "cat0"),
              ("prob", ad_value.num (5 / 10)), ("last", ad_value.flag true)]])]] := by
  decide!

/-! ## Area under the curve: `auc` -/

theorem auc_fill_ok : ∀ (pred targets : List ℚ), pred.length ≤ targets.length →
    ∃ p, auc_fill pred targets = .ok p ∧ p.length = pred.length ∧
      ∀ e ∈ p, ∃ t ∈ targets, e.answer = to_int t := by
  intro pred
  induction pred with
  | nil => intro targets _; exact ⟨[], rfl, rfl, by simp⟩
  | cons x pred ih =>
    intro targets hlen
    cases targets with
    | nil => simp at hlen
    | cons t targets =>
      obtain ⟨p, hp, hl, ha⟩ := ih targets (by simpa using hlen)
      refine ⟨⟨to_float x, to_int t⟩ :: p, ?_, by simp [hl], ?_⟩
      · simp only [auc_fill, hp]
        rfl
      · intro e he
        rcases List.mem_cons.1 he with rfl | he
        · exact ⟨t, List.mem_cons_self _ _, rfl⟩
        · obtain ⟨t', ht', h⟩ := ha e he
          exact ⟨t', List.mem_cons_of_mem _ ht', h⟩

theorem foldl_answer_eq_sum (p : List PredictionAndAnswer) (z : Int) :
    p.foldl (fun ones pi => ones + pi.answer) z = z + (p.map (fun pi => pi.answer)).sum := by
  induction p generalizing z with
  | nil => simp
  | cons e p ih => rw [List.foldl_cons, ih, List.map_cons, List.sum_cons]; ring

theorem ones_sorted (p : List PredictionAndAnswer) :
    (p.insertionSort (fun p1 p2 => p1.prediction ≤ p2.prediction)).foldl
        (fun ones pi => ones + pi.answer) 0
      = (p.map (fun pi => pi.answer)).sum := by
  rw [foldl_answer_eq_sum, zero_add]
  exact ((List.perm_insertionSort _ p).map _).sum_eq

theorem sum_const_answers (p : List PredictionAndAnswer) (c : Int)
    (h : ∀ e ∈ p, e.answer = c) : (p.map (fun pi => pi.answer)).sum = c * p.length := by
  induction p with
  | nil => simp
  | cons e p ih =>
    rw [List.map_cons, List.sum_cons, h e (List.mem_cons_self _ _),
      ih (fun x hx => h x (List.mem_cons_of_mem _ hx))]
    simp only [List.length_cons]
    push_cast
    ring

theorem auc_of_ones (pred targets : List ℚ) (p : List PredictionAndAnswer)
    (hp : auc_fill pred targets = .ok p)
    (hones : (p.map (fun pi => pi.answer)).sum = 0 ∨
      (p.map (fun pi => pi.answer)).sum = (p.length : Int)) :
    auc pred targets = .ok (some 1) := by
  unfold auc
  rw [hp]
  simp only [Except.bind, bind, ones_sorted]
  have hc : (0 : Int) = (p.map (fun pi => pi.answer)).sum ∨
      (p.length : Int) = (p.map (fun pi => pi.answer)).sum := by
    rcases hones with h | h
    · exact Or.inl h.symm
    · exact Or.inr h.symm
  rw [if_pos hc]
  rfl

/-- C14. `auc(pred, targets)` returns exactly 1 on a batch with one label: for all
predictions and targets, one target per prediction at least, whose targets are all
0 or all 1, the empty batch included. -/
theorem auc_single_class (pred targets : List ℚ) (hlen : pred.length ≤ targets.length)
    (hsame : (∀ t ∈ targets, t = 0) ∨ (∀ t ∈ targets, t = 1)) :
    auc pred targets = .ok (some 1) := by
  obtain ⟨p, hp, hl, ha⟩ := auc_fill_ok pred targets hlen
  apply auc_of_ones pred targets p hp
  rcases hsame with h0 | h1
  · left
    have : ∀ e ∈ p, e.answer = 0 := by
      intro e he
      obtain ⟨t, ht, h⟩ := ha e he
      rw [h, h0 t ht]
      decide!
    rw [sum_const_answers p 0 this]; simp
  · right
    have : ∀ e ∈ p, e.answer = 1 := by
      intro e he
      obtain ⟨t, ht, h⟩ := ha e he
      rw [h, h1 t ht]
      decide!
    rw [sum_const_answers p 1 this]; simp

theorem auc_single_class_witness :
    ([3 / 10, 7 / 10, 1 / 2] : List ℚ).length ≤ ([1, 1, 1] : List ℚ).length ∧
    ((∀ t ∈ ([1, 1, 1] : List ℚ), t = 0) ∨ (∀ t ∈ ([1, 1, 1] : List ℚ), t = 1)) ∧
    auc [3 / 10, 7 / 10, 1 / 2] [1, 1, 1] = .ok (some 1) :=
  ⟨by decide, Or.inr (by decide), auc_single_class _ _ (by decide) (Or.inr (by decide))⟩

/-! ## The confusion matrix of `mf1` and `mcc` -/

theorem conf_step_eq (nclasses : Int) (conf : dMat) (bad : Sample) :
    conf_step nclasses conf bad =
      match conf_check nclasses bad with
      | some e => .error e
      | none => .ok (fun i j => conf i j + conf_count [bad] i j) := by
  unfold conf_step conf_check
  by_cases h1 : bad.target < 0
  · simp only [h1, if_true]; rfl
  · by_cases h2 : bad.target ≥ nclasses
    · simp only [h1, h2, if_true, if_false]; rfl
    · by_cases h3 : nclasses ≤ max_element bad.pred
      · simp only [h1, h2, h3, if_true, if_false]; rfl
      · simp only [h1, h2, h3, if_false]
        show Except.ok _ = Except.ok _
        congr 1
        funext i j
        unfold conf_count
        by_cases hij : max_element bad.pred = i ∧ (to_int bad.target).toNat = j
        · have hij' : i = max_element bad.pred ∧ j = (to_int bad.target).toNat :=
            ⟨hij.1.symm, hij.2.symm⟩
          rw [if_pos hij', List.countP_cons, List.countP_nil, if_pos (by simpa using hij)]
          simp
        · have hij' : ¬ (i = max_element bad.pred ∧ j = (to_int bad.target).toNat) :=
            fun h => hij ⟨h.1.symm, h.2.symm⟩
          rw [if_neg hij', List.countP_cons, List.countP_nil, if_neg (by simpa using hij)]
          simp

theorem conf_count_cons (bad : Sample) (samples : List Sample) (i j : Nat) :
    conf_count (bad :: samples) i j = conf_count [bad] i j + conf_count samples i j := by
  unfold conf_count
  rw [List.countP_cons, List.countP_cons, List.countP_nil]
  by_cases h : max_element bad.pred = i ∧ (to_int bad.target).toNat = j
  · rw [if_pos (by simpa using h)]
    push_cast
    ring
  · rw [if_neg (by simpa using h)]
    push_cast
    ring

/-- The loop filling the confusion matrix ends with the failure of the first sample
that has one; without such a sample it adds to each cell the number of samples
that fall into it. -/
theorem conf_foldlM_eq (nclasses : Int) : ∀ (samples : List Sample) (conf : dMat),
    samples.foldlM (conf_step nclasses) conf =
      match samples.findSome? (conf_check nclasses) with
      | some e => .error e
      | none => .ok (fun i j => conf i j + conf_count samples i j) := by
  intro samples
  induction samples with
  | nil =>
    intro conf
    simp only [List.foldlM_nil, List.findSome?_nil]
    show Except.ok _ = Except.ok _
    congr 1
    funext i j
    simp [conf_count]
  | cons bad samples ih =>
    intro conf
    rw [List.foldlM_cons, conf_step_eq]
    cases hc : conf_check nclasses bad with
    | some e =>
      simp only [List.findSome?_cons, hc]
      rfl
    | none =>
      simp only [List.findSome?_cons, hc]
      show (samples.foldlM (conf_step nclasses) _) = _
      rw [ih]
      cases samples.findSome? (conf_check nclasses) with
      | some e => rfl
      | none =>
        show Except.ok _ = Except.ok _
        congr 1
        funext i j
        rw [conf_count_cons bad samples]
        ring

theorem conf_fill_eq (ad : EvalBatch) :
    conf_fill ad =
      if ad.nclasses < 0 then .error Failure.undefined
      else match ad.samples.findSome? (conf_check ad.nclasses) with
        | some e => .error e
        | none => .ok (conf_count ad.samples) := by
  unfold conf_fill
  split
  · rfl
  · rw [conf_foldlM_eq]
    cases ad.samples.findSome? (conf_check ad.nclasses) with
    | some e => rfl
    | none =>
      show Except.ok _ = Except.ok _
      congr 1
      funext i j
      simp

theorem max_element_from_lt (l : List ℚ) :
    ∀ (i largest : Nat) (v : ℚ), largest < i → max_element_from i largest v l < i + l.length := by
  induction l with
  | nil => intro i largest v h; simpa [max_element_from] using h
  | cons x xs ih =>
    intro i largest v h
    unfold max_element_from
    split
    · have := ih (i + 1) i x (Nat.lt_succ_self i)
      simp only [List.length_cons]; omega
    · have := ih (i + 1) largest v (Nat.lt_succ_of_lt h)
      simp only [List.length_cons]; omega

theorem max_element_lt (l : List ℚ) (h : l ≠ []) : max_element l < l.length := by
  cases l with
  | nil => exact absurd rfl h
  | cons x xs =>
    have := max_element_from_lt xs 1 0 x Nat.zero_lt_one
    simp only [max_element, List.length_cons]; omega

theorem max_element_lt_of_le (l : List ℚ) (n : Int) (hl : (l.length : Int) ≤ n) (hn : 0 < n) :
    (max_element l : Int) < n := by
  cases l with
  | nil => simpa [max_element] using hn
  | cons x xs =>
    have := max_element_lt (x :: xs) (by simp)
    omega

theorem conf_check_none (nclasses : Int) (bad : Sample)
    (h : 0 ≤ bad.target ∧ bad.target < nclasses ∧ (bad.pred.length : Int) ≤ nclasses) :
    conf_check nclasses bad = none := by
  unfold conf_check
  have hpos : (0 : ℚ) < nclasses := lt_of_le_of_lt h.1 h.2.1
  have hpos' : (0 : Int) < nclasses := by exact_mod_cast hpos
  have hm := max_element_lt_of_le bad.pred nclasses h.2.2 hpos'
  rw [if_neg (not_lt.2 h.1), if_neg (not_le.2 h.2.1), if_neg (not_le.2 hm)]

theorem findSome?_conf_check_none (nclasses : Int) (samples : List Sample)
    (h : ∀ bad ∈ samples,
      0 ≤ bad.target ∧ bad.target < nclasses ∧ (bad.pred.length : Int) ≤ nclasses) :
    samples.findSome? (conf_check nclasses) = none := by
  rw [List.findSome?_eq_none_iff]
  intro bad hb
  exact conf_check_none nclasses bad (h bad hb)

theorem eps_pos : 0 < eps := by unfold eps; norm_num

theorem conf_count_nonneg (samples : List Sample) (i j : Nat) : 0 ≤ conf_count samples i j := by
  unfold conf_count
  exact Nat.cast_nonneg _

theorem sum_map_nonneg {α : Type} (l : List α) (f : α → ℚ) (h : ∀ x ∈ l, 0 ≤ f x) :
    0 ≤ (l.map f).sum := by
  induction l with
  | nil => simp
  | cons a l ih =>
    rw [List.map_cons, List.sum_cons]
    exact add_nonneg (h a (List.mem_cons_self _ _))
      (ih (fun x hx => h x (List.mem_cons_of_mem _ hx)))

theorem osum_map_fdiv {α : Type} (l : List α) (f g : α → ℚ) (h : ∀ x ∈ l, g x ≠ 0) :
    osum (l.map (fun x => fdiv (f x) (g x))) = some ((l.map (fun x => f x / g x)).sum) := by
  induction l with
  | nil => rfl
  | cons a l ih =>
    have ha : fdiv (f a) (g a) = some (f a / g a) := by
      unfold fdiv; rw [if_neg (h a (List.mem_cons_self _ _))]
    simp only [List.map_cons, osum, ha, ih (fun x hx => h x (List.mem_cons_of_mem _ hx)),
      List.sum_cons, Option.some_bind, Option.map_some']

theorem mf1_eq_of_conf (ad : EvalBatch) (C : dMat) (hC : conf_fill ad = .ok C)
    (hpos : ∀ i j, 0 ≤ C i j) :
    ∃ res, mf1 ad = .ok res ∧
      res.acc = fdiv (trace C ad.nclasses.toNat) (total C ad.nclasses.toNat) ∧
      res.precision = fdiv ((List.range ad.nclasses.toNat).map (fun j =>
          C j j / (col_sum C ad.nclasses.toNat j + eps))).sum ad.nclasses ∧
      res.recall_ = fdiv ((List.range ad.nclasses.toNat).map (fun i =>
          C i i / (row_sum C ad.nclasses.toNat i + eps))).sum ad.nclasses ∧
      res.f1 = f1_of res.precision res.recall_ := by
  have hcol : ∀ j ∈ List.range ad.nclasses.toNat,
      (List.range ad.nclasses.toNat |>.map (fun i => C i j)).sum + eps ≠ 0 := by
    intro j _
    have := sum_map_nonneg (List.range ad.nclasses.toNat) (fun i => C i j) (fun i _ => hpos i j)
    have := eps_pos
    linarith
  have hrow : ∀ i ∈ List.range ad.nclasses.toNat,
      (List.range ad.nclasses.toNat |>.map (fun j => C i j)).sum + eps ≠ 0 := by
    intro i _
    have := sum_map_nonneg (List.range ad.nclasses.toNat) (fun j => C i j) (fun j _ => hpos i j)
    have := eps_pos
    linarith
  unfold mf1
  rw [hC]
  simp only [Except.bind, bind, pure, Except.pure]
  refine ⟨_, rfl, ?_, ?_, ?_, rfl⟩
  · rfl
  · simp only
    rw [osum_map_fdiv _ _ _ hcol]
    rfl
  · simp only
    rw [osum_map_fdiv _ _ _ hrow]
    rfl

/-- C16. On a batch with a non-negative class count `N`, in-range targets and at most
`N` predictions per sample, `mf1` returns, for the matrix `C` whose cell at row `i`
and column `j` counts the samples predicted `i` (largest prediction) with true
class `j`: accuracy `trace(C) / total(C)`, precision and recall the sums over the
classes of `diag / (column sum + 1e-8)` respectively `diag / (row sum + 1e-8)`
divided by `N`, and F1 `2 * precision * recall / (precision + recall)`.  On the batch
`cm_batch`, with `C = [[8, 2], [1, 9]]`, the accuracy is `17/20` and precision,
recall and F1 are the values of these formulas. -/
theorem mf1_confusion_matrix (ad : EvalBatch) (hn : 0 ≤ ad.nclasses)
    (hwf : ∀ bad ∈ ad.samples,
      0 ≤ bad.target ∧ bad.target < ad.nclasses ∧ (bad.pred.length : Int) ≤ ad.nclasses) :
    (∃ res, mf1 ad = .ok res ∧
      res.acc = fdiv (trace (conf_count ad.samples) ad.nclasses.toNat)
        (total (conf_count ad.samples) ad.nclasses.toNat) ∧
      res.precision = fdiv ((List.range ad.nclasses.toNat).map (fun j =>
          conf_count ad.samples j j
            / (col_sum (conf_count ad.samples) ad.nclasses.toNat j + eps))).sum ad.nclasses ∧
      res.recall_ = fdiv ((List.range ad.nclasses.toNat).map (fun i =>
          conf_count ad.samples i i
            / (row_sum (conf_count ad.samples) ad.nclasses.toNat i + eps))).sum ad.nclasses ∧
      res.f1 = f1_of res.precision res.recall_) ∧
    ([0, 1].map (fun i => [0, 1].map (fun j => conf_count cm_batch.samples i j))
        = [[8, 2], [1, 9]] ∧
      (mf1 cm_batch).toOption.map (fun res => (res.acc, res.precision, res.recall_, res.f1))
        = some (some (17 / 20),
            some ((8 / (9 + eps) + 9 / (11 + eps)) / 2),
            some ((8 / (10 + eps) + 9 / (10 + eps)) / 2),
            some (2 * ((8 / (9 + eps) + 9 / (11 + eps)) / 2)
                * ((8 / (10 + eps) + 9 / (10 + eps)) / 2)
              / ((8 / (9 + eps) + 9 / (11 + eps)) / 2
                + (8 / (10 + eps) + 9 / (10 + eps)) / 2)))) := by
  constructor
  · have hC : conf_fill ad = .ok (conf_count ad.samples) := by
      rw [conf_fill_eq, if_neg (not_lt.2 hn),
        findSome?_conf_check_none ad.nclasses ad.samples hwf]
    exact mf1_eq_of_conf ad _ hC (conf_count_nonneg ad.samples)
  · decide!

theorem mf1_confusion_matrix_witness :
    (0 : Int) ≤ cm_batch.nclasses ∧
    (∀ bad ∈ cm_batch.samples, 0 ≤ bad.target ∧ bad.target < cm_batch.nclasses ∧
      (bad.pred.length : Int) ≤ cm_batch.nclasses) ∧
    ∃ res, mf1 cm_batch = .ok res ∧
      res.acc = fdiv (trace (conf_count cm_batch.samples) cm_batch.nclasses.toNat)
        (total (conf_count cm_batch.samples) cm_batch.nclasses.toNat) :=
  ⟨by decide, by decide!,
    (mf1_confusion_matrix cm_batch (by decide) (by decide!)).1.imp
      (fun _ h => ⟨h.1, h.2.1⟩)⟩

/-! ## The Matthews coefficient: `mcc` -/

theorem sqrt_model_one : sqrt_model 1 = 1 := by
  simp [sqrt_model, Nat.sqrt_one]

theorem mcc_numerator_zero (tp tn fp fn : ℚ) (h1 : 0 ≤ tp) (h2 : 0 ≤ tn) (h3 : 0 ≤ fp)
    (h4 : 0 ≤ fn) (hden : (tp + fp) * (tp + fn) * (tn + fp) * (tn + fn) = 0) :
    tp * tn - fp * fn = 0 := by
  rcases mul_eq_zero.1 hden with h | h
  · rcases mul_eq_zero.1 h with h | h
    · rcases mul_eq_zero.1 h with h | h
      · have ht : tp = 0 := by linarith
        have hf : fp = 0 := by linarith
        rw [ht, hf]; ring
      · have ht : tp = 0 := by linarith
        have hf : fn = 0 := by linarith
        rw [ht, hf]; ring
    · have ht : tn = 0 := by linarith
      have hf : fp = 0 := by linarith
      rw [ht, hf]; ring
  · have ht : tn = 0 := by linarith
    have hf : fn = 0 := by linarith
    rw [ht, hf]; ring

/-- C15. On a batch with two classes, in-range targets and at most two predictions per
sample, whose counts `tp = C(0,0)`, `tn = C(1,1)`, `fn = C(0,1)`, `fp = C(1,0)` make
the product `(tp+fp)(tp+fn)(tn+fp)(tn+fn)` zero, `mcc` returns exactly 0: the
denominator is replaced by 1 and the numerator `tp*tn - fp*fn` is 0 (`sqrt` is
`std::sqrt`, of which only `sqrt(1) = 1` is used). -/
theorem mcc_zero_denominator (sqrt : ℚ → ℚ) (ad : EvalBatch) (hsqrt : sqrt 1 = 1)
    (h2 : ad.nclasses = 2)
    (hwf : ∀ bad ∈ ad.samples,
      0 ≤ bad.target ∧ bad.target < ad.nclasses ∧ (bad.pred.length : Int) ≤ ad.nclasses)
    (hden : (conf_count ad.samples 0 0 + conf_count ad.samples 1 0)
      * (conf_count ad.samples 0 0 + conf_count ad.samples 0 1)
      * (conf_count ad.samples 1 1 + conf_count ad.samples 1 0)
      * (conf_count ad.samples 1 1 + conf_count ad.samples 0 1) = 0) :
    mcc sqrt ad = .ok (some 0) ∧
    conf_count ad.samples 0 0 * conf_count ad.samples 1 1
      - conf_count ad.samples 1 0 * conf_count ad.samples 0 1 = 0 := by
  have hnum := mcc_numerator_zero _ _ _ _ (conf_count_nonneg ad.samples 0 0)
    (conf_count_nonneg ad.samples 1 1) (conf_count_nonneg ad.samples 1 0)
    (conf_count_nonneg ad.samples 0 1) hden
  refine ⟨?_, hnum⟩
  have hC : conf_fill ad = .ok (conf_count ad.samples) := by
    rw [conf_fill_eq, if_neg (by rw [h2]; decide),
      findSome?_conf_check_none ad.nclasses ad.samples hwf]
  unfold mcc
  rw [hC]
  simp only [Except.bind, bind, pure, Except.pure]
  rw [if_neg (by rw [h2]; decide), if_pos hden, hnum, hsqrt]
  simp [fdiv]

theorem mcc_zero_denominator_witness :
    sqrt_model 1 = 1 ∧ one_cell_batch.nclasses = 2 ∧
    (conf_count one_cell_batch.samples 0 0 + conf_count one_cell_batch.samples 1 0)
      * (conf_count one_cell_batch.samples 0 0 + conf_count one_cell_batch.samples 0 1)
      * (conf_count one_cell_batch.samples 1 1 + conf_count one_cell_batch.samples 1 0)
      * (conf_count one_cell_batch.samples 1 1 + conf_count one_cell_batch.samples 0 1) = 0 ∧
    (mcc sqrt_model one_cell_batch = .ok (some 0) ∧
      conf_count one_cell_batch.samples 0 0 * conf_count one_cell_batch.samples 1 1
        - conf_count one_cell_batch.samples 1 0 * conf_count one_cell_batch.samples 0 1 = 0) :=
  ⟨sqrt_model_one, rfl, by decide!,
    mcc_zero_denominator sqrt_model one_cell_batch sqrt_model_one rfl (by decide!)
      (by decide!)⟩

/-! ## Targets out of range -/

theorem mf1_of_conf_error (ad : EvalBatch) (e : Failure) (h : conf_fill ad = .error e) :
    mf1 ad = .error e := by
  unfold mf1
  rw [h]
  rfl

theorem mf1_of_conf_ok (ad : EvalBatch) (C : dMat) (h : conf_fill ad = .ok C) :
    ∃ res, mf1 ad = .ok res := by
  unfold mf1
  rw [h]
  exact ⟨_, rfl⟩

theorem conf_check_eq_some (nclasses : Int) (bad : Sample) (e : Failure)
    (hpred : bad.pred ≠ [] ∧ (bad.pred.length : Int) ≤ nclasses)
    (h : conf_check nclasses bad = some e) :
    e = Failure.bad_param ∧ (bad.target < 0 ∨ (nclasses : ℚ) ≤ bad.target) := by
  unfold conf_check at h
  by_cases h1 : bad.target < 0
  · rw [if_pos h1] at h
    exact ⟨(Option.some.inj h).symm, Or.inl h1⟩
  · rw [if_neg h1] at h
    by_cases h2 : bad.target ≥ nclasses
    · rw [if_pos h2] at h
      exact ⟨(Option.some.inj h).symm, Or.inr h2⟩
    · rw [if_neg h2] at h
      have hm := max_element_lt bad.pred hpred.1
      have : ¬ (nclasses ≤ (max_element bad.pred : Int)) := by omega
      rw [if_neg this] at h
      exact Option.noConfusion h

theorem conf_check_of_bad_target (nclasses : Int) (bad : Sample)
    (h : bad.target < 0 ∨ (nclasses : ℚ) ≤ bad.target) :
    conf_check nclasses bad = some Failure.bad_param := by
  unfold conf_check
  by_cases h1 : bad.target < 0
  · rw [if_pos h1]
  · rw [if_neg h1]
    rcases h with h | h
    · exact absurd h h1
    · rw [if_pos h]

/-- C17. On a batch with a non-negative class count whose prediction vectors are
non-empty with at most `nclasses` entries, `mf1` raises its exception exactly when
the batch contains a target that is negative or at least `nclasses`; it ends in no
other failure, and returns a result when there is no such target. -/
theorem mf1_fails_iff_target_out_of_range (ad : EvalBatch) (hn : 0 ≤ ad.nclasses)
    (hpred : ∀ bad ∈ ad.samples, bad.pred ≠ [] ∧ (bad.pred.length : Int) ≤ ad.nclasses) :
    (mf1 ad = .error Failure.bad_param ↔
      ∃ bad ∈ ad.samples, bad.target < 0 ∨ (ad.nclasses : ℚ) ≤ bad.target) ∧
    (∀ e, mf1 ad = .error e → e = Failure.bad_param) ∧
    ((¬ ∃ bad ∈ ad.samples, bad.target < 0 ∨ (ad.nclasses : ℚ) ≤ bad.target) →
      ∃ res, mf1 ad = .ok res) := by
  have hfill := conf_fill_eq ad
  rw [if_neg (not_lt.2 hn)] at hfill
  cases hfs : ad.samples.findSome? (conf_check ad.nclasses) with
  | some e =>
    rw [hfs] at hfill
    obtain ⟨bad, hb, hc⟩ := List.exists_of_findSome?_eq_some hfs
    obtain ⟨he, hbad⟩ := conf_check_eq_some ad.nclasses bad e (hpred bad hb) hc
    subst he
    have hm := mf1_of_conf_error ad _ hfill
    refine ⟨⟨fun _ => ⟨bad, hb, hbad⟩, fun _ => hm⟩, ?_, ?_⟩
    · intro e he
      rw [hm] at he
      cases he
      rfl
    · intro hno
      exact absurd ⟨bad, hb, hbad⟩ hno
  | none =>
    rw [hfs] at hfill
    obtain ⟨res, hres⟩ := mf1_of_conf_ok ad _ hfill
    have hno : ¬ ∃ bad ∈ ad.samples, bad.target < 0 ∨ (ad.nclasses : ℚ) ≤ bad.target := by
      rintro ⟨bad, hb, hbad⟩
      have := List.findSome?_eq_none_iff.1 hfs bad hb
      rw [conf_check_of_bad_target ad.nclasses bad hbad] at this
      exact Option.noConfusion this
    refine ⟨⟨fun h => ?_, fun h => absurd h hno⟩, ?_, fun _ => ⟨res, hres⟩⟩
    · rw [hres] at h; cases h
    · intro e he
      rw [hres] at he; cases he

theorem mf1_fails_iff_target_out_of_range_witness :
    (0 : Int) ≤ high_target_batch.nclasses ∧
    (∀ bad ∈ high_target_batch.samples,
      bad.pred ≠ [] ∧ (bad.pred.length : Int) ≤ high_target_batch.nclasses) ∧
    mf1 high_target_batch = .error Failure.bad_param ∧
    (mf1 high_target_batch = .error Failure.bad_param ↔
      ∃ bad ∈ high_target_batch.samples,
        bad.target < 0 ∨ (high_target_batch.nclasses : ℚ) ≤ bad.target) :=
  ⟨by decide, by decide, by decide!,
    (mf1_fails_iff_target_out_of_range high_target_batch (by decide) (by decide)).1⟩

theorem foldlM_error_of_mem {σ α : Type} (step : σ → α → Except Failure σ) (x : α)
    (hx : ∀ c, ∃ e, step c x = .error e) :
    ∀ (l : List α), x ∈ l → ∀ c, ∃ e, l.foldlM step c = .error e := by
  intro l
  induction l with
  | nil => intro h; simp at h
  | cons a l ih =>
    intro h c
    rw [List.foldlM_cons]
    cases hs : step c a with
    | error e => exact ⟨e, rfl⟩
    | ok c' =>
      rcases List.mem_cons.1 h with rfl | h
      · obtain ⟨e, he⟩ := hx c
        rw [he] at hs; cases hs
      · exact ih h c'

theorem conf_fill_error_of_bad_target (ad : EvalBatch) (bad : Sample) (hb : bad ∈ ad.samples)
    (h : bad.target < 0 ∨ (ad.nclasses : ℚ) ≤ bad.target) :
    ∃ e, conf_fill ad = .error e := by
  rw [conf_fill_eq]
  by_cases hn : ad.nclasses < 0
  · exact ⟨_, by rw [if_pos hn]⟩
  · rw [if_neg hn]
    cases hfs : ad.samples.findSome? (conf_check ad.nclasses) with
    | some e => exact ⟨e, rfl⟩
    | none =>
      have := List.findSome?_eq_none_iff.1 hfs bad hb
      rw [conf_check_of_bad_target ad.nclasses bad h] at this
      exact Option.noConfusion this

theorem mcc_of_conf_error (sqrt : ℚ → ℚ) (ad : EvalBatch) (e : Failure)
    (h : conf_fill ad = .error e) : mcc sqrt ad = .error e := by
  unfold mcc
  rw [h]
  rfl

theorem to_int_ge_of_le (n : Nat) (t : ℚ) (h : (n : ℚ) ≤ t) : n ≤ (to_int t).toNat := by
  have h0 : (0 : ℚ) ≤ t := le_trans (Nat.cast_nonneg n) h
  unfold to_int
  rw [if_pos h0]
  have : (n : Int) ≤ Rat.floor t := Rat.le_floor.2 (by exact_mod_cast h)
  omega

theorem mcll_step_error (log : ℚ → ℚ) (bad : Sample)
    (h : bad.target ≤ -1 ∨ (bad.pred.length : ℚ) ≤ bad.target) :
    ∀ ll, ∃ e, mcll_step log ll bad = .error e := by
  intro ll
  unfold mcll_step
  by_cases h1 : bad.target ≤ -1
  · exact ⟨_, by rw [if_pos h1]; rfl⟩
  · rw [if_neg h1]
    rcases h with h | h
    · exact absurd h h1
    · have := to_int_ge_of_le bad.pred.length bad.target h
      rw [List.getElem?_eq_none this]
      exact ⟨_, rfl⟩

theorem mcll_of_foldlM_error (log : ℚ → ℚ) (ad : EvalBatch) (e : Failure)
    (h : ad.samples.foldlM (mcll_step log) (some 0) = .error e) : mcll log ad = .error e := by
  unfold mcll
  rw [h]
  rfl

theorem acc_hit_eq (psort : List ℚ → Nat → List Nat → List Nat) (k : Int) (hk : 1 ≤ k)
    (bad : Sample) : acc_hit psort k bad = .ok (acc_counted psort k bad) := by
  unfold acc_hit acc_counted
  by_cases h : k - 1 ≥ (bad.pred.length : Int)
  · rw [if_pos h]
    have : ¬ k ≤ (bad.pred.length : Int) := by omega
    simp [this, pure, Except.pure]
  · rw [if_neg h, if_neg (by omega)]
    have : k ≤ (bad.pred.length : Int) := by omega
    simp [this, pure, Except.pure]

theorem acc_foldlM_eq (psort : List ℚ → Nat → List Nat → List Nat) (k : Int) (hk : 1 ≤ k) :
    ∀ (l : List Sample) (c : ℚ),
      l.foldlM (fun (acc : ℚ) bad => do
        let hit ← acc_hit psort k bad
        pure (if hit then acc + 1 else acc)) c
      = .ok (c + (l.countP (acc_counted psort k) : Nat)) := by
  intro l
  induction l with
  | nil => intro c; simp [pure, Except.pure]
  | cons bad l ih =>
    intro c
    rw [List.foldlM_cons, acc_hit_eq psort k hk bad]
    simp only [bind, Except.bind, pure, Except.pure] at ih ⊢
    rw [ih, List.countP_cons]
    cases acc_counted psort k bad
    · simp
    · simp; ring

theorem acc_of_k_eq (psort : List ℚ → Nat → List Nat → List Nat) (ad : EvalBatch) (k : Int)
    (hk : 1 ≤ k) :
    acc_of_k psort ad k
      = .ok (fdiv ((ad.samples.countP (acc_counted psort k) : Nat) : ℚ) ad.batch_size) := by
  unfold acc_of_k
  rw [acc_foldlM_eq psort k hk]
  simp [bind, Except.bind, pure, Except.pure]

/-- C18, counterexample. `acc` reads no class count and compares the target with
predicted positions only: on a batch with two classes and the target 5 it returns
the accuracy 0. -/
theorem acc_accepts_out_of_range_target :
    (∃ bad ∈ stray_target_batch.samples, (stray_target_batch.nclasses : ℚ) ≤ bad.target) ∧
    acc psort_model stray_target_batch [1] = .ok [("acc", some 0)] := by
  decide!

/-- C18, amended. `mf1` and `mcc` fail on every batch that contains a target that is
negative or at least the class count, and `mcll` fails on every batch that contains
a target that is at most -1 or at least the length of the prediction vector of
its sample; `acc` fails on no batch, for a `k` of at least 1, whatever the targets
(`sqrt`, `log` and `psort` are `std::sqrt`, `std::log` and `std::partial_sort`). -/
theorem out_of_range_target_fails (sqrt log : ℚ → ℚ)
    (psort : List ℚ → Nat → List Nat → List Nat) (ad : EvalBatch) (bad : Sample)
    (hb : bad ∈ ad.samples) :
    ((bad.target < 0 ∨ (ad.nclasses : ℚ) ≤ bad.target) →
      (∃ e, mf1 ad = .error e) ∧ (∃ e, mcc sqrt ad = .error e)) ∧
    ((bad.target ≤ -1 ∨ (bad.pred.length : ℚ) ≤ bad.target) →
      ∃ e, mcll log ad = .error e) ∧
    (∀ k : Int, 1 ≤ k → ∃ res, acc psort ad [k] = .ok res) := by
  refine ⟨?_, ?_, ?_⟩
  · intro h
    obtain ⟨e, he⟩ := conf_fill_error_of_bad_target ad bad hb h
    exact ⟨⟨e, mf1_of_conf_error ad e he⟩, ⟨e, mcc_of_conf_error sqrt ad e he⟩⟩
  · intro h
    obtain ⟨e, he⟩ := foldlM_error_of_mem (mcll_step log) bad (mcll_step_error log bad h)
      ad.samples hb (some 0)
    exact ⟨e, mcll_of_foldlM_error log ad e he⟩
  · intro k hk
    refine ⟨[(acc_key k,
      fdiv ((ad.samples.countP (acc_counted psort k) : Nat) : ℚ) ad.batch_size)], ?_⟩
    unfold acc
    rw [List.foldlM_cons, acc_of_k_eq psort ad k hk]
    rfl

theorem out_of_range_target_fails_witness :
    (⟨[2, 8], 2⟩ : Sample) ∈ high_target_batch.samples ∧
    (((2 : ℚ) < 0 ∨ (high_target_batch.nclasses : ℚ) ≤ 2) →
      (∃ e, mf1 high_target_batch = .error e) ∧
        (∃ e, mcc sqrt_model high_target_batch = .error e)) ∧
    (((2 : ℚ) ≤ -1 ∨ ((([2, 8] : List ℚ).length : ℕ) : ℚ) ≤ 2) →
      ∃ e, mcll log_model high_target_batch = .error e) ∧
    (∀ k : Int, 1 ≤ k → ∃ res, acc psort_model high_target_batch [k] = .ok res) :=
  ⟨by decide, out_of_range_target_fails sqrt_model log_model psort_model high_target_batch
    ⟨[2, 8], 2⟩ (by decide)⟩

/-! ## Log loss: `mcll` -/

theorem mcll_foldlM_sure (log : ℚ → ℚ) (hlog : log 1 = 0) :
    ∀ (l : List Sample),
      (∀ bad ∈ l, 0 ≤ bad.target ∧ bad.pred[(to_int bad.target).toNat]? = some 1) →
      l.foldlM (mcll_step log) (some 0) = .ok (some 0) := by
  intro l
  induction l with
  | nil => intro _; rfl
  | cons bad l ih =>
    intro h
    obtain ⟨h0, h1⟩ := h bad (List.mem_cons_self _ _)
    have hstep : mcll_step log (some 0) bad = .ok (some 0) := by
      unfold mcll_step
      rw [if_neg (by linarith), h1]
      simp [hlog, pure, Except.pure]
    rw [List.foldlM_cons, hstep]
    exact ih (fun b hb => h b (List.mem_cons_of_mem _ hb))

/-- C19, counterexample. On the batch without samples, where no prediction vector
gives its target class less than 1, `mcll` divides 0 by the batch size 0 and its
result is not a number. -/
theorem mcll_empty_batch_not_zero :
    empty_batch.samples = [] ∧ mcll log_model empty_batch = .ok none ∧
    mcll log_model empty_batch ≠ .ok (some 0) := by
  decide!

/-- C19, amended. For every batch with at least one sample in which every prediction
vector holds 1 at the position of the target of its sample, `mcll` returns 0
(`log` is `std::log`, which is 0 at 1). -/
theorem mcll_perfect_predictions (log : ℚ → ℚ) (ad : EvalBatch) (hlog : log 1 = 0)
    (hne : ad.samples ≠ [])
    (h : ∀ bad ∈ ad.samples,
      0 ≤ bad.target ∧ bad.pred[(to_int bad.target).toNat]? = some 1) :
    mcll log ad = .ok (some 0) := by
  unfold mcll
  rw [mcll_foldlM_sure log hlog ad.samples h]
  have hb : (ad.batch_size : ℚ) ≠ 0 := by
    unfold EvalBatch.batch_size
    have : ad.samples.length ≠ 0 := fun h0 => hne (List.length_eq_zero.1 h0)
    exact_mod_cast this
  simp [fdiv, hb, bind, Except.bind, pure, Except.pure]

theorem mcll_perfect_predictions_witness :
    log_model 1 = 0 ∧ sure_batch.samples ≠ [] ∧
    (∀ bad ∈ sure_batch.samples,
      0 ≤ bad.target ∧ bad.pred[(to_int bad.target).toNat]? = some 1) ∧
    mcll log_model sure_batch = .ok (some 0) :=
  ⟨by decide!, by decide, by decide!, mcll_perfect_predictions log_model sure_batch (by decide!)
    (by decide) (by decide!)⟩

/-! ## Ranked accuracy: `acc` -/

theorem psort_model_sorted (v : List ℚ) (m : Nat) (l : List Nat) :
    PartialSorted v m l (psort_model v m l) := by
  have hperm : (psort_model v m l).Perm l := by
    unfold psort_model
    refine ((ranked_perm _).map Prod.snd).trans ?_
    rw [List.map_map]
    simp [Function.comp_def]
  have hpw : (psort_model v m l).Pairwise (fun a b => v.getD b 0 ≤ v.getD a 0) := by
    unfold psort_model
    rw [List.pairwise_map]
    refine List.Pairwise.imp_of_mem ?_ (ranked_desc _)
    intro a b ha hb hab
    have key : ∀ e ∈ ranked (l.map (fun i => (v.getD i 0, i))), v.getD e.2 0 = e.1 := by
      intro e he
      obtain ⟨i, _, rfl⟩ := List.mem_map.1 ((ranked_perm _).mem_iff.1 he)
      rfl
    rw [key a ha, key b hb]
    exact hab
  refine ⟨hperm, hpw.sublist (List.take_sublist _ _), ?_⟩
  intro a ha b hb
  have h := hpw
  rw [← List.take_append_drop m (psort_model v m l), List.pairwise_append] at h
  exact h.2.2 a ha b hb

theorem acc_counted_index (psort : List ℚ → Nat → List Nat → List Nat) (k : Int) (bad : Sample)
    (hps : ∀ v m l, PartialSorted v m l (psort v m l))
    (h : acc_counted psort k bad = true) :
    k ≤ bad.pred.length ∧ ∃ t : Nat, t < bad.pred.length ∧ (t : ℚ) = bad.target := by
  unfold acc_counted at h
  rw [Bool.and_eq_true, decide_eq_true_eq, List.any_eq_true] at h
  obtain ⟨hk, i, hi, hit⟩ := h
  refine ⟨hk, i, ?_, of_decide_eq_true hit⟩
  have hmem := (hps bad.pred (k - 1).toNat (List.range bad.pred.length)).1.mem_iff.1
    (List.mem_of_mem_take hi)
  exact List.mem_range.1 hmem

theorem acc_counted_of_top (psort : List ℚ → Nat → List Nat → List Nat) (k : Int) (bad : Sample)
    (hps : ∀ v m l, PartialSorted v m l (psort v m l)) (t : Nat)
    (ht : (t : ℚ) = bad.target) (hlt : t < bad.pred.length) (hk : k ≤ bad.pred.length)
    (htop : ((List.range bad.pred.length).filter
      (fun j => decide (j ≠ t ∧ bad.pred.getD t 0 ≤ bad.pred.getD j 0))).length
        < (k - 1).toNat) :
    acc_counted psort k bad = true := by
  obtain ⟨hperm, _, hdom⟩ := hps bad.pred (k - 1).toNat (List.range bad.pred.length)
  generalize hl : psort bad.pred (k - 1).toNat (List.range bad.pred.length) = l' at hperm hdom
  have hmem : t ∈ l'.take (k - 1).toNat := by
    by_contra hnot
    have htl : t ∈ l' := hperm.mem_iff.2 (List.mem_range.2 hlt)
    have htd : t ∈ l'.drop (k - 1).toNat := by
      rw [← List.take_append_drop (k - 1).toNat l', List.mem_append] at htl
      exact htl.resolve_left hnot
    have hnd : (l'.take (k - 1).toNat).Nodup :=
      ((hperm.nodup_iff).2 (List.nodup_range _)).sublist (List.take_sublist _ _)
    have hsub : l'.take (k - 1).toNat ⊆ (List.range bad.pred.length).filter
        (fun j => decide (j ≠ t ∧ bad.pred.getD t 0 ≤ bad.pred.getD j 0)) := by
      intro a ha
      rw [List.mem_filter, decide_eq_true_eq]
      refine ⟨hperm.mem_iff.1 (List.mem_of_mem_take ha), ?_, hdom a ha t htd⟩
      rintro rfl
      exact hnot ha
    have hle := (List.subperm_of_subset hnd hsub).length_le
    have hlen : l'.length = bad.pred.length := by rw [hperm.length_eq, List.length_range]
    rw [List.length_take, hlen] at hle
    omega
  unfold acc_counted
  rw [hl, Bool.and_eq_true, decide_eq_true_eq, List.any_eq_true]
  refine ⟨hk, t, ?_, decide_eq_true ht⟩
  exact List.take_subset_take_left l' (by omega) hmem

/-- C20, counterexample. With one prediction, target index 0 and `k = 1`, `acc` counts
the sample and returns 1 where the fraction over the top-0 indices is 0; with the target
on the lower scored of two indices and `k = 2` it returns 1 under `acc-2` where the
fraction over the top-1 indices is 0. -/
theorem acc_not_top_k_minus_one :
    acc psort_model one_score_batch [1] = .ok [("acc", some 1)] ∧
    top_fraction one_score_batch 1 = some 0 ∧
    acc psort_model second_best_batch [2] = .ok [("acc-2", some 1)] ∧
    top_fraction second_best_batch 2 = some 0 := by
  decide!

/-- C20, amended. For each requested `k` of at least 1, `acc` returns under the key
`acc` / `acc-k` the number of samples it counts divided by the batch size, where a
sample is counted when it has at least `k` predictions and its target is one of the
first `k` entries of the index vector partially sorted at `k - 1`: a counted sample has
at least `k` predictions and a target that is an index of its prediction vector, and
a sample with at least `k` predictions is counted whenever fewer than `k - 1` other
indices score at least as high as its target index (`psort` is `std::partial_sort`). -/
theorem acc_counts_first_k (psort : List ℚ → Nat → List Nat → List Nat) (ad : EvalBatch)
    (k : Int) (hk : 1 ≤ k) (hps : ∀ v m l, PartialSorted v m l (psort v m l)) :
    acc psort ad [k]
      = .ok [(acc_key k,
          fdiv ((ad.samples.countP (acc_counted psort k) : Nat) : ℚ) ad.batch_size)] ∧
    ∀ bad ∈ ad.samples,
      (acc_counted psort k bad = true →
        k ≤ bad.pred.length ∧ ∃ t : Nat, t < bad.pred.length ∧ (t : ℚ) = bad.target) ∧
      (∀ t : Nat, (t : ℚ) = bad.target → t < bad.pred.length → k ≤ bad.pred.length →
        ((List.range bad.pred.length).filter
          (fun j => decide (j ≠ t ∧ bad.pred.getD t 0 ≤ bad.pred.getD j 0))).length
            < (k - 1).toNat →
        acc_counted psort k bad = true) := by
  constructor
  · unfold acc
    rw [List.foldlM_cons, acc_of_k_eq psort ad k hk]
    rfl
  · intro bad _
    exact ⟨acc_counted_index psort k bad hps,
      fun t ht hlt hkn htop => acc_counted_of_top psort k bad hps t ht hlt hkn htop⟩

theorem acc_counts_first_k_witness :
    (1 : Int) ≤ 2 ∧ (∀ v m l, PartialSorted v m l (psort_model v m l)) ∧
    (acc psort_model ranked_batch [2]
      = .ok [(acc_key 2,
          fdiv ((ranked_batch.samples.countP (acc_counted psort_model 2) : Nat) : ℚ)
            ranked_batch.batch_size)] ∧
    ∀ bad ∈ ranked_batch.samples,
      (acc_counted psort_model 2 bad = true →
        (2 : Int) ≤ bad.pred.length ∧
          ∃ t : Nat, t < bad.pred.length ∧ (t : ℚ) = bad.target) ∧
      (∀ t : Nat, (t : ℚ) = bad.target → t < bad.pred.length →
        (2 : Int) ≤ bad.pred.length →
        ((List.range bad.pred.length).filter
          (fun j => decide (j ≠ t ∧ bad.pred.getD t 0 ≤ bad.pred.getD j 0))).length
            < ((2 : Int) - 1).toNat →
        acc_counted psort_model 2 bad = true)) ∧
    acc psort_model ranked_batch [2] = .ok [("acc-2", some (3/4))] :=
  ⟨by decide, psort_model_sorted,
    acc_counts_first_k psort_model ranked_batch 2 (by decide) psort_model_sorted,
    by decide!⟩

/-! ## Serialization: `to_ad` -/

theorem to_ad_ranks_cons (regression autoencoder has_bbox has_roi : Bool) (m : ℚ × String)
    (mit : List (ℚ × String)) (bit : List (ℚ × BBox)) (vit : List (ℚ × Vals))
    (v : List APIData)
    (h : to_ad_ranks regression autoencoder has_bbox has_roi (m :: mit) bit vit = some v) :
    ∃ nad v' bit' vit', v = nad :: v' ∧
      to_ad_ranks regression autoencoder has_bbox has_roi mit bit' vit' = some v' ∧
      RankEntry regression autoencoder mit.isEmpty m nad := by
  unfold to_ad_ranks at h
  cases regression <;> cases autoencoder <;> cases has_bbox <;> cases has_roi <;>
    cases bit <;> cases vit <;> cases mit <;>
    simp [ad_add, List.isEmpty] at h <;>
    (split at h
     · exact absurd h (by simp)
     · cases h
       exact ⟨_, _, _, _, rfl, by assumption, by simp [RankEntry, List.lookup]⟩)

theorem to_ad_ranks_spec (regression autoencoder has_bbox has_roi : Bool) :
    ∀ (cats : List (ℚ × String)) (bit : List (ℚ × BBox)) (vit : List (ℚ × Vals))
      (v : List APIData),
      to_ad_ranks regression autoencoder has_bbox has_roi cats bit vit = some v →
      v.length = cats.length ∧
      ∀ (j : Nat) (m : ℚ × String) (nad : APIData), cats[j]? = some m → v[j]? = some nad →
        RankEntry regression autoencoder (decide (j + 1 = cats.length)) m nad := by
  intro cats
  induction cats with
  | nil =>
    intro bit vit v h
    simp only [to_ad_ranks, Option.some.injEq] at h
    subst h
    exact ⟨rfl, fun j m nad hm => by simp at hm⟩
  | cons m mit ih =>
    intro bit vit v h
    obtain ⟨nad, v', bit', vit', rfl, hrec, hnad⟩ :=
      to_ad_ranks_cons regression autoencoder has_bbox has_roi m mit bit vit v h
    obtain ⟨hlen, hent⟩ := ih bit' vit' v' hrec
    refine ⟨by simp [hlen], ?_⟩
    intro j m' nad' hm hn
    cases j with
    | zero =>
      simp only [List.getElem?_cons_zero, Option.some.injEq] at hm hn
      subst hm; subst hn
      have : decide (0 + 1 = (m :: mit).length) = mit.isEmpty := by
        cases mit <;> simp
      rw [this]; exact hnad
    | succ j =>
      simp only [List.getElem?_cons_succ] at hm hn
      have := hent j m' nad' hm hn
      have e : decide (j + 1 + 1 = (m :: mit).length) = decide (j + 1 = mit.length) := by
        simp
      rw [e]; exact this

theorem to_ad_ranks_total (regression autoencoder has_bbox has_roi : Bool) :
    ∀ (cats : List (ℚ × String)) (bit : List (ℚ × BBox)) (vit : List (ℚ × Vals)),
      ((has_bbox || has_roi) = true → cats.length ≤ bit.length) →
      (has_roi = true → cats.length ≤ vit.length) →
      (to_ad_ranks regression autoencoder has_bbox has_roi cats bit vit).isSome = true := by
  intro cats
  induction cats with
  | nil => intro bit vit _ _; simp [to_ad_ranks]
  | cons m mit ih =>
    intro bit vit hb hv
    cases has_bbox <;> cases has_roi
    · obtain ⟨v', hv'⟩ := Option.isSome_iff_exists.1 (ih bit vit (by simp) (by simp))
      simp [to_ad_ranks, hv']
    · cases bit with
      | nil => simp at hb
      | cons b bit =>
        cases vit with
        | nil => simp at hv
        | cons x vit =>
          obtain ⟨v', hv'⟩ := Option.isSome_iff_exists.1
            (ih bit vit (fun _ => by simpa using hb) (fun _ => by simpa using hv))
          simp [to_ad_ranks, hv']
    · cases bit with
      | nil => simp at hb
      | cons b bit =>
        obtain ⟨v', hv'⟩ := Option.isSome_iff_exists.1
          (ih bit vit (fun _ => by simpa using hb) (by simp))
        simp [to_ad_ranks, hv']
    · cases bit with
      | nil => simp at hb
      | cons b bit =>
        cases vit with
        | nil => simp at hv
        | cons x vit =>
          obtain ⟨v', hv'⟩ := Option.isSome_iff_exists.1
            (ih bit vit (fun _ => by simpa using hb) (fun _ => by simpa using hv))
          simp [to_ad_ranks, hv']

theorem to_ad_record_spec (regression autoencoder has_bbox has_roi : Bool) (r : sup_result)
    (adpred : PredData)
    (h : to_ad_record regression autoencoder has_bbox has_roi r = some adpred) :
    ∃ v, to_ad_ranks regression autoencoder has_bbox has_roi r._cats.1 r._bboxes.1 r._vals.1
        = some v ∧
      adpred.lookup "uri" = some (pred_value.str r._label) ∧
      adpred.lookup (group_key regression autoencoder has_roi) = some (pred_value.objs v) ∧
      ["classes", "vector", "losses", "rois"].filter (fun k => (adpred.lookup k).isSome)
        = [group_key regression autoencoder has_roi] := by
  unfold to_ad_record at h
  split at h
  · exact absurd h (by simp)
  · rename_i v hv
    refine ⟨v, hv, ?_⟩
    simp only [Option.some.injEq] at h
    subst h
    by_cases hl : r._loss > 0 <;>
      cases regression <;> cases autoencoder <;> cases has_roi <;>
      simp [hl, ad_add, group_key, List.lookup, List.filter]

theorem to_ad_record_total (regression autoencoder has_bbox has_roi : Bool) (r : sup_result)
    (h : Serializable has_bbox has_roi r) :
    (to_ad_record regression autoencoder has_bbox has_roi r).isSome = true := by
  obtain ⟨v, hv⟩ := Option.isSome_iff_exists.1
    (to_ad_ranks_total regression autoencoder has_bbox has_roi r._cats.1 r._bboxes.1 r._vals.1
      h.1 h.2)
  unfold to_ad_record
  rw [hv]
  rfl

theorem foldlM_snoc_some {α β : Type} (f : α → Option β) :
    ∀ (l : List α) (init out : List β),
      l.foldlM (fun vpred r => (f r).map (fun a => vpred ++ [a])) init = some out ↔
        ∃ os, List.Forall₂ (fun r o => f r = some o) l os ∧ out = init ++ os := by
  intro l
  induction l with
  | nil =>
    intro init out
    simp only [List.foldlM_nil, pure, Option.some.injEq]
    constructor
    · intro h; exact ⟨[], List.Forall₂.nil, by simp [h]⟩
    · rintro ⟨os, hos, rfl⟩
      cases hos
      simp
  | cons r l ih =>
    intro init out
    rw [List.foldlM_cons]
    cases hf : f r with
    | none =>
      simp only [Option.map_none', Option.bind_eq_bind, Option.none_bind]
      constructor
      · intro h; exact absurd h (by simp)
      · rintro ⟨os, hos, _⟩
        cases hos with
        | cons h1 _ => rw [hf] at h1; exact absurd h1 (by simp)
    | some a =>
      simp only [Option.map_some', Option.bind_eq_bind, Option.some_bind]
      rw [ih]
      constructor
      · rintro ⟨os, hos, rfl⟩
        exact ⟨a :: os, List.Forall₂.cons hf hos, by simp⟩
      · rintro ⟨os, hos, rfl⟩
        cases hos with
        | cons h1 h2 =>
          rw [hf] at h1
          simp only [Option.some.injEq] at h1
          subst h1
          exact ⟨_, h2, by simp⟩

theorem to_ad_eq_some (s : SupervisedOutput) (regression autoencoder has_bbox has_roi : Bool)
    (out : List PredData) :
    to_ad s regression autoencoder has_bbox has_roi = some out ↔
      List.Forall₂ (fun r adpred =>
        to_ad_record regression autoencoder has_bbox has_roi r = some adpred) s._vvcats out := by
  unfold to_ad
  rw [foldlM_snoc_some]
  constructor
  · rintro ⟨os, hos, rfl⟩
    simpa using hos
  · intro h
    exact ⟨out, h, by simp⟩

theorem forall₂_of_total {α β : Type} (f : α → Option β) :
    ∀ (l : List α), (∀ r ∈ l, (f r).isSome = true) →
      ∃ os, List.Forall₂ (fun r o => f r = some o) l os := by
  intro l
  induction l with
  | nil => intro _; exact ⟨[], List.Forall₂.nil⟩
  | cons r l ih =>
    intro h
    obtain ⟨o, ho⟩ := Option.isSome_iff_exists.1 (h r (List.mem_cons_self _ _))
    obtain ⟨os, hos⟩ := ih (fun x hx => h x (List.mem_cons_of_mem _ hx))
    exact ⟨o :: os, List.Forall₂.cons ho hos⟩

theorem to_ad_total (s : SupervisedOutput) (regression autoencoder has_bbox has_roi : Bool)
    (h : ∀ r ∈ s._vvcats, Serializable has_bbox has_roi r) :
    ∃ out, to_ad s regression autoencoder has_bbox has_roi = some out := by
  obtain ⟨os, hos⟩ := forall₂_of_total
    (to_ad_record regression autoencoder has_bbox has_roi) s._vvcats
    (fun r hr => to_ad_record_total regression autoencoder has_bbox has_roi r (h r hr))
  exact ⟨os, (to_ad_eq_some s regression autoencoder has_bbox has_roi os).2 hos⟩

theorem forall₂_mem_right {α β : Type} {R : α → β → Prop} :
    ∀ {l : List α} {os : List β}, List.Forall₂ R l os → ∀ o ∈ os, ∃ r ∈ l, R r o := by
  intro l os h
  induction h with
  | nil => intro o ho; simp at ho
  | cons hab _ ih =>
    intro o ho
    rcases List.mem_cons.1 ho with rfl | ho
    · exact ⟨_, List.mem_cons_self _ _, hab⟩
    · obtain ⟨r, hr, h⟩ := ih o ho
      exact ⟨r, List.mem_cons_of_mem _ hr, h⟩

theorem to_ad_ranks_mem (regression autoencoder has_bbox has_roi : Bool)
    (cats : List (ℚ × String)) (bit : List (ℚ × BBox)) (vit : List (ℚ × Vals))
    (v : List APIData)
    (h : to_ad_ranks regression autoencoder has_bbox has_roi cats bit vit = some v)
    (nad : APIData) (hn : nad ∈ v) :
    ∃ (j : Nat) (m : ℚ × String), cats[j]? = some m ∧ v[j]? = some nad ∧
      RankEntry regression autoencoder (decide (j + 1 = cats.length)) m nad := by
  obtain ⟨hlen, hent⟩ := to_ad_ranks_spec regression autoencoder has_bbox has_roi cats bit vit v h
  obtain ⟨j, hj⟩ := List.mem_iff_getElem?.1 hn
  have hjl : j < cats.length := by
    rw [← hlen]
    by_contra hc
    rw [List.getElem?_eq_none (by omega)] at hj
    exact absurd hj (by simp)
  exact ⟨j, cats[j], List.getElem?_eq_getElem hjl, hj,
    hent j cats[j] nad (List.getElem?_eq_getElem hjl) hj⟩

/-- C23, counterexample. For a regression task that is not an autoencoder, `to_ad`
writes the label of each category under `cat` beside the score under `val`. -/
theorem to_ad_regression_writes_cat :
    to_ad sample_out true false false false = some [
      [("uri", pred_value.str "a"),
       ("vector", pred_value.objs [
          [("cat", ad_value.str "cat0"), ("val", ad_value.num 9)],
          [("cat", ad_value.str "cat1"), ("val", ad_value.num 1),
           ("last", ad_value.flag true)]])],
      [("uri", pred_value.str "b"),
       ("vector", pred_value.objs [
          [("cat", ad_value.str "cat1"), ("val", ad_value.num 7)],
          [("cat", ad_value.str "cat0"), ("val", ad_value.num 3),
           ("last", ad_value.flag true)]])]] := by
  decide

/-- C23, amended. For every set and all flags, every per-rank entry emitted by `to_ad`
has the field `cat` exactly when `autoencoder` is false, whatever `regression` is; with
`regression` it holds the score under `val`.  `to_ad` emits its entries for every set
whose records have the boxes and regions it reads. -/
theorem to_ad_cat_field (s : SupervisedOutput) (regression autoencoder has_bbox has_roi : Bool) :
    ((∀ r ∈ s._vvcats, Serializable has_bbox has_roi r) →
      ∃ out, to_ad s regression autoencoder has_bbox has_roi = some out) ∧
    ∀ out, to_ad s regression autoencoder has_bbox has_roi = some out →
      ∀ adpred ∈ out, ∃ v,
        adpred.lookup (group_key regression autoencoder has_roi) = some (pred_value.objs v) ∧
        ∀ nad ∈ v, (nad.lookup "cat").isSome = !autoencoder ∧
          (regression = true → (nad.lookup "val").isSome = true) := by
  refine ⟨to_ad_total s regression autoencoder has_bbox has_roi, ?_⟩
  intro out h adpred ha
  obtain ⟨r, _, hr⟩ := forall₂_mem_right
    ((to_ad_eq_some s regression autoencoder has_bbox has_roi out).1 h) adpred ha
  obtain ⟨v, hv, _, hg, _⟩ :=
    to_ad_record_spec regression autoencoder has_bbox has_roi r adpred hr
  refine ⟨v, hg, ?_⟩
  intro nad hn
  obtain ⟨j, m, _, _, hcat, hval, _⟩ :=
    to_ad_ranks_mem regression autoencoder has_bbox has_roi _ _ _ v hv nad hn
  constructor
  · rw [hcat]; cases autoencoder <;> rfl
  · intro hreg; rw [hval, hreg]; rfl

theorem to_ad_cat_field_witness :
    (∃ out, to_ad sample_out true false false false = some out) ∧
    ∀ out, to_ad sample_out true false false false = some out →
      ∀ adpred ∈ out, ∃ v,
        adpred.lookup (group_key true false false) = some (pred_value.objs v) ∧
        ∀ nad ∈ v, (nad.lookup "cat").isSome = !false ∧
          (true = true → (nad.lookup "val").isSome = true) :=
  ⟨(to_ad_cat_field sample_out true false false false).1
      (fun _ _ => ⟨fun h => by simp at h, fun h => by simp at h⟩),
    (to_ad_cat_field sample_out true false false false).2⟩

/-- C24. For every set and every combination of the flags, each per-record entry
emitted by `to_ad` holds exactly one of the keys `classes`, `vector`, `losses` and
`rois`: `vector` if `regression`, else `losses` if `autoencoder`, else `rois` if
`has_roi`, else `classes`.  `to_ad` emits its entries for every set whose records
have the boxes and regions it reads. -/
theorem to_ad_one_grouping_key (s : SupervisedOutput)
    (regression autoencoder has_bbox has_roi : Bool) :
    ((∀ r ∈ s._vvcats, Serializable has_bbox has_roi r) →
      ∃ out, to_ad s regression autoencoder has_bbox has_roi = some out) ∧
    ∀ out, to_ad s regression autoencoder has_bbox has_roi = some out →
      ∀ adpred ∈ out,
        ["classes", "vector", "losses", "rois"].filter (fun k => (adpred.lookup k).isSome)
          = [if regression then "vector" else if autoencoder then "losses"
              else if has_roi then "rois" else "classes"] := by
  refine ⟨to_ad_total s regression autoencoder has_bbox has_roi, ?_⟩
  intro out h adpred ha
  obtain ⟨r, _, hr⟩ := forall₂_mem_right
    ((to_ad_eq_some s regression autoencoder has_bbox has_roi out).1 h) adpred ha
  obtain ⟨v, _, _, _, hk⟩ :=
    to_ad_record_spec regression autoencoder has_bbox has_roi r adpred hr
  exact hk

theorem to_ad_one_grouping_key_witness :
    (∃ out, to_ad roi_set false false true true = some out) ∧
    ∀ out, to_ad roi_set false false true true = some out →
      ∀ adpred ∈ out,
        ["classes", "vector", "losses", "rois"].filter (fun k => (adpred.lookup k).isSome)
          = [if false then "vector" else if false then "losses"
              else if true then "rois" else "classes"] :=
  ⟨(to_ad_one_grouping_key roi_set false false true true).1
      (fun r hr => by
        simp only [roi_set, List.mem_singleton] at hr
        subst hr
        exact ⟨fun _ => by decide, fun _ => by decide⟩),
    (to_ad_one_grouping_key roi_set false false true true).2⟩

/-- C25. `to_ad` emits one entry per record, in the order of the records: the entry at
a position holds the label of the record at that position under `uri`, and its
per-rank list has one entry per category of the record in the iteration order of the
categories, scores not increasing; the entry of a category holds its score, and the
marker `last` is on the entry of the final category and on no other.  `to_ad`
emits its entries for every set whose records have the boxes and regions it
reads. -/
theorem to_ad_entries_in_order (s : SupervisedOutput)
    (regression autoencoder has_bbox has_roi : Bool) :
    ((∀ r ∈ s._vvcats, Serializable has_bbox has_roi r) →
      ∃ out, to_ad s regression autoencoder has_bbox has_roi = some out) ∧
    ∀ out, to_ad s regression autoencoder has_bbox has_roi = some out →
      out.length = s._vvcats.length ∧
      ∀ (i : Nat) (r : sup_result) (adpred : PredData),
        s._vvcats[i]? = some r → out[i]? = some adpred →
        adpred.lookup "uri" = some (pred_value.str r._label) ∧
        Desc r._cats.1 ∧
        ∃ v, adpred.lookup (group_key regression autoencoder has_roi)
            = some (pred_value.objs v) ∧
          v.length = r._cats.size ∧
          ∀ (j : Nat) (m : ℚ × String) (nad : APIData),
            r._cats.1[j]? = some m → v[j]? = some nad →
            RankEntry regression autoencoder (decide (j + 1 = r._cats.size)) m nad := by
  refine ⟨to_ad_total s regression autoencoder has_bbox has_roi, ?_⟩
  intro out h
  have hall := (to_ad_eq_some s regression autoencoder has_bbox has_roi out).1 h
  refine ⟨hall.length_eq.symm, ?_⟩
  intro i r adpred hi ho
  obtain ⟨o, ho', hr⟩ := forall₂_getElem? hall i r hi
  rw [ho] at ho'
  simp only [Option.some.injEq] at ho'
  subst ho'
  obtain ⟨v, hv, huri, hg, _⟩ :=
    to_ad_record_spec regression autoencoder has_bbox has_roi r adpred hr
  obtain ⟨hlen, hent⟩ :=
    to_ad_ranks_spec regression autoencoder has_bbox has_roi _ _ _ v hv
  exact ⟨huri, r._cats.2, v, hg, hlen, hent⟩

theorem to_ad_entries_in_order_witness :
    (∃ out, to_ad sample_boxed_out false false true false = some out) ∧
    ∀ out, to_ad sample_boxed_out false false true false = some out →
      out.length = sample_boxed_out._vvcats.length ∧
      ∀ (i : Nat) (r : sup_result) (adpred : PredData),
        sample_boxed_out._vvcats[i]? = some r → out[i]? = some adpred →
        adpred.lookup "uri" = some (pred_value.str r._label) ∧
        Desc r._cats.1 ∧
        ∃ v, adpred.lookup (group_key false false false) = some (pred_value.objs v) ∧
          v.length = r._cats.size ∧
          ∀ (j : Nat) (m : ℚ × String) (nad : APIData),
            r._cats.1[j]? = some m → v[j]? = some nad →
            RankEntry false false (decide (j + 1 = r._cats.size)) m nad :=
  ⟨(to_ad_entries_in_order sample_boxed_out false false true false).1
      (fun r hr => by
        simp only [sample_boxed_out, List.mem_singleton] at hr
        subst hr
        exact ⟨fun _ => by decide, fun h => by simp at h⟩),
    (to_ad_entries_in_order sample_boxed_out false false true false).2⟩

/-! ## Samples skipped by `acc` -/

theorem acc_single_eq (psort : List ℚ → Nat → List Nat → List Nat) (ad : EvalBatch) (k : Int)
    (hk : 1 ≤ k) :
    acc psort ad [k]
      = .ok [(acc_key k,
          fdiv ((ad.samples.countP (acc_counted psort k) : Nat) : ℚ) ad.batch_size)] := by
  unfold acc
  rw [List.foldlM_cons, acc_of_k_eq psort ad k hk]
  rfl

/-- C21, counterexample. With `k = 3`, adding a sample with one prediction to a batch
whose `acc-3` is 1 brings `acc-3` to 1/2: the skipped sample counts in the
denominator.  And a sample with `k - 1 = 2` predictions is skipped too, although its
target is its top scored index. -/
theorem acc_skipped_sample_counts :
    acc psort_model three_score_batch [3] = .ok [("acc-3", some 1)] ∧
    acc psort_model with_short_batch [3] = .ok [("acc-3", some (1 / 2))] ∧
    acc_hit psort_model 3 ⟨[9/10, 1/10], 0⟩ = .ok false := by
  decide!

/-- C21, amended. In `acc`, for `k` of at least 1, a sample with at most `k - 1`
predictions is skipped without an error: it adds nothing to the numerator of the
value for `k` and counts in its denominator, the batch size, so adding it to a batch
of `n` samples of which `h` are counted changes the value from `h / n` to
`h / (n + 1)`.  A sample with at least `k` predictions is never skipped: its first
`k` indices after the partial sort are compared with its target. -/
theorem acc_skips_short_samples (psort : List ℚ → Nat → List Nat → List Nat)
    (nclasses : Int) (samples : List Sample) (bad : Sample) (k : Int) (hk : 1 ≤ k) :
    acc psort ⟨nclasses, samples⟩ [k]
      = .ok [(acc_key k,
          fdiv ((samples.countP (acc_counted psort k) : Nat) : ℚ) (samples.length : ℚ))] ∧
    ((bad.pred.length : Int) ≤ k - 1 →
      acc_hit psort k bad = .ok false ∧
      acc psort ⟨nclasses, samples ++ [bad]⟩ [k]
        = .ok [(acc_key k,
            fdiv ((samples.countP (acc_counted psort k) : Nat) : ℚ)
              ((samples.length : ℚ) + 1))]) ∧
    (k ≤ (bad.pred.length : Int) →
      acc_hit psort k bad
        = .ok (((psort bad.pred (k - 1).toNat (List.range bad.pred.length)).take k.toNat).any
            (fun i => decide ((i : ℚ) = bad.target)))) := by
  refine ⟨?_, ?_, ?_⟩
  · rw [acc_single_eq psort _ k hk]
    simp [EvalBatch.batch_size]
  · intro hshort
    have hc : acc_counted psort k bad = false := by
      unfold acc_counted
      have : ¬ k ≤ (bad.pred.length : Int) := by omega
      simp [this]
    refine ⟨by rw [acc_hit_eq psort k hk, hc], ?_⟩
    rw [acc_single_eq psort _ k hk]
    simp [EvalBatch.batch_size, List.countP_append, hc]
  · intro hlong
    rw [acc_hit_eq psort k hk]
    unfold acc_counted
    simp [hlong]

theorem acc_skips_short_samples_witness :
    (1 : Int) ≤ 3 ∧ (((⟨[1], 0⟩ : Sample).pred.length : Nat) : Int) ≤ 3 - 1 ∧
    acc psort_model ⟨3, three_score_batch.samples⟩ [3]
      = .ok [(acc_key 3,
          fdiv ((three_score_batch.samples.countP (acc_counted psort_model 3) : Nat) : ℚ)
            (three_score_batch.samples.length : ℚ))] ∧
    acc_hit psort_model 3 ⟨[1], 0⟩ = .ok false ∧
    acc psort_model ⟨3, three_score_batch.samples ++ [⟨[1], 0⟩]⟩ [3]
      = .ok [(acc_key 3,
          fdiv ((three_score_batch.samples.countP (acc_counted psort_model 3) : Nat) : ℚ)
            ((three_score_batch.samples.length : ℚ) + 1))] :=
  have h := acc_skips_short_samples psort_model 3 three_score_batch.samples ⟨[1], 0⟩ 3
    (by decide)
  ⟨by decide, by decide, h.1, h.2.1 (by decide)⟩

/-! ## Euclidean loss: `eucll` -/

theorem eucll_dims_eq : ∀ (target pred : List ℚ) (eucl : ℚ),
    (∀ i t, target[i]? = some t → 0 ≤ t → i < pred.length) →
    eucll_dims pred target eucl
      = .ok (eucl + (((pred.zip target).filter (fun pt => decide (0 ≤ pt.2))).map
          (fun pt => (pt.1 - pt.2) ^ 2)).sum) := by
  intro target
  induction target with
  | nil => intro pred eucl _; simp [eucll_dims, pure, Except.pure]
  | cons t target ih =>
    intro pred eucl h
    unfold eucll_dims
    by_cases ht : t ≥ 0
    · rw [if_pos ht]
      cases pred with
      | nil => have := h 0 t (by simp) ht; simp at this
      | cons p pred =>
        simp only
        rw [ih pred _ (fun i t' hi ht' => by
          have := h (i + 1) t' (by simpa using hi) ht'
          simpa using this)]
        have ht' : (0 : ℚ) ≤ t := ht
        simp [List.zip_cons_cons, List.filter_cons, ht']
        ring
    · rw [if_neg ht]
      rw [ih pred.tail _ (fun i t' hi ht' => by
        have := h (i + 1) t' (by simpa using hi) ht'
        simp only [List.length_tail]
        omega)]
      have ht' : ¬ (0 : ℚ) ≤ t := ht
      cases pred with
      | nil => simp
      | cons p pred => simp [List.zip_cons_cons, List.filter_cons, ht']

theorem eucll_sample_eq (eucl : ℚ) (bad : RegSample) (h : EucllShaped bad) :
    eucll_sample eucl bad = .ok (eucl + sq_err bad) := by
  unfold eucll_sample sq_err target_dims
  unfold EucllShaped at h
  cases hb : bad.target with
  | num t =>
    rw [hb] at h
    simp only at h
    have h1 : ¬ bad.pred.length > 1 := by omega
    simp only [h1, if_false, bind, Except.bind, pure, Except.pure]
    apply eucll_dims_eq
    intro i t' hi ht'
    cases i with
    | zero =>
      simp only [List.getElem?_cons_zero, Option.some.injEq] at hi
      subst hi
      have := h.2 ht'
      omega
    | succ i => simp at hi
  | vec v =>
    rw [hb] at h
    simp only at h
    simp only [h.1, if_true, bind, Except.bind, pure, Except.pure]
    apply eucll_dims_eq
    intro i t' hi _
    have : i < v.length := by
      by_contra hc
      rw [List.getElem?_eq_none (by omega)] at hi
      exact absurd hi (by simp)
    omega

theorem eucll_foldlM_eq : ∀ (samples : List RegSample) (eucl : ℚ),
    (∀ bad ∈ samples, EucllShaped bad) →
    samples.foldlM eucll_sample eucl = .ok (eucl + (samples.map sq_err).sum) := by
  intro samples
  induction samples with
  | nil => intro eucl _; simp [pure, Except.pure]
  | cons bad samples ih =>
    intro eucl h
    rw [List.foldlM_cons, eucll_sample_eq eucl bad (h bad (List.mem_cons_self _ _))]
    simp only [bind, Except.bind]
    rw [ih _ (fun b hb => h b (List.mem_cons_of_mem _ hb))]
    simp [add_assoc]

theorem sq_err_zero (bad : RegSample)
    (h : ∀ pt ∈ bad.pred.zip (target_dims bad), 0 ≤ pt.2 → pt.1 = pt.2) : sq_err bad = 0 := by
  unfold sq_err
  apply List.sum_eq_zero
  intro x hx
  obtain ⟨pt, hpt, rfl⟩ := List.mem_map.1 hx
  rw [List.mem_filter, decide_eq_true_eq] at hpt
  rw [h pt hpt.1 hpt.2]
  simp

/-- C27, counterexample. On the batch without samples, where no prediction differs
from its target, `eucll` divides 0 by the batch size 0 and its result is not a
number. -/
theorem eucll_empty_batch_not_zero :
    eucll [] = .ok none ∧ eucll [] ≠ .ok (some 0) := by
  decide

/-- C27, amended. For every batch with at least one sample, of samples as `eucll`
expects them, `eucll` returns the sum over the samples and over the target dimensions
with a target that is not negative of the squared difference of prediction and
target, divided by the batch size; the dimensions with a negative target, a
negative scalar target included, add nothing, and the result is 0 when every
prediction equals its target. -/
theorem eucll_mean_squared_error (samples : List RegSample) (hne : samples ≠ [])
    (hshape : ∀ bad ∈ samples, EucllShaped bad) :
    eucll samples = .ok (some ((samples.map sq_err).sum / samples.length)) ∧
    ((∀ bad ∈ samples, ∀ pt ∈ bad.pred.zip (target_dims bad), 0 ≤ pt.2 → pt.1 = pt.2) →
      eucll samples = .ok (some 0)) := by
  have hlen : ((samples.length : Int) : ℚ) ≠ 0 := by
    have : samples.length ≠ 0 := fun h0 => hne (List.length_eq_zero.1 h0)
    exact_mod_cast this
  have key : eucll samples = .ok (some ((samples.map sq_err).sum / samples.length)) := by
    unfold eucll
    rw [eucll_foldlM_eq samples 0 hshape]
    simp [bind, Except.bind, pure, Except.pure, fdiv, hne]
  refine ⟨key, ?_⟩
  intro h
  rw [key]
  have : (samples.map sq_err).sum = 0 := by
    apply List.sum_eq_zero
    intro x hx
    obtain ⟨bad, hb, rfl⟩ := List.mem_map.1 hx
    exact sq_err_zero bad (h bad hb)
  rw [this]
  simp

theorem eucll_mean_squared_error_witness :
    eucl_batch ≠ [] ∧ (∀ bad ∈ eucl_batch, EucllShaped bad) ∧
    eucll eucl_batch = .ok (some ((eucl_batch.map sq_err).sum / eucl_batch.length)) ∧
    eucll eucl_batch = .ok (some 2) :=
  ⟨by decide,
    by intro bad hb
       simp only [eucl_batch, List.mem_cons, List.mem_singleton, List.not_mem_nil,
         or_false] at hb
       rcases hb with rfl | rfl <;> simp [EucllShaped],
    (eucll_mean_squared_error eucl_batch (by decide)
      (by intro bad hb
          simp only [eucl_batch, List.mem_cons, List.mem_singleton, List.not_mem_nil,
            or_false] at hb
          rcases hb with rfl | rfl <;> simp [EucllShaped])).1,
    by decide!⟩

/-! ## Multilabel rates: `multilabel_acc` -/

theorem tally_nil (f : ℚ → ℚ → Bool) : tally f [] = 0 := by simp [tally]

theorem tally_cons (f : ℚ → ℚ → Bool) (p t : ℚ) (es : List (ℚ × ℚ)) :
    tally f ((p, t) :: es) = (if 0 ≤ t ∧ f p t = true then 1 else 0) + tally f es := by
  unfold tally
  rw [List.countP_cons]
  by_cases h : 0 ≤ t ∧ f p t = true
  · rw [if_pos h, if_pos (by simpa using h)]; push_cast; ring
  · rw [if_neg h, if_neg (by simpa using h)]; push_cast; ring

theorem tally_append (f : ℚ → ℚ → Bool) (es es' : List (ℚ × ℚ)) :
    tally f (es ++ es') = tally f es + tally f es' := by
  unfold tally
  rw [List.countP_append]
  push_cast
  rfl

theorem tally_nonneg (f : ℚ → ℚ → Bool) (es : List (ℚ × ℚ)) : 0 ≤ tally f es := by
  unfold tally
  exact Nat.cast_nonneg _

theorem multilabel_count_eq : ∀ (pred targets : List ℚ) (c : MlCounts),
    pred.length ≤ targets.length →
    multilabel_count pred targets c = .ok
      { tp := c.tp + tally is_tp (pred.zip targets)
        fp := c.fp + tally is_fp (pred.zip targets)
        tn := c.tn + tally is_tn (pred.zip targets)
        fn := c.fn + tally is_fn (pred.zip targets)
        count_pos := c.count_pos + (tally is_tp (pred.zip targets)
          + tally is_fn (pred.zip targets))
        count_neg := c.count_neg + (tally is_tn (pred.zip targets)
          + tally is_fp (pred.zip targets)) } := by
  intro pred
  induction pred with
  | nil => intro targets c _; simp [multilabel_count, tally_nil, pure, Except.pure]
  | cons p pred ih =>
    intro targets c h
    cases targets with
    | nil => simp at h
    | cons t targets =>
      have h' : pred.length ≤ targets.length := by simpa using h
      unfold multilabel_count
      simp only [List.zip_cons_cons, tally_cons]
      by_cases h0 : t < 0
      · rw [if_pos h0, ih targets c h']
        have : ¬ 0 ≤ t := not_le.2 h0
        simp only [this, false_and, if_false, zero_add]
      · rw [if_neg h0]
        have h0' : 0 ≤ t := not_lt.1 h0
        by_cases h1 : t ≥ 1 / 2
        · rw [if_pos h1]
          have h1' : (1 : ℚ) / 2 ≤ t := h1
          have h1'' : ¬ t < 1 / 2 := not_lt.2 h1
          by_cases hp : p ≥ 0
          · have hp' : (0 : ℚ) ≤ p := hp
            have hp'' : ¬ p < 0 := not_lt.2 hp
            have e1 : is_tp p t = true := by
              unfold is_tp; rw [decide_eq_true h1', decide_eq_true hp']; rfl
            have e2 : is_fn p t = false := by
              unfold is_fn; rw [decide_eq_false hp'']; simp
            have e3 : is_tn p t = false := by
              unfold is_tn; rw [decide_eq_false h1'']; simp
            have e4 : is_fp p t = false := by
              unfold is_fp; rw [decide_eq_false h1'']; simp
            simp only [if_pos hp]
            rw [ih targets _ h']
            simp only [e1, e2, e3, e4, h0', true_and, and_true, and_false, if_true, if_false,
              Bool.false_eq_true]
            refine congrArg Except.ok ?_
            rw [MlCounts.mk.injEq]
            refine ⟨?_, ?_, ?_, ?_, ?_, ?_⟩ <;> ring
          · have hp' : ¬ (0 : ℚ) ≤ p := hp
            have hp'' : p < 0 := not_le.1 hp
            have e1 : is_tp p t = false := by
              unfold is_tp; rw [decide_eq_false hp']; simp
            have e2 : is_fn p t = true := by
              unfold is_fn; rw [decide_eq_true h1', decide_eq_true hp'']; rfl
            have e3 : is_tn p t = false := by
              unfold is_tn; rw [decide_eq_false h1'']; simp
            have e4 : is_fp p t = false := by
              unfold is_fp; rw [decide_eq_false h1'']; simp
            simp only [if_neg hp]
            rw [ih targets _ h']
            simp only [e1, e2, e3, e4, h0', true_and, and_true, and_false, if_true, if_false,
              Bool.false_eq_true]
            refine congrArg Except.ok ?_
            rw [MlCounts.mk.injEq]
            refine ⟨?_, ?_, ?_, ?_, ?_, ?_⟩ <;> ring
        · rw [if_neg h1]
          have h1' : ¬ (1 : ℚ) / 2 ≤ t := h1
          have h1'' : t < 1 / 2 := not_le.1 h1
          by_cases hp : p < 0
          · have hp' : ¬ (0 : ℚ) ≤ p := not_le.2 hp
            have e1 : is_tp p t = false := by
              unfold is_tp; rw [decide_eq_false h1']; simp
            have e2 : is_fn p t = false := by
              unfold is_fn; rw [decide_eq_false h1']; simp
            have e3 : is_tn p t = true := by
              unfold is_tn; rw [decide_eq_true h1'', decide_eq_true hp]; rfl
            have e4 : is_fp p t = false := by
              unfold is_fp; rw [decide_eq_false hp']; simp
            simp only [if_pos hp]
            rw [ih targets _ h']
            simp only [e1, e2, e3, e4, h0', true_and, and_true, and_false, if_true, if_false,
              Bool.false_eq_true]
            refine congrArg Except.ok ?_
            rw [MlCounts.mk.injEq]
            refine ⟨?_, ?_, ?_, ?_, ?_, ?_⟩ <;> ring
          · have hp' : (0 : ℚ) ≤ p := not_lt.1 hp
            have e1 : is_tp p t = false := by
              unfold is_tp; rw [decide_eq_false h1']; simp
            have e2 : is_fn p t = false := by
              unfold is_fn; rw [decide_eq_false h1']; simp
            have e3 : is_tn p t = false := by
              unfold is_tn; rw [decide_eq_false hp]; simp
            have e4 : is_fp p t = true := by
              unfold is_fp; rw [decide_eq_true h1'', decide_eq_true hp']; rfl
            simp only [if_neg hp]
            rw [ih targets _ h']
            simp only [e1, e2, e3, e4, h0', true_and, and_true, and_false, if_true, if_false,
              Bool.false_eq_true]
            refine congrArg Except.ok ?_
            rw [MlCounts.mk.injEq]
            refine ⟨?_, ?_, ?_, ?_, ?_, ?_⟩ <;> ring

theorem multilabel_foldlM_eq : ∀ (samples : List VSample) (c : MlCounts),
    (∀ bad ∈ samples, bad.pred.length ≤ bad.target.length) →
    samples.foldlM (fun c bad => multilabel_count bad.pred bad.target c) c = .ok
      { tp := c.tp + tally is_tp (positions samples)
        fp := c.fp + tally is_fp (positions samples)
        tn := c.tn + tally is_tn (positions samples)
        fn := c.fn + tally is_fn (positions samples)
        count_pos := c.count_pos + (tally is_tp (positions samples)
          + tally is_fn (positions samples))
        count_neg := c.count_neg + (tally is_tn (positions samples)
          + tally is_fp (positions samples)) } := by
  intro samples
  induction samples with
  | nil => intro c _; simp [positions, tally_nil, pure, Except.pure]
  | cons bad samples ih =>
    intro c h
    rw [List.foldlM_cons, multilabel_count_eq bad.pred bad.target c
      (h bad (List.mem_cons_self _ _))]
    simp only [bind, Except.bind]
    rw [ih _ (fun b hb => h b (List.mem_cons_of_mem _ hb))]
    have hp : positions (bad :: samples) = bad.pred.zip bad.target ++ positions samples := by
      simp [positions]
    rw [hp]
    simp only [tally_append]
    refine congrArg Except.ok ?_
    rw [MlCounts.mk.injEq]
    refine ⟨?_, ?_, ?_, ?_, ?_, ?_⟩ <;> ring

theorem ratio_bounds (a b : ℚ) (ha : 0 ≤ a) (hb : 0 ≤ b) :
    0 ≤ a / (a + b) ∧ a / (a + b) ≤ 1 := by
  have hab : 0 ≤ a + b := add_nonneg ha hb
  refine ⟨div_nonneg ha hab, ?_⟩
  exact div_le_one_of_le₀ (by linarith) hab

theorem multilabel_acc_values (ad : VBatch)
    (hlen : ∀ bad ∈ ad.samples, bad.pred.length ≤ bad.target.length) :
    ∃ res, multilabel_acc ad = .ok res ∧
      res.sensitivity = some
        (if tally is_tp (positions ad.samples) + tally is_fn (positions ad.samples) = 0 then 0
          else tally is_tp (positions ad.samples)
            / (tally is_tp (positions ad.samples) + tally is_fn (positions ad.samples))) ∧
      res.specificity = some
        (if tally is_tn (positions ad.samples) + tally is_fp (positions ad.samples) = 0 then 0
          else tally is_tn (positions ad.samples)
            / (tally is_tn (positions ad.samples) + tally is_fp (positions ad.samples))) ∧
      res.precision = some
        (if tally is_tp (positions ad.samples) = 0 then 0
          else tally is_tp (positions ad.samples)
            / (tally is_tp (positions ad.samples) + tally is_fp (positions ad.samples))) ∧
      res.f1 = some
        (if tally is_tp (positions ad.samples) = 0 then 0
          else 2 * tally is_tp (positions ad.samples)
            / (2 * tally is_tp (positions ad.samples) + tally is_fp (positions ad.samples)
                + tally is_fn (positions ad.samples))) := by
  have hrun : multilabel_acc ad = .ok
      { sensitivity :=
          if 0 + (tally is_tp (positions ad.samples) + tally is_fn (positions ad.samples)) > 0
          then fdiv (0 + tally is_tp (positions ad.samples))
            (0 + (tally is_tp (positions ad.samples) + tally is_fn (positions ad.samples)))
          else some 0
        specificity :=
          if 0 + (tally is_tn (positions ad.samples) + tally is_fp (positions ad.samples)) > 0
          then fdiv (0 + tally is_tn (positions ad.samples))
            (0 + (tally is_tn (positions ad.samples) + tally is_fp (positions ad.samples)))
          else some 0
        harmmean :=
          if 0 + (tally is_tp (positions ad.samples) + tally is_fn (positions ad.samples))
              + (0 + (tally is_tn (positions ad.samples) + tally is_fp (positions ad.samples)))
              > 0
          then (xrdiv 2 (xadd
            (xdiv (0 + (tally is_tp (positions ad.samples) + tally is_fn (positions ad.samples)))
              (0 + tally is_tp (positions ad.samples)))
            (xdiv (0 + (tally is_tn (positions ad.samples) + tally is_fp (positions ad.samples)))
              (0 + tally is_tn (positions ad.samples))))).toOption
          else some 0
        precision :=
          if 0 + tally is_tp (positions ad.samples) > 0
          then fdiv (0 + tally is_tp (positions ad.samples))
            (0 + tally is_tp (positions ad.samples) + (0 + tally is_fp (positions ad.samples)))
          else some 0
        f1 :=
          if 0 + tally is_tp (positions ad.samples) > 0
          then fdiv (2 * (0 + tally is_tp (positions ad.samples)))
            (2 * (0 + tally is_tp (positions ad.samples))
              + (0 + tally is_fp (positions ad.samples))
              + (0 + tally is_fn (positions ad.samples)))
          else some 0 } := by
    unfold multilabel_acc
    rw [multilabel_foldlM_eq ad.samples _ hlen]
    rfl
  refine ⟨_, hrun, ?_⟩
  have htp := tally_nonneg is_tp (positions ad.samples)
  have hfp := tally_nonneg is_fp (positions ad.samples)
  have htn := tally_nonneg is_tn (positions ad.samples)
  have hfn := tally_nonneg is_fn (positions ad.samples)
  simp only [zero_add]
  generalize tally is_tp (positions ad.samples) = tp at htp ⊢
  generalize tally is_fp (positions ad.samples) = fp at hfp ⊢
  generalize tally is_tn (positions ad.samples) = tn at htn ⊢
  generalize tally is_fn (positions ad.samples) = fn at hfn ⊢
  have hs : (if tp + fn > 0 then fdiv tp (tp + fn) else some 0)
      = some (if tp + fn = 0 then 0 else tp / (tp + fn)) := by
    by_cases h : tp + fn = 0
    · rw [if_neg (by rw [h]; exact lt_irrefl 0), if_pos h]
    · rw [if_pos (lt_of_le_of_ne (add_nonneg htp hfn) (Ne.symm h)), if_neg h]
      unfold fdiv; rw [if_neg h]
  have hsp : (if tn + fp > 0 then fdiv tn (tn + fp) else some 0)
      = some (if tn + fp = 0 then 0 else tn / (tn + fp)) := by
    by_cases h : tn + fp = 0
    · rw [if_neg (by rw [h]; exact lt_irrefl 0), if_pos h]
    · rw [if_pos (lt_of_le_of_ne (add_nonneg htn hfp) (Ne.symm h)), if_neg h]
      unfold fdiv; rw [if_neg h]
  have hpr : (if tp > 0 then fdiv tp (tp + fp) else some 0)
      = some (if tp = 0 then 0 else tp / (tp + fp)) := by
    by_cases h : tp = 0
    · rw [if_neg (by rw [h]; exact lt_irrefl 0), if_pos h]
    · have hpos : tp > 0 := lt_of_le_of_ne htp (Ne.symm h)
      rw [if_pos hpos, if_neg h]
      unfold fdiv; rw [if_neg (by linarith)]
  have hf : (if tp > 0 then fdiv (2 * tp) (2 * tp + fp + fn) else some 0)
      = some (if tp = 0 then 0 else 2 * tp / (2 * tp + fp + fn)) := by
    by_cases h : tp = 0
    · rw [if_neg (by rw [h]; exact lt_irrefl 0), if_pos h]
    · have hpos : tp > 0 := lt_of_le_of_ne htp (Ne.symm h)
      rw [if_pos hpos, if_neg h]
      unfold fdiv; rw [if_neg (by linarith)]
  exact ⟨hs, hsp, hpr, hf⟩

/-- C29. For every multilabel batch, of samples with a target for each prediction,
`multilabel_acc` ignores the positions with a negative target, takes a position as
positive when its target is at least 0.5 and as predicted positive when its
prediction is at least 0, and returns sensitivity `tp / (tp + fn)`, specificity
`tn / (tn + fp)`, precision `tp / (tp + fp)` and f1 `2 tp / (2 tp + fp + fn)` over
the counts of these positions, 0 when `tp + fn`, `tn + fp`, `tp` and `tp` are 0; each
of the four lies between 0 and 1. -/
theorem multilabel_acc_rates (ad : VBatch)
    (hlen : ∀ bad ∈ ad.samples, bad.pred.length ≤ bad.target.length) :
    ∃ res, multilabel_acc ad = .ok res ∧
      res.sensitivity = some
        (if tally is_tp (positions ad.samples) + tally is_fn (positions ad.samples) = 0 then 0
          else tally is_tp (positions ad.samples)
            / (tally is_tp (positions ad.samples) + tally is_fn (positions ad.samples))) ∧
      res.specificity = some
        (if tally is_tn (positions ad.samples) + tally is_fp (positions ad.samples) = 0 then 0
          else tally is_tn (positions ad.samples)
            / (tally is_tn (positions ad.samples) + tally is_fp (positions ad.samples))) ∧
      res.precision = some
        (if tally is_tp (positions ad.samples) = 0 then 0
          else tally is_tp (positions ad.samples)
            / (tally is_tp (positions ad.samples) + tally is_fp (positions ad.samples))) ∧
      res.f1 = some
        (if tally is_tp (positions ad.samples) = 0 then 0
          else 2 * tally is_tp (positions ad.samples)
            / (2 * tally is_tp (positions ad.samples) + tally is_fp (positions ad.samples)
                + tally is_fn (positions ad.samples))) ∧
      ∀ x, (res.sensitivity = some x ∨ res.specificity = some x ∨ res.precision = some x ∨
          res.f1 = some x) → 0 ≤ x ∧ x ≤ 1 := by
  obtain ⟨res, hrun, hs, hsp, hpr, hf⟩ := multilabel_acc_values ad hlen
  refine ⟨res, hrun, hs, hsp, hpr, hf, ?_⟩
  have htp := tally_nonneg is_tp (positions ad.samples)
  have hfp := tally_nonneg is_fp (positions ad.samples)
  have htn := tally_nonneg is_tn (positions ad.samples)
  have hfn := tally_nonneg is_fn (positions ad.samples)
  generalize tally is_tp (positions ad.samples) = tp at htp hs hsp hpr hf
  generalize tally is_fp (positions ad.samples) = fp at hfp hs hsp hpr hf
  generalize tally is_tn (positions ad.samples) = tn at htn hs hsp hpr hf
  generalize tally is_fn (positions ad.samples) = fn at hfn hs hsp hpr hf
  intro x hx
  rw [hs, hsp, hpr, hf] at hx
  simp only [Option.some.injEq] at hx
  rcases hx with rfl | rfl | rfl | rfl
  · split
    · exact ⟨le_refl 0, zero_le_one⟩
    · exact ratio_bounds tp fn htp hfn
  · split
    · exact ⟨le_refl 0, zero_le_one⟩
    · exact ratio_bounds tn fp htn hfp
  · split
    · exact ⟨le_refl 0, zero_le_one⟩
    · exact ratio_bounds tp fp htp hfp
  · split
    · exact ⟨le_refl 0, zero_le_one⟩
    · have := ratio_bounds (2 * tp) (fp + fn) (by linarith) (add_nonneg hfp hfn)
      rw [← add_assoc] at this
      exact this

theorem multilabel_acc_rates_witness :
    (∀ bad ∈ ml_batch.samples, bad.pred.length ≤ bad.target.length) ∧
    multilabel_acc ml_batch
      = .ok ⟨some (1 / 2), some 0, some 0, some (1 / 2), some (1 / 2)⟩ ∧
    ∃ res, multilabel_acc ml_batch = .ok res ∧
      res.sensitivity = some
        (if tally is_tp (positions ml_batch.samples) + tally is_fn (positions ml_batch.samples)
            = 0 then 0
          else tally is_tp (positions ml_batch.samples)
            / (tally is_tp (positions ml_batch.samples)
                + tally is_fn (positions ml_batch.samples))) ∧
      res.specificity = some
        (if tally is_tn (positions ml_batch.samples) + tally is_fp (positions ml_batch.samples)
            = 0 then 0
          else tally is_tn (positions ml_batch.samples)
            / (tally is_tn (positions ml_batch.samples)
                + tally is_fp (positions ml_batch.samples))) ∧
      res.precision = some
        (if tally is_tp (positions ml_batch.samples) = 0 then 0
          else tally is_tp (positions ml_batch.samples)
            / (tally is_tp (positions ml_batch.samples)
                + tally is_fp (positions ml_batch.samples))) ∧
      res.f1 = some
        (if tally is_tp (positions ml_batch.samples) = 0 then 0
          else 2 * tally is_tp (positions ml_batch.samples)
            / (2 * tally is_tp (positions ml_batch.samples)
                + tally is_fp (positions ml_batch.samples)
                + tally is_fn (positions ml_batch.samples))) ∧
      ∀ x, (res.sensitivity = some x ∨ res.specificity = some x ∨ res.precision = some x ∨
          res.f1 = some x) → 0 ≤ x ∧ x ≤ 1 :=
  ⟨by decide, by decide!,
    multilabel_acc_rates ml_batch (by decide)⟩

/-! ## Delta scores: `multilabel_acc_soft` -/

theorem zipWith_map_self {α β : Type} (f : α → β → β) (g : α → β) :
    ∀ (l : List α), List.zipWith f l (l.map g) = l.map (fun d => f d (g d)) := by
  intro l
  induction l with
  | nil => rfl
  | cons a l ih => simp [ih]

theorem soft_count_spec (log : ℚ → ℚ) (deltas : List ℚ) :
    ∀ (pred targets : List ℚ) (a : SoftAcc) (f : ℚ → ℚ),
      pred.length ≤ targets.length → a.delta_scores = deltas.map f →
      ∃ a', soft_count log deltas pred targets a = .ok a' ∧
        (a'.total_number : ℚ) = a.total_number + tally any_position (pred.zip targets) ∧
        a'.delta_scores
          = deltas.map (fun d => f d + tally (within d) (pred.zip targets)) := by
  intro pred
  induction pred with
  | nil =>
    intro targets a f _ hf
    exact ⟨a, rfl, by simp [tally_nil], by simp [tally_nil, hf]⟩
  | cons p pred ih =>
    intro targets a f h hf
    cases targets with
    | nil => simp at h
    | cons t targets =>
      have h' : pred.length ≤ targets.length := by simpa using h
      unfold soft_count
      simp only [List.zip_cons_cons, tally_cons]
      by_cases h0 : t < 0
      · rw [if_pos h0]
        have hn : ¬ 0 ≤ t := not_le.2 h0
        obtain ⟨a', ha', ht', hd'⟩ := ih targets a f h' hf
        refine ⟨a', ha', ?_, ?_⟩
        · rw [ht']; simp only [hn, false_and, if_false, zero_add]
        · rw [hd']; simp only [hn, false_and, if_false, zero_add]
      · rw [if_neg h0]
        have h0' : 0 ≤ t := not_lt.1 h0
        have hd : (soft_entry log deltas p t a).delta_scores
            = deltas.map (fun d => if |t - p| < d then f d + 1 else f d) := by
          simp only [soft_entry]
          rw [hf, zipWith_map_self]
        obtain ⟨a', ha', ht', hd'⟩ := ih targets (soft_entry log deltas p t a) _ h' hd
        refine ⟨a', ha', ?_, ?_⟩
        · rw [ht']
          simp only [soft_entry, any_position, h0', true_and, if_true]
          push_cast
          ring
        · rw [hd']
          apply List.map_congr_left
          intro d _
          simp only [h0', true_and, within, decide_eq_true_eq]
          by_cases hw : |t - p| < d
          · rw [if_pos hw, if_pos hw]; ring
          · rw [if_neg hw, if_neg hw]; ring

theorem soft_foldlM_spec (log : ℚ → ℚ) (deltas : List ℚ) :
    ∀ (samples : List VSample) (a : SoftAcc) (f : ℚ → ℚ),
      (∀ bad ∈ samples, bad.pred.length ≤ bad.target.length) →
      a.delta_scores = deltas.map f →
      ∃ a', samples.foldlM (fun a bad => soft_count log deltas bad.pred bad.target a) a
          = .ok a' ∧
        (a'.total_number : ℚ) = a.total_number + tally any_position (positions samples) ∧
        a'.delta_scores = deltas.map (fun d => f d + tally (within d) (positions samples)) := by
  intro samples
  induction samples with
  | nil =>
    intro a f _ hf
    exact ⟨a, rfl, by simp [positions, tally_nil], by simp [positions, tally_nil, hf]⟩
  | cons bad samples ih =>
    intro a f h hf
    obtain ⟨a₁, ha₁, ht₁, hd₁⟩ := soft_count_spec log deltas bad.pred bad.target a f
      (h bad (List.mem_cons_self _ _)) hf
    obtain ⟨a', ha', ht', hd'⟩ := ih a₁ _ (fun b hb => h b (List.mem_cons_of_mem _ hb)) hd₁
    have hp : positions (bad :: samples) = bad.pred.zip bad.target ++ positions samples := by
      simp [positions]
    refine ⟨a', ?_, ?_, ?_⟩
    · rw [List.foldlM_cons, ha₁]
      exact ha'
    · rw [ht', ht₁, hp, tally_append]; ring
    · rw [hd', hp]
      apply List.map_congr_left
      intro d _
      rw [tally_append]; ring

theorem soft_sstot_total (tmean : ℚ) :
    ∀ (pred targets : List ℚ) (sstot : ℚ), pred.length ≤ targets.length →
      ∃ s, soft_sstot tmean pred targets sstot = .ok s := by
  intro pred
  induction pred with
  | nil => intro targets sstot _; exact ⟨sstot, rfl⟩
  | cons p pred ih =>
    intro targets sstot h
    cases targets with
    | nil => simp at h
    | cons t targets =>
      have h' : pred.length ≤ targets.length := by simpa using h
      unfold soft_sstot
      by_cases h0 : t < 0
      · rw [if_pos h0]; exact ih targets _ h'
      · rw [if_neg h0]; exact ih targets _ h'

theorem soft_sstot_foldlM_total (tmean : ℚ) :
    ∀ (samples : List VSample) (sstot : ℚ),
      (∀ bad ∈ samples, bad.pred.length ≤ bad.target.length) →
      ∃ s, samples.foldlM (fun sstot bad => soft_sstot tmean bad.pred bad.target sstot) sstot
        = .ok s := by
  intro samples
  induction samples with
  | nil => intro sstot _; exact ⟨sstot, rfl⟩
  | cons bad samples ih =>
    intro sstot h
    obtain ⟨s₁, hs₁⟩ := soft_sstot_total tmean bad.pred bad.target sstot
      (h bad (List.mem_cons_self _ _))
    obtain ⟨s, hs⟩ := ih s₁ (fun b hb => h b (List.mem_cons_of_mem _ hb))
    exact ⟨s, by rw [List.foldlM_cons, hs₁]; exact hs⟩

theorem tally_le (f : ℚ → ℚ → Bool) (es : List (ℚ × ℚ)) :
    tally f es ≤ tally any_position es := by
  unfold tally
  have : es.countP (fun pt => decide (0 ≤ pt.2) && f pt.1 pt.2)
      ≤ es.countP (fun pt => decide (0 ≤ pt.2) && any_position pt.1 pt.2) := by
    apply List.countP_mono_left
    intro x _ hx
    simp only [Bool.and_eq_true] at hx ⊢
    exact ⟨hx.1, rfl⟩
  exact_mod_cast this

theorem tally_within_mono (d d' : ℚ) (h : d ≤ d') (es : List (ℚ × ℚ)) :
    tally (within d) es ≤ tally (within d') es := by
  unfold tally
  have : es.countP (fun pt => decide (0 ≤ pt.2) && within d pt.1 pt.2)
      ≤ es.countP (fun pt => decide (0 ≤ pt.2) && within d' pt.1 pt.2) := by
    apply List.countP_mono_left
    intro x _ hx
    simp only [Bool.and_eq_true, within, decide_eq_true_eq] at hx ⊢
    exact ⟨hx.1, lt_of_lt_of_le hx.2 h⟩
  exact_mod_cast this

theorem tally_within_exact (d : ℚ) (hd : 0 < d) (es : List (ℚ × ℚ))
    (h : ∀ pt ∈ es, 0 ≤ pt.2 → pt.1 = pt.2) :
    tally (within d) es = tally any_position es := by
  unfold tally
  congr 1
  apply List.countP_congr
  intro x hx
  simp only [Bool.and_eq_true, within, any_position, decide_eq_true_eq, and_true]
  constructor
  · intro hh; exact hh.1
  · intro h0
    refine ⟨h0, ?_⟩
    rw [h x hx h0]
    simpa using hd

theorem soft_delta_scores_of_ok (log sqrt : ℚ → ℚ) (ad : VBatch) (deltas : List ℚ)
    (hlen : ∀ bad ∈ ad.samples, bad.pred.length ≤ bad.target.length) (res : SoftResult)
    (hres : multilabel_acc_soft log sqrt ad deltas = .ok res) :
    res.delta_scores = deltas.map (fun d =>
      fdiv (tally (within d) (positions ad.samples))
        (tally any_position (positions ad.samples))) := by
  obtain ⟨a, ha, ht, hd⟩ := soft_foldlM_spec log deltas ad.samples
    (⟨0, 0, 0, 0, 0, 0, deltas.map (fun _ => 0)⟩ : SoftAcc) (fun _ => 0) hlen rfl
  have ht' : (a.total_number : ℚ) = tally any_position (positions ad.samples) := by
    rw [ht]; simp
  have hd' : a.delta_scores.map (fun s => fdiv s (a.total_number : ℚ))
      = deltas.map (fun d => fdiv (tally (within d) (positions ad.samples))
          (tally any_position (positions ad.samples))) := by
    rw [hd, List.map_map]
    apply List.map_congr_left
    intro d _
    simp only [Function.comp_apply, zero_add, ht']
  unfold multilabel_acc_soft at hres
  simp only [bind, Except.bind, ha, pure, Except.pure] at hres
  repeat' split at hres
  all_goals first
    | (simp only [Except.ok.injEq] at hres; rw [← hres]; exact hd')
    | (simp only [reduceCtorEq] at hres)

theorem delta_scores_when_defined (log sqrt : ℚ → ℚ) (ad : VBatch)
    (hlen : ∀ bad ∈ ad.samples, bad.pred.length ≤ bad.target.length)
    (hsome : 0 < tally any_position (positions ad.samples)) (res : SoftResult)
    (hres : multilabel_acc_soft log sqrt ad measure_deltas = .ok res) :
    res.delta_scores = measure_deltas.map (fun d =>
      some (tally (within d) (positions ad.samples)
        / tally any_position (positions ad.samples))) ∧
    (∀ d, 0 ≤ tally (within d) (positions ad.samples)
          / tally any_position (positions ad.samples) ∧
        tally (within d) (positions ad.samples)
          / tally any_position (positions ad.samples) ≤ 1) ∧
    (∀ d d', d ≤ d' →
      tally (within d) (positions ad.samples) / tally any_position (positions ad.samples)
        ≤ tally (within d') (positions ad.samples)
          / tally any_position (positions ad.samples)) ∧
    ((∀ pt ∈ positions ad.samples, 0 ≤ pt.2 → pt.1 = pt.2) →
      res.delta_scores = [some 1, some 1, some 1, some 1]) := by
  have hd := soft_delta_scores_of_ok log sqrt ad measure_deltas hlen res hres
  have hne : tally any_position (positions ad.samples) ≠ 0 := ne_of_gt hsome
  have hd' : res.delta_scores = measure_deltas.map (fun d =>
      some (tally (within d) (positions ad.samples)
        / tally any_position (positions ad.samples))) := by
    rw [hd]
    apply List.map_congr_left
    intro d _
    unfold fdiv
    rw [if_neg hne]
  refine ⟨hd', ?_, ?_, ?_⟩
  · intro d
    exact ⟨div_nonneg (tally_nonneg _ _) (le_of_lt hsome),
      div_le_one_of_le₀ (tally_le _ _) (le_of_lt hsome)⟩
  · intro d d' h
    exact div_le_div_of_nonneg_right (tally_within_mono d d' h _) (le_of_lt hsome)
  · intro h
    rw [hd']
    have e : ∀ d, 0 < d → tally (within d) (positions ad.samples)
        / tally any_position (positions ad.samples) = 1 := by
      intro d hd0
      rw [tally_within_exact d hd0 _ h, div_self hne]
    simp only [measure_deltas, List.map_cons, List.map_nil]
    rw [e _ (by norm_num), e _ (by norm_num), e _ (by norm_num), e _ (by norm_num)]

/-- C30, failing input. On the batch `overrun_batch`, three samples with one label
each and every prediction equal to its target, the first loop of
`multilabel_acc_soft` counts 3 entries within each of the four thresholds out of 3
that are not ignored, the delta scores 1 of the claim.  The loop that adds up
`distance_correlation` then divides `t_k[i]` at the position `i = 1` of the second
sample, outside the arrays, which have one entry: the call leaves defined behaviour
and returns nothing, whatever `std::log` and `std::sqrt` are.  On the first sample
alone the call returns, with the delta scores 1. -/
theorem multilabel_acc_soft_overruns :
    (∀ log : ℚ → ℚ,
      (overrun_batch.samples.foldlM
          (fun a bad => soft_count log measure_deltas bad.pred bad.target a)
          (⟨0, 0, 0, 0, 0, 0, measure_deltas.map (fun _ => 0)⟩ : SoftAcc)).toOption.map
        (fun a => (a.total_number, a.delta_scores)) = some (3, [3, 3, 3, 3])) ∧
    (∀ log sqrt : ℚ → ℚ,
      multilabel_acc_soft log sqrt overrun_batch measure_deltas
        = .error Failure.undefined) ∧
    (multilabel_acc_soft log_model sqrt_model ⟨1, overrun_batch.samples.take 1⟩
        measure_deltas).toOption.map (fun res => res.delta_scores)
      = some [some 1, some 1, some 1, some 1] := by
  refine ⟨?_, ?_, by decide!⟩
  · intro log
    with_unfolding_all rfl
  · intro log sqrt
    with_unfolding_all rfl

/-! ## Mean class accuracy: `acc_v` -/

theorem c_sum_eq (c : Nat) : ∀ (p t : List ℚ),
    (List.zipWith (fun (x y : ℚ) => x - y)
        (p.map (fun (x : ℚ) => if x = (c : ℚ) then x else -2))
        (t.map (fun (x : ℚ) => if x = (c : ℚ) then x else -1))).countP
      (fun d => decide (|d| = 0))
    = (p.zip t).countP (fun pt => decide (pt.1 = (c : ℚ) ∧ pt.2 = (c : ℚ))) := by
  intro p
  induction p with
  | nil => intro t; simp
  | cons x p ih =>
    intro t
    cases t with
    | nil => simp
    | cons y t =>
      simp only [List.map_cons, List.zipWith_cons_cons, List.zip_cons_cons, List.countP_cons, ih]
      congr 1
      have hc : (0 : ℚ) ≤ (c : ℚ) := Nat.cast_nonneg c
      have key : (|(if x = (c : ℚ) then x else -2) - (if y = (c : ℚ) then y else -1)| = 0)
          ↔ (x = (c : ℚ) ∧ y = (c : ℚ)) := by
        rw [abs_eq_zero]
        by_cases hx : x = (c : ℚ) <;> by_cases hy : y = (c : ℚ)
        · rw [if_pos hx, if_pos hy, hx, hy]
          exact ⟨fun _ => ⟨rfl, rfl⟩, fun _ => sub_self _⟩
        · rw [if_pos hx, if_neg hy, hx]
          exact ⟨fun h => by linarith, fun h => absurd h.2 hy⟩
        · rw [if_neg hx, if_pos hy, hy]
          exact ⟨fun h => by linarith, fun h => absurd h.1 hx⟩
        · rw [if_neg hx, if_neg hy]
          exact ⟨fun h => by norm_num at h, fun h => absurd h.1 hx⟩
      simp only [decide_eq_true_eq, key]

theorem class_counts_c_sum (bad : VSample) (c : Nat) :
    (class_counts bad.pred bad.target c).c_sum = (correct c bad : ℚ) := by
  simp only [class_counts, correct]
  rw [c_sum_eq]

theorem class_counts_c_total (bad : VSample) (c : Nat) :
    (class_counts bad.pred bad.target c).c_total_targ = (occurs c bad : ℚ) := by
  simp only [class_counts, occurs]

theorem correct_le_occurs (c : Nat) (bad : VSample)
    (h : bad.pred.length = bad.target.length) : correct c bad ≤ occurs c bad := by
  unfold correct occurs
  have h1 : (bad.pred.zip bad.target).countP (fun pt => decide (pt.1 = (c : ℚ) ∧ pt.2 = (c : ℚ)))
      ≤ (bad.pred.zip bad.target).countP (fun pt => decide (pt.2 = (c : ℚ))) := by
    apply List.countP_mono_left
    intro x _ hx
    simp only [decide_eq_true_eq] at hx ⊢
    exact hx.2
  have h2 : (bad.pred.zip bad.target).countP (fun pt => decide (pt.2 = (c : ℚ)))
      = ((bad.pred.zip bad.target).map Prod.snd).countP (fun t => decide (t = (c : ℚ))) := by
    rw [List.countP_map]; rfl
  rw [List.map_snd_zip _ _ (le_of_eq h.symm)] at h2
  omega

theorem acc_v_sample_spec (n : Nat) (a : AccVAcc) (bad : VSample) (h : PixelShaped bad) :
    ∃ a', acc_v_sample n a bad = .ok a' ∧
      (∀ c, a'.mean_acc c = a.mean_acc c
        + (if c < n ∧ correct c bad ≠ 0 then (correct c bad : ℚ) / (occurs c bad : ℚ) else 0)) ∧
      (∀ c, a'.mean_acc_bs c = a.mean_acc_bs c
        + (if c < n ∧ correct c bad ≠ 0 then 1 else 0)) := by
  obtain ⟨hne, hlen⟩ := h
  have hne' : bad.target ≠ [] := by
    intro h0
    rw [h0] at hlen
    exact hne (List.length_eq_zero.1 hlen)
  have hcond : ¬ (bad.pred = [] ∨ bad.target = []) := by
    rintro (h | h)
    · exact hne h
    · exact hne' h
  have hzero : ∀ c, ((class_counts bad.pred bad.target c).c_sum = 0 ∨
      (class_counts bad.pred bad.target c).c_total_targ = 0) ↔ correct c bad = 0 := by
    intro c
    rw [class_counts_c_sum, class_counts_c_total]
    have := correct_le_occurs c bad hlen
    constructor
    · rintro (h | h)
      · exact_mod_cast h
      · have : occurs c bad = 0 := by exact_mod_cast h
        omega
    · intro h
      left
      exact_mod_cast h
  unfold acc_v_sample vec_sub
  simp only [hcond, if_false, hlen, if_true, bind, Except.bind, pure, Except.pure]
  refine ⟨_, rfl, ?_, ?_⟩
  · intro c
    simp only
    by_cases hc : c < n
    · rw [if_pos hc]
      by_cases h0 : correct c bad = 0
      · rw [if_pos ((hzero c).2 h0), if_neg (by simp [h0])]; simp
      · rw [if_neg (fun hh => h0 ((hzero c).1 hh)), if_pos ⟨hc, h0⟩,
          class_counts_c_sum, class_counts_c_total]
    · rw [if_neg hc, if_neg (fun hh => hc hh.1)]; simp
  · intro c
    simp only
    by_cases hc : c < n
    · rw [if_pos hc]
      by_cases h0 : correct c bad = 0
      · rw [if_pos ((hzero c).2 h0), if_neg (by simp [h0])]; simp
      · rw [if_neg (fun hh => h0 ((hzero c).1 hh)), if_pos ⟨hc, h0⟩]
    · rw [if_neg hc, if_neg (fun hh => hc hh.1)]; simp

theorem hit_samples_cons (c : Nat) (bad : VSample) (samples : List VSample) :
    hit_samples c (bad :: samples)
      = if correct c bad ≠ 0 then bad :: hit_samples c samples else hit_samples c samples := by
  unfold hit_samples
  rw [List.filter_cons]
  by_cases h : correct c bad ≠ 0
  · rw [if_pos h, if_pos (by simpa using h)]
  · rw [if_neg h, if_neg (by simpa using h)]

theorem acc_v_foldlM_spec (n : Nat) :
    ∀ (samples : List VSample) (a : AccVAcc), (∀ bad ∈ samples, PixelShaped bad) →
      ∃ a', samples.foldlM (acc_v_sample n) a = .ok a' ∧
        (∀ c, a'.mean_acc c = a.mean_acc c
          + (if c < n then ((hit_samples c samples).map
              (fun bad => (correct c bad : ℚ) / (occurs c bad : ℚ))).sum else 0)) ∧
        (∀ c, a'.mean_acc_bs c = a.mean_acc_bs c
          + (if c < n then ((hit_samples c samples).length : ℚ) else 0)) := by
  intro samples
  induction samples with
  | nil =>
    intro a _
    exact ⟨a, rfl, fun c => by simp [hit_samples], fun c => by simp [hit_samples]⟩
  | cons bad samples ih =>
    intro a h
    obtain ⟨a₁, ha₁, hm₁, hb₁⟩ := acc_v_sample_spec n a bad (h bad (List.mem_cons_self _ _))
    obtain ⟨a', ha', hm', hb'⟩ := ih a₁ (fun b hb => h b (List.mem_cons_of_mem _ hb))
    refine ⟨a', by rw [List.foldlM_cons, ha₁]; exact ha', ?_, ?_⟩
    · intro c
      rw [hm', hm₁, hit_samples_cons]
      by_cases hc : c < n
      · by_cases h0 : correct c bad ≠ 0
        · rw [if_pos ⟨hc, h0⟩, if_pos hc, if_pos hc, if_pos h0]
          simp only [List.map_cons, List.sum_cons]
          ring
        · rw [if_neg (fun hh => h0 hh.2), if_pos hc, if_pos hc, if_neg h0]
          ring
      · rw [if_neg (fun hh => hc hh.1), if_neg hc, if_neg hc]; ring
    · intro c
      rw [hb', hb₁, hit_samples_cons]
      by_cases hc : c < n
      · by_cases h0 : correct c bad ≠ 0
        · rw [if_pos ⟨hc, h0⟩, if_pos hc, if_pos hc, if_pos h0]
          simp only [List.length_cons]
          push_cast
          ring
        · rw [if_neg (fun hh => h0 hh.2), if_pos hc, if_pos hc, if_neg h0]
          ring
      · rw [if_neg (fun hh => hc hh.1), if_neg hc, if_neg hc]; ring

theorem sum_map_filter_of_zero (f : Nat → ℚ) (p : Nat → Bool) :
    ∀ (l : List Nat), (∀ c ∈ l, p c = false → f c = 0) →
      (l.map f).sum = ((l.filter p).map f).sum := by
  intro l
  induction l with
  | nil => intro _; rfl
  | cons c l ih =>
    intro h
    have ih' := ih (fun x hx => h x (List.mem_cons_of_mem _ hx))
    rw [List.filter_cons]
    cases hp : p c with
    | true => simp [ih']
    | false => simp [ih', h c (List.mem_cons_self _ _) hp]

/-- C28, counterexample. On one sample with two pixels, both predicted as class 0 and
the second of class 1, class 1 occurs in the targets and is never predicted
correctly: `acc_v` leaves it out of the mean and returns the mean class accuracy 1,
where the mean over the classes that occur, class 1 with accuracy 0, is 1/2. -/
theorem acc_v_leaves_out_missed_class :
    (acc_v missed_class_batch).toOption.map (fun res => (res.meanacc, res.clacc))
      = some (some 1, [1, 0]) ∧
    occurs 1 ⟨[0, 0], [0, 1]⟩ = 1 ∧ correct 1 ⟨[0, 0], [0, 1]⟩ = 0 ∧
    meanacc_over_present 2 missed_class_batch.samples = some (1 / 2) := by
  decide!

/-- C28, amended. For every segmentation batch with a class count that is not negative,
of samples with as many targets as predictions and at least one, the mean class
accuracy that `acc_v` returns is the mean, taken over exactly the classes that are
predicted correctly at least once in some sample, of the accuracy of the class:
its correctly predicted pixels over its target pixels, averaged over the samples in
which it is predicted correctly at least once.  A class that is never predicted
correctly is left out of the mean, and has accuracy 0 in `clacc`. -/
theorem acc_v_mean_class_accuracy (ad : VBatch) (hn : 0 ≤ ad.nclasses)
    (hshape : ∀ bad ∈ ad.samples, PixelShaped bad) :
    ∃ res, acc_v ad = .ok res ∧
      res.clacc = (List.range ad.nclasses.toNat).map (class_acc ad.samples) ∧
      res.meanacc = fdiv
        (((hit_classes ad.nclasses.toNat ad.samples).map (class_acc ad.samples)).sum)
        ((hit_classes ad.nclasses.toNat ad.samples).length : ℚ) ∧
      ∀ c, hit_samples c ad.samples = [] → class_acc ad.samples c = 0 := by
  obtain ⟨a, ha, hm, hb⟩ := acc_v_foldlM_spec ad.nclasses.toNat ad.samples
    (⟨0, fun _ => 0, fun _ => 0, fun _ => some 0, fun _ => 0⟩ : AccVAcc) hshape
  simp only [zero_add] at hm hb
  have hseen : ∀ c ∈ List.range ad.nclasses.toNat,
      decide (a.mean_acc_bs c > 0) = decide (hit_samples c ad.samples ≠ []) := by
    intro c hc
    rw [hb c, if_pos (List.mem_range.1 hc)]
    apply decide_eq_decide.2
    rw [gt_iff_lt, Nat.cast_pos, List.length_pos]
  have hacc : ∀ c ∈ List.range ad.nclasses.toNat,
      (if decide (a.mean_acc_bs c > 0) = true then a.mean_acc c / a.mean_acc_bs c
        else a.mean_acc c) = class_acc ad.samples c := by
    intro c hc
    rw [hseen c hc, hm c, hb c, if_pos (List.mem_range.1 hc)]
    unfold class_acc
    by_cases h0 : hit_samples c ad.samples = []
    · rw [if_neg (by simp [h0]), if_pos h0, h0]; rfl
    · rw [if_pos (by simpa using h0), if_neg h0, if_pos (List.mem_range.1 hc)]
  have hcl : (List.range ad.nclasses.toNat).map (fun c =>
      if decide (a.mean_acc_bs c > 0) = true then a.mean_acc c / a.mean_acc_bs c
        else a.mean_acc c) = (List.range ad.nclasses.toNat).map (class_acc ad.samples) :=
    List.map_congr_left hacc
  have hcount : (List.range ad.nclasses.toNat).countP (fun c => decide (a.mean_acc_bs c > 0))
      = (hit_classes ad.nclasses.toNat ad.samples).length := by
    unfold hit_classes
    rw [← List.countP_eq_length_filter]
    exact List.countP_congr (fun c hc => by rw [hseen c hc])
  have hzero : ∀ c, hit_samples c ad.samples = [] → class_acc ad.samples c = 0 := by
    intro c h0
    unfold class_acc
    rw [if_pos h0]
  have hsum : ((List.range ad.nclasses.toNat).map (class_acc ad.samples)).sum
      = ((hit_classes ad.nclasses.toNat ad.samples).map (class_acc ad.samples)).sum := by
    unfold hit_classes
    apply sum_map_filter_of_zero
    intro c _ hc
    exact hzero c (by simpa using hc)
  unfold acc_v
  simp only [if_neg (not_lt.2 hn), bind, Except.bind, pure, Except.pure, ha]
  refine ⟨_, rfl, ?_, ?_, hzero⟩
  · exact hcl
  · simp only
    rw [hcl, hcount, hsum]

theorem acc_v_mean_class_accuracy_witness :
    (0 : Int) ≤ pixel_batch.nclasses ∧ (∀ bad ∈ pixel_batch.samples, PixelShaped bad) ∧
    (acc_v pixel_batch).toOption.map (fun res => (res.meanacc, res.clacc))
      = some (some 1, [1, 1]) ∧
    ∃ res, acc_v pixel_batch = .ok res ∧
      res.clacc = (List.range pixel_batch.nclasses.toNat).map (class_acc pixel_batch.samples) ∧
      res.meanacc = fdiv
        (((hit_classes pixel_batch.nclasses.toNat pixel_batch.samples).map
          (class_acc pixel_batch.samples)).sum)
        ((hit_classes pixel_batch.nclasses.toNat pixel_batch.samples).length : ℚ) ∧
      ∀ c, hit_samples c pixel_batch.samples = [] → class_acc pixel_batch.samples c = 0 :=
  ⟨by decide,
    by intro bad hb
       simp only [pixel_batch, List.mem_cons, List.mem_singleton, List.not_mem_nil,
         or_false] at hb
       rcases hb with rfl | rfl <;> exact ⟨by simp, rfl⟩,
    by decide!,
    acc_v_mean_class_accuracy pixel_batch (by decide)
      (by intro bad hb
          simp only [pixel_batch, List.mem_cons, List.mem_singleton, List.not_mem_nil,
            or_false] at hb
          rcases hb with rfl | rfl <;> exact ⟨by simp, rfl⟩)⟩

/-! ## The rank statistic of `auc` -/

theorem wrap32_add_left (a b : Int) : wrap32 (wrap32 a + b) = wrap32 (a + b) := by
  unfold wrap32
  omega

theorem wrap32_of_fits (a : Int) (h0 : 0 ≤ a) (h1 : a < 2147483648) : wrap32 a = a := by
  unfold wrap32
  omega

theorem posw_cons (t : ℚ) (x : PredictionAndAnswer) (l : List PredictionAndAnswer) :
    posw t (x :: l) = x.answer * pair_weight t x.prediction + posw t l := by
  simp [posw]

theorem negeq_cons (t : ℚ) (x : PredictionAndAnswer) (l : List PredictionAndAnswer) :
    negeq t (x :: l) = (1 - x.answer) * (if x.prediction = t then 1 else 0) + negeq t l := by
  simp [negeq]

theorem posw_of_lt (t : ℚ) : ∀ (l : List PredictionAndAnswer),
    (∀ n ∈ l, t < n.prediction) → posw t l = 2 * (l.map (fun pi => pi.answer)).sum := by
  intro l
  induction l with
  | nil => intro _; simp [posw]
  | cons x l ih =>
    intro h
    rw [posw_cons, ih (fun n hn => h n (List.mem_cons_of_mem _ hn)), List.map_cons,
      List.sum_cons]
    unfold pair_weight
    rw [if_pos (h x (List.mem_cons_self _ _))]
    ring

theorem negeq_of_lt (t : ℚ) : ∀ (l : List PredictionAndAnswer),
    (∀ n ∈ l, t < n.prediction) → negeq t l = 0 := by
  intro l
  induction l with
  | nil => intro _; simp [negeq]
  | cons x l ih =>
    intro h
    rw [negeq_cons, ih (fun n hn => h n (List.mem_cons_of_mem _ hn)),
      if_neg (ne_of_gt (h x (List.mem_cons_self _ _)))]
    ring

theorem cross_tail (x : PredictionAndAnswer) (r : List PredictionAndAnswer) :
    ∀ (l : List PredictionAndAnswer), (∀ n ∈ l, x.prediction ≤ n.prediction) →
      (l.map (fun n => (1 - n.answer) * posw n.prediction (x :: r))).sum
        = x.answer * negeq x.prediction l
          + (l.map (fun n => (1 - n.answer) * posw n.prediction r)).sum := by
  intro l
  induction l with
  | nil => intro _; simp [negeq]
  | cons n l ih =>
    intro h
    rw [List.map_cons, List.sum_cons, ih (fun m hm => h m (List.mem_cons_of_mem _ hm)),
      List.map_cons, List.sum_cons, negeq_cons, posw_cons]
    have hn := h n (List.mem_cons_self _ _)
    have hw : pair_weight n.prediction x.prediction
        = if n.prediction = x.prediction then 1 else 0 := by
      unfold pair_weight
      rw [if_neg (not_lt.2 hn)]
    rw [hw]
    ring

theorem cross_cons (x : PredictionAndAnswer) (l : List PredictionAndAnswer)
    (h : ∀ n ∈ l, x.prediction ≤ n.prediction) :
    cross (x :: l) = (1 - x.answer) * (x.answer + posw x.prediction l)
      + x.answer * negeq x.prediction l + cross l := by
  unfold cross
  rw [List.map_cons, List.sum_cons, cross_tail x l l h, posw_cons]
  have hw : pair_weight x.prediction x.prediction = 1 := by
    unfold pair_weight
    rw [if_neg (lt_irrefl _), if_pos rfl]
  rw [hw]
  ring

theorem sweep_spec : ∀ (rest : List PredictionAndAnswer) (st : AucSweep),
    rest.Pairwise (fun a b => a.prediction ≤ b.prediction) →
    (∀ x ∈ rest, st.threshold ≤ x.prediction) →
    st.truePos = (rest.map (fun pi => pi.answer)).sum →
    wrap32 (closed_accum (rest.foldl auc_step st))
      = wrap32 (st.accum + st.tn * (posw st.threshold rest + (st.tp0 - st.truePos))
          + cross rest + (st.tp0 - st.truePos) * negeq st.threshold rest) := by
  intro rest
  induction rest with
  | nil =>
    intro st _ _ htp
    simp only [List.map_nil, List.sum_nil] at htp
    simp only [List.foldl_nil, closed_accum, posw, negeq, cross, List.map_nil, List.sum_nil,
      htp]
    congr 1
    ring
  | cons x rest ih =>
    intro st hs hthr htp
    rw [List.pairwise_cons] at hs
    rw [List.map_cons, List.sum_cons] at htp
    rw [List.foldl_cons]
    have hx := hthr x (List.mem_cons_self _ _)
    by_cases hne : x.prediction ≠ st.threshold
    · have hlt : st.threshold < x.prediction := lt_of_le_of_ne hx (Ne.symm hne)
      have hstep : auc_step st x =
          { threshold := x.prediction
            accum := wrap32 (st.accum + st.tn * (st.truePos + st.tp0))
            tp0 := st.truePos
            tn := 0 + (1 - x.answer)
            truePos := st.truePos - x.answer } := by
        simp only [auc_step, if_pos hne]
      rw [ih (auc_step st x) hs.2 (by rw [hstep]; exact hs.1) (by rw [hstep]; simp only; omega)]
      rw [hstep]
      simp only
      have hall : ∀ n ∈ x :: rest, st.threshold < n.prediction := by
        intro n hn
        rcases List.mem_cons.1 hn with rfl | hn
        · exact hlt
        · exact lt_of_lt_of_le hlt (hs.1 n hn)
      rw [posw_of_lt st.threshold (x :: rest) hall, negeq_of_lt st.threshold (x :: rest) hall,
        cross_cons x rest hs.1, List.map_cons, List.sum_cons, ← htp]
      rw [show wrap32 (st.accum + st.tn * (st.truePos + st.tp0))
          + (0 + (1 - x.answer)) * (posw x.prediction rest
              + (st.truePos - (st.truePos - x.answer)))
          + cross rest + (st.truePos - (st.truePos - x.answer)) * negeq x.prediction rest
        = wrap32 (st.accum + st.tn * (st.truePos + st.tp0))
          + ((1 - x.answer) * (x.answer + posw x.prediction rest)
              + x.answer * negeq x.prediction rest + cross rest) by ring]
      rw [wrap32_add_left]
      congr 1
      ring
    · have heq : x.prediction = st.threshold := not_not.1 hne
      have hstep : auc_step st x =
          { threshold := st.threshold
            accum := st.accum
            tp0 := st.tp0
            tn := st.tn + (1 - x.answer)
            truePos := st.truePos - x.answer } := by
        simp only [auc_step, if_neg hne]
      rw [ih (auc_step st x) hs.2 (by rw [hstep, ← heq]; exact hs.1)
        (by rw [hstep]; simp only; omega)]
      rw [hstep]
      simp only
      rw [posw_cons, negeq_cons, cross_cons x rest hs.1, heq]
      have hw : pair_weight st.threshold st.threshold = 1 := by
        unfold pair_weight
        rw [if_neg (lt_irrefl _), if_pos rfl]
      rw [hw, if_pos rfl]
      congr 1
      ring

theorem auc_fill_eq : ∀ (pred targets : List ℚ), pred.length ≤ targets.length →
    auc_fill pred targets = .ok (scored pred targets) := by
  intro pred
  induction pred with
  | nil => intro targets _; rfl
  | cons x pred ih =>
    intro targets hlen
    cases targets with
    | nil => simp at hlen
    | cons t targets =>
      simp only [auc_fill, ih targets (by simpa using hlen)]
      rfl

theorem posw_perm (t : ℚ) {l l' : List PredictionAndAnswer} (h : l.Perm l') :
    posw t l = posw t l' := by
  unfold posw
  exact (h.map _).sum_eq

theorem cross_perm {l l' : List PredictionAndAnswer} (h : l.Perm l') : cross l = cross l' := by
  unfold cross
  have e : (fun n : PredictionAndAnswer => (1 - n.answer) * posw n.prediction l)
      = (fun n : PredictionAndAnswer => (1 - n.answer) * posw n.prediction l') := by
    funext n
    rw [posw_perm n.prediction h]
  rw [e]
  exact (h.map _).sum_eq

theorem sum_answers_binary : ∀ (l : List PredictionAndAnswer),
    (∀ e ∈ l, e.answer = 0 ∨ e.answer = 1) →
    (l.map (fun pi => pi.answer)).sum = (positives l : Int) ∧
    (l.length : Int) = (positives l : Int) + (negatives l : Int) := by
  intro l
  induction l with
  | nil => intro _; simp [positives, negatives]
  | cons x l ih =>
    intro h
    obtain ⟨ih1, ih2⟩ := ih (fun e he => h e (List.mem_cons_of_mem _ he))
    unfold positives negatives at ih2 ⊢
    unfold positives at ih1
    rw [List.map_cons, List.sum_cons, ih1, List.countP_cons, List.countP_cons, List.length_cons]
    rcases h x (List.mem_cons_self _ _) with h0 | h1
    · rw [h0]
      rw [if_neg (by decide), if_pos (by decide)]
      push_cast
      omega
    · rw [h1]
      rw [if_pos (by decide), if_neg (by decide)]
      push_cast
      omega

theorem posw_binary (n : PredictionAndAnswer) (hn : n.answer = 0) :
    ∀ (l : List PredictionAndAnswer), (∀ e ∈ l, e.answer = 0 ∨ e.answer = 1) →
    posw n.prediction l = 2 * (l.countP (is_higher n) : Int) + (l.countP (is_tied n) : Int) ∧
    0 ≤ posw n.prediction l ∧ posw n.prediction l ≤ 2 * (positives l : Int) := by
  intro l
  induction l with
  | nil => intro _; simp [posw, positives]
  | cons x l ih =>
    intro h
    obtain ⟨ih1, ih2, ih3⟩ := ih (fun e he => h e (List.mem_cons_of_mem _ he))
    unfold positives at ih3 ⊢
    rw [posw_cons, List.countP_cons, List.countP_cons, List.countP_cons]
    unfold pair_weight
    rcases h x (List.mem_cons_self _ _) with h0 | h1
    · have e1 : is_higher n x = false := by simp [is_higher, h0]
      have e2 : is_tied n x = false := by simp [is_tied, h0]
      have e3 : decide (x.answer = 1) = false := by simp [h0]
      rw [e1, e2, e3, h0]
      simp only [Bool.false_eq_true, if_false, zero_mul, zero_add, add_zero]
      exact ⟨ih1, ih2, ih3⟩
    · have e3 : decide (x.answer = 1) = true := by simp [h1]
      rw [e3, h1]
      by_cases hlt : n.prediction < x.prediction
      · have e1 : is_higher n x = true := by simp [is_higher, hn, h1, hlt]
        have e2 : is_tied n x = false := by simp [is_tied, ne_of_lt hlt]
        rw [e1, e2, if_pos hlt]
        simp only [Bool.false_eq_true, if_false, if_true, add_zero]
        push_cast
        omega
      · by_cases heq : n.prediction = x.prediction
        · have e1 : is_higher n x = false := by simp [is_higher, hlt]
          have e2 : is_tied n x = true := by simp [is_tied, hn, h1, heq]
          rw [e1, e2, if_neg hlt, if_pos heq]
          simp only [Bool.false_eq_true, if_false, if_true, add_zero]
          push_cast
          omega
        · have e1 : is_higher n x = false := by simp [is_higher, hlt]
          have e2 : is_tied n x = false := by simp [is_tied, heq]
          rw [e1, e2, if_neg hlt, if_neg heq]
          simp only [Bool.false_eq_true, if_false, if_true, add_zero]
          push_cast
          omega

theorem cross_binary_aux (r : List PredictionAndAnswer)
    (hr : ∀ e ∈ r, e.answer = 0 ∨ e.answer = 1) :
    ∀ (l : List PredictionAndAnswer), (∀ e ∈ l, e.answer = 0 ∨ e.answer = 1) →
      (l.map (fun n => (1 - n.answer) * posw n.prediction r)).sum
        = 2 * (((l.map (fun n => r.countP (is_higher n))).sum : Nat) : Int)
          + (((l.map (fun n => r.countP (is_tied n))).sum : Nat) : Int) ∧
      0 ≤ (l.map (fun n => (1 - n.answer) * posw n.prediction r)).sum ∧
      (l.map (fun n => (1 - n.answer) * posw n.prediction r)).sum
        ≤ 2 * (positives r : Int) * (negatives l : Int) := by
  intro l
  induction l with
  | nil => intro _; simp [negatives]
  | cons n l ih =>
    intro h
    obtain ⟨ih1, ih2, ih3⟩ := ih (fun e he => h e (List.mem_cons_of_mem _ he))
    unfold negatives at ih3 ⊢
    simp only [List.map_cons, List.sum_cons, List.countP_cons]
    rcases h n (List.mem_cons_self _ _) with h0 | h1
    · obtain ⟨hp1, hp2, hp3⟩ := posw_binary n h0 r hr
      have e3 : decide (n.answer = 0) = true := by simp [h0]
      rw [e3, h0]
      simp only [sub_zero, one_mul, if_true, Nat.cast_add, Nat.cast_one]
      refine ⟨by rw [hp1, ih1]; ring, by omega, ?_⟩
      nlinarith
    · have e1 : r.countP (is_higher n) = 0 := by
        rw [List.countP_eq_zero]
        intro p _
        simp [is_higher, h1]
      have e2 : r.countP (is_tied n) = 0 := by
        rw [List.countP_eq_zero]
        intro p _
        simp [is_tied, h1]
      have e3 : decide (n.answer = 0) = false := by simp [h1]
      rw [e1, e2, e3, h1]
      simp only [sub_self, zero_mul, zero_add, Bool.false_eq_true, if_false, add_zero]
      exact ⟨ih1, ih2, ih3⟩

theorem cross_binary (l : List PredictionAndAnswer)
    (h : ∀ e ∈ l, e.answer = 0 ∨ e.answer = 1) :
    cross l = 2 * (higher_pairs l : Int) + (tied_pairs l : Int) ∧
    0 ≤ cross l ∧ cross l ≤ 2 * (positives l : Int) * (negatives l : Int) := by
  unfold cross higher_pairs tied_pairs
  exact cross_binary_aux l h l h

theorem sorted_insertionSort_prediction (l : List PredictionAndAnswer) :
    (l.insertionSort (fun p1 p2 => p1.prediction ≤ p2.prediction)).Pairwise
      (fun a b => a.prediction ≤ b.prediction) := by
  haveI : IsTotal PredictionAndAnswer (fun p1 p2 => p1.prediction ≤ p2.prediction) :=
    ⟨fun a b => le_total a.prediction b.prediction⟩
  haveI : IsTrans PredictionAndAnswer (fun p1 p2 => p1.prediction ≤ p2.prediction) :=
    ⟨fun a b c hab hbc => le_trans hab hbc⟩
  exact List.sorted_insertionSort (fun p1 p2 => p1.prediction ≤ p2.prediction) l

theorem auc_core (pred targets : List ℚ) (l : List PredictionAndAnswer)
    (hfill : auc_fill pred targets = .ok l)
    (hbin : ∀ e ∈ l, e.answer = 0 ∨ e.answer = 1)
    (hP : 1 ≤ positives l) (hN : 1 ≤ negatives l)
    (hfit : 2 * positives l * negatives l < 2147483648) :
    auc pred targets
      = .ok (some ((cross l : ℚ) / (2 * (positives l : ℚ) * (negatives l : ℚ)))) := by
  obtain ⟨hsum, hcount⟩ := sum_answers_binary l hbin
  obtain ⟨_, hc0, hc1⟩ := cross_binary l hbin
  have hperm := List.perm_insertionSort (fun p1 p2 : PredictionAndAnswer =>
    p1.prediction ≤ p2.prediction) l
  have hsorted := sorted_insertionSort_prediction l
  unfold auc
  rw [hfill]
  simp only [Except.bind, bind, ones_sorted, hsum]
  have hguard : ¬ ((0 : Int) = (positives l : Int) ∨ (l.length : Int) = (positives l : Int)) := by
    rintro (h | h) <;> omega
  rw [if_neg hguard]
  generalize hS : l.insertionSort (fun p1 p2 => p1.prediction ≤ p2.prediction) = s
    at hperm hsorted
  cases s with
  | nil =>
    have := hperm.length_eq
    simp only [List.length_nil] at this
    omega
  | cons p0 rest =>
    simp only
    have hspec := sweep_spec (p0 :: rest) ⟨p0.prediction, 0, positives l, 0, positives l⟩
      hsorted
      (by
        intro x hx
        rcases List.mem_cons.1 hx with rfl | hx
        · exact le_refl _
        · exact (List.pairwise_cons.1 hsorted).1 x hx)
      (by
        simp only
        rw [← hsum]
        exact ((hperm.map (fun pi => pi.answer)).sum_eq).symm)
    unfold closed_accum at hspec
    rw [hspec]
    simp only [zero_mul, zero_add, sub_self, add_zero]
    rw [cross_perm hperm]
    have hfit' : (2 * (positives l : Int) * (negatives l : Int)) < 2147483648 := by
      exact_mod_cast hfit
    rw [wrap32_of_fits (cross l) hc0 (by omega)]
    have hden : 2 * (positives l : Int) * ((l.length : Int) - (positives l : Int))
        = 2 * (positives l : Int) * (negatives l : Int) := by
      rw [hcount]; ring
    have hpos : 0 < 2 * (positives l : Int) * (negatives l : Int) := by
      have h1 : (1 : Int) ≤ (positives l : Int) := by exact_mod_cast hP
      have h2 : (1 : Int) ≤ (negatives l : Int) := by exact_mod_cast hN
      nlinarith
    rw [hden, wrap32_of_fits _ (le_of_lt hpos) hfit']
    have hne : ((2 * (positives l : Int) * (negatives l : Int) : Int) : ℚ) ≠ 0 := by
      exact_mod_cast ne_of_gt hpos
    unfold fdiv
    rw [if_neg hne]
    simp only [pure, Except.pure]
    push_cast
    rfl

theorem scored_binary (pred targets : List ℚ) (h : ∀ t ∈ targets, t = 0 ∨ t = 1) :
    ∀ e ∈ scored pred targets, e.answer = 0 ∨ e.answer = 1 := by
  intro e he
  unfold scored at he
  rw [List.mem_iff_getElem] at he
  obtain ⟨i, hi, rfl⟩ := he
  rw [List.getElem_zipWith]
  simp only [List.length_zipWith, lt_min_iff] at hi
  rcases h targets[i] (List.getElem_mem _) with h0 | h1
  · left; rw [h0]; show to_int 0 = 0; decide!
  · right; rw [h1]; show to_int 1 = 1; decide!

/-- C26, counterexample. The scores 1 and 1 + 2^-30 of a negative and a positive are
the same `float`: `auc` takes the pair as tied and returns 1/2, where the positive
has the strictly higher score and the rank statistic of the scores as given is 1.
The scores 10^-60 and 10^-50 both convert to the `float` 0, and the scores 10^39 and
10^40 both to the infinity, with the same result. -/
theorem auc_rounds_scores :
    auc [1, 1 + 1 / 2 ^ 30] [0, 1] = .ok (some (1 / 2)) ∧
    rank_statistic (unrounded [1, 1 + 1 / 2 ^ 30] [0, 1]) = 1 ∧
    rank_statistic (scored [1, 1 + 1 / 2 ^ 30] [0, 1]) = 1 / 2 ∧
    auc [1 / 10 ^ 60, 1 / 10 ^ 50] [0, 1] = .ok (some (1 / 2)) ∧
    rank_statistic (unrounded [1 / 10 ^ 60, 1 / 10 ^ 50] [0, 1]) = 1 ∧
    auc [10 ^ 39, 10 ^ 40] [0, 1] = .ok (some (1 / 2)) := by
  decide!

/-- C26, amended. For every prediction list and binary target list, one target per
prediction at least, with `P ≥ 1` positives and `N ≥ 1` negatives and `2 * P * N` below
`2^31`, `auc(pred, targets)` is the rank statistic of the samples with their scores
rounded to `float`: the pairs of a negative and a positive whose positive has the
strictly higher rounded score, plus half the pairs with equal rounded scores, over
`P * N`.  It does not depend on the order of the samples. -/
theorem auc_rank_statistic (pred targets : List ℚ) (hlen : pred.length ≤ targets.length)
    (hbin : ∀ t ∈ targets, t = 0 ∨ t = 1)
    (hP : 1 ≤ positives (scored pred targets)) (hN : 1 ≤ negatives (scored pred targets))
    (hfit : 2 * positives (scored pred targets) * negatives (scored pred targets)
      < 2147483648) :
    auc pred targets = .ok (some (rank_statistic (scored pred targets))) ∧
    ∀ pred' targets' : List ℚ, pred'.length ≤ targets'.length →
      (scored pred' targets').Perm (scored pred targets) →
      auc pred' targets' = auc pred targets := by
  have hb := scored_binary pred targets hbin
  have hcore := auc_core pred targets _ (auc_fill_eq pred targets hlen) hb hP hN hfit
  constructor
  · rw [hcore]
    obtain ⟨hc, _, _⟩ := cross_binary _ hb
    rw [hc]
    unfold rank_statistic
    have h1 : ((positives (scored pred targets) : ℕ) : ℚ) ≠ 0 := by
      have : positives (scored pred targets) ≠ 0 := by omega
      exact_mod_cast this
    have h2 : ((negatives (scored pred targets) : ℕ) : ℚ) ≠ 0 := by
      have : negatives (scored pred targets) ≠ 0 := by omega
      exact_mod_cast this
    congr 2
    push_cast
    field_simp
    ring
  · intro pred' targets' hlen' hperm
    have hb' : ∀ e ∈ scored pred' targets', e.answer = 0 ∨ e.answer = 1 :=
      fun e he => hb e (hperm.mem_iff.1 he)
    have hp : positives (scored pred' targets') = positives (scored pred targets) :=
      hperm.countP_eq _
    have hn : negatives (scored pred' targets') = negatives (scored pred targets) :=
      hperm.countP_eq _
    rw [hcore, auc_core pred' targets' _ (auc_fill_eq pred' targets' hlen') hb'
      (by rw [hp]; exact hP) (by rw [hn]; exact hN) (by rw [hp, hn]; exact hfit),
      cross_perm hperm, hp, hn]

theorem auc_rank_statistic_witness :
    ([1 / 10, 4 / 10, 4 / 10, 8 / 10] : List ℚ).length ≤ ([0, 1, 0, 1] : List ℚ).length ∧
    (∀ t ∈ ([0, 1, 0, 1] : List ℚ), t = 0 ∨ t = 1) ∧
    1 ≤ positives (scored [1 / 10, 4 / 10, 4 / 10, 8 / 10] [0, 1, 0, 1]) ∧
    1 ≤ negatives (scored [1 / 10, 4 / 10, 4 / 10, 8 / 10] [0, 1, 0, 1]) ∧
    2 * positives (scored [1 / 10, 4 / 10, 4 / 10, 8 / 10] [0, 1, 0, 1])
      * negatives (scored [1 / 10, 4 / 10, 4 / 10, 8 / 10] [0, 1, 0, 1]) < 2147483648 ∧
    rank_statistic (scored [1 / 10, 4 / 10, 4 / 10, 8 / 10] [0, 1, 0, 1]) = 7 / 8 ∧
    (auc [1 / 10, 4 / 10, 4 / 10, 8 / 10] [0, 1, 0, 1]
        = .ok (some (rank_statistic (scored [1 / 10, 4 / 10, 4 / 10, 8 / 10] [0, 1, 0, 1]))) ∧
      ∀ pred' targets' : List ℚ, pred'.length ≤ targets'.length →
        (scored pred' targets').Perm (scored [1 / 10, 4 / 10, 4 / 10, 8 / 10] [0, 1, 0, 1]) →
        auc pred' targets' = auc [1 / 10, 4 / 10, 4 / 10, 8 / 10] [0, 1, 0, 1]) :=
  ⟨by decide, by decide, by decide!, by decide!, by decide!, by decide!,
    auc_rank_statistic _ _ (by decide) (by decide) (by decide!) (by decide!) (by decide!)⟩

/-! ## Guarded divisions -/

theorem to_int_lt_of_lt (n : Nat) (t : ℚ) (h0 : 0 ≤ t) (h : t < (n : ℚ)) :
    (to_int t).toNat < n := by
  unfold to_int
  rw [if_pos h0]
  have h1 : ¬ ((n : Int) ≤ Rat.floor t) := by
    intro hc
    have := Rat.le_floor.1 hc
    have : (n : ℚ) ≤ t := by exact_mod_cast this
    linarith
  have h2 : (0 : Int) ≤ Rat.floor t := Rat.le_floor.2 (by exact_mod_cast h0)
  omega

theorem total_pos (ad : EvalBatch) (hne : ad.samples ≠ [])
    (hwf : ∀ bad ∈ ad.samples,
      0 ≤ bad.target ∧ bad.target < ad.nclasses ∧ (bad.pred.length : Int) ≤ ad.nclasses) :
    0 < total (conf_count ad.samples) ad.nclasses.toNat := by
  obtain ⟨bad, hb⟩ := List.exists_mem_of_ne_nil _ hne
  obtain ⟨h0, h1, h2⟩ := hwf bad hb
  have hn : (0 : Int) < ad.nclasses := by
    have : (0 : ℚ) < ad.nclasses := lt_of_le_of_lt h0 h1
    exact_mod_cast this
  have hi : max_element bad.pred < ad.nclasses.toNat := by
    have := max_element_lt_of_le bad.pred ad.nclasses h2 hn
    omega
  have hj : (to_int bad.target).toNat < ad.nclasses.toNat := by
    apply to_int_lt_of_lt _ _ h0
    have : ((ad.nclasses.toNat : Int) : ℚ) = (ad.nclasses : ℚ) := by
      rw [Int.toNat_of_nonneg (le_of_lt hn)]
    calc bad.target < (ad.nclasses : ℚ) := h1
      _ = ((ad.nclasses.toNat : Int) : ℚ) := this.symm
      _ = ((ad.nclasses.toNat : Nat) : ℚ) := by push_cast; rfl
  have hcell : 1 ≤ conf_count ad.samples (max_element bad.pred) (to_int bad.target).toNat := by
    unfold conf_count
    have : 0 < ad.samples.countP (fun b => decide
        (max_element b.pred = max_element bad.pred
          ∧ (to_int b.target).toNat = (to_int bad.target).toNat)) :=
      List.countP_pos_iff.2 ⟨bad, hb, by simp⟩
    exact_mod_cast this
  have hcol : conf_count ad.samples (max_element bad.pred) (to_int bad.target).toNat
      ≤ col_sum (conf_count ad.samples) ad.nclasses.toNat (to_int bad.target).toNat := by
    unfold col_sum
    apply List.single_le_sum
    · intro x hx
      obtain ⟨i, _, rfl⟩ := List.mem_map.1 hx
      exact conf_count_nonneg _ _ _
    · exact List.mem_map.2 ⟨_, List.mem_range.2 hi, rfl⟩
  have htot : col_sum (conf_count ad.samples) ad.nclasses.toNat (to_int bad.target).toNat
      ≤ total (conf_count ad.samples) ad.nclasses.toNat := by
    unfold total
    apply List.single_le_sum
    · intro x hx
      obtain ⟨j, _, rfl⟩ := List.mem_map.1 hx
      unfold col_sum
      exact sum_map_nonneg _ _ (fun i _ => conf_count_nonneg _ _ _)
    · exact List.mem_map.2 ⟨_, List.mem_range.2 hj, rfl⟩
  linarith

theorem mf1_guarded (ad : EvalBatch) (hne : ad.samples ≠ [])
    (hwf : ∀ bad ∈ ad.samples,
      0 ≤ bad.target ∧ bad.target < ad.nclasses ∧ (bad.pred.length : Int) ≤ ad.nclasses) :
    ∃ res, mf1 ad = .ok res ∧ res.acc.isSome = true ∧ res.precision.isSome = true ∧
      res.recall_.isSome = true ∧ ∀ d ∈ res.conf_diag, d.isSome = true := by
  obtain ⟨bad, hb⟩ := List.exists_mem_of_ne_nil _ hne
  obtain ⟨h0, h1, _⟩ := hwf bad hb
  have hn : (0 : Int) < ad.nclasses := by
    have : (0 : ℚ) < ad.nclasses := lt_of_le_of_lt h0 h1
    exact_mod_cast this
  have hnq : ((ad.nclasses : Int) : ℚ) ≠ 0 := by exact_mod_cast ne_of_gt hn
  have hC : conf_fill ad = .ok (conf_count ad.samples) := by
    rw [conf_fill_eq, if_neg (not_lt.2 (le_of_lt hn)),
      findSome?_conf_check_none ad.nclasses ad.samples hwf]
  obtain ⟨res, hres, hacc, hprec, hrec, _⟩ :=
    mf1_eq_of_conf ad _ hC (fun i j => conf_count_nonneg _ i j)
  have hdiag : res.conf_diag = (List.range ad.nclasses.toNat).map (fun j =>
      fdiv (conf_count ad.samples j j)
        (((List.range ad.nclasses.toNat).map (fun i => conf_count ad.samples i j)).sum
          + eps)) := by
    unfold mf1 at hres
    rw [hC] at hres
    simp only [Except.bind, bind, pure, Except.pure, Except.ok.injEq] at hres
    rw [← hres]
  refine ⟨res, hres, ?_, ?_, ?_, ?_⟩
  · rw [hacc]
    unfold fdiv
    rw [if_neg (ne_of_gt (total_pos ad hne hwf))]
    rfl
  · rw [hprec]
    unfold fdiv
    rw [if_neg hnq]
    rfl
  · rw [hrec]
    unfold fdiv
    rw [if_neg hnq]
    rfl
  · intro d hd
    rw [hdiag] at hd
    obtain ⟨j, _, rfl⟩ := List.mem_map.1 hd
    have hpos := sum_map_nonneg (List.range ad.nclasses.toNat)
      (fun i => conf_count ad.samples i j) (fun i _ => conf_count_nonneg _ i j)
    have := eps_pos
    unfold fdiv
    rw [if_neg (by linarith)]
    rfl

theorem mcc_guarded (sqrt : ℚ → ℚ) (ad : EvalBatch) (hsqrt : ∀ x, 0 < x → sqrt x ≠ 0)
    (h2 : ad.nclasses = 2)
    (hwf : ∀ bad ∈ ad.samples,
      0 ≤ bad.target ∧ bad.target < ad.nclasses ∧ (bad.pred.length : Int) ≤ ad.nclasses) :
    ∃ v, mcc sqrt ad = .ok (some v) := by
  have hC : conf_fill ad = .ok (conf_count ad.samples) := by
    rw [conf_fill_eq, if_neg (by rw [h2]; decide),
      findSome?_conf_check_none ad.nclasses ad.samples hwf]
  have h00 := conf_count_nonneg ad.samples 0 0
  have h11 := conf_count_nonneg ad.samples 1 1
  have h01 := conf_count_nonneg ad.samples 0 1
  have h10 := conf_count_nonneg ad.samples 1 0
  unfold mcc
  rw [hC]
  simp only [Except.bind, bind, pure, Except.pure]
  rw [if_neg (by rw [h2]; decide)]
  generalize conf_count ad.samples 0 0 = tp at h00 ⊢
  generalize conf_count ad.samples 1 1 = tn at h11 ⊢
  generalize conf_count ad.samples 0 1 = fn at h01 ⊢
  generalize conf_count ad.samples 1 0 = fp at h10 ⊢
  have hden : 0 ≤ (tp + fp) * (tp + fn) * (tn + fp) * (tn + fn) := by positivity
  have hpos : 0 < (if (tp + fp) * (tp + fn) * (tn + fp) * (tn + fn) = 0 then (1 : ℚ)
      else (tp + fp) * (tp + fn) * (tn + fp) * (tn + fn)) := by
    split
    · exact zero_lt_one
    · rename_i h
      exact lt_of_le_of_ne hden (Ne.symm h)
  unfold fdiv
  rw [if_neg (hsqrt _ hpos)]
  exact ⟨_, rfl⟩

theorem auc_guarded (pred targets : List ℚ) (hlen : pred.length ≤ targets.length)
    (hbin : ∀ t ∈ targets, t = 0 ∨ t = 1)
    (hfit : 2 * positives (scored pred targets) * negatives (scored pred targets)
      < 2147483648) :
    ∃ v, auc pred targets = .ok (some v) := by
  have hb := scored_binary pred targets hbin
  obtain ⟨hsum, hcount⟩ := sum_answers_binary _ hb
  by_cases hP : positives (scored pred targets) = 0
  · exact ⟨1, auc_of_ones pred targets _ (auc_fill_eq pred targets hlen)
      (Or.inl (by rw [hsum, hP]; rfl))⟩
  · by_cases hN : negatives (scored pred targets) = 0
    · exact ⟨1, auc_of_ones pred targets _ (auc_fill_eq pred targets hlen)
        (Or.inr (by rw [hsum, hcount, hN]; simp))⟩
    · exact ⟨_, auc_core pred targets _ (auc_fill_eq pred targets hlen) hb (by omega)
        (by omega) hfit⟩

theorem mcll_foldlM_some (log : ℚ → ℚ) :
    ∀ (l : List Sample) (ll : ℚ),
      (∀ bad ∈ l, 0 ≤ bad.target ∧
        ∃ p, bad.pred[(to_int bad.target).toNat]? = some p ∧ 0 < p) →
      ∃ v, l.foldlM (mcll_step log) (some ll) = .ok (some v) := by
  intro l
  induction l with
  | nil => intro ll _; exact ⟨ll, rfl⟩
  | cons bad l ih =>
    intro ll h
    obtain ⟨h0, p, hp, hpos⟩ := h bad (List.mem_cons_self _ _)
    have hstep : mcll_step log (some ll) bad = .ok (some (ll - log p)) := by
      unfold mcll_step
      rw [if_neg (by linarith), hp]
      simp only [if_neg (not_le.2 hpos), Option.map_some', pure, Except.pure]
    rw [List.foldlM_cons, hstep]
    exact ih _ (fun b hb => h b (List.mem_cons_of_mem _ hb))

theorem mcll_guarded (log : ℚ → ℚ) (ad : EvalBatch) (hne : ad.samples ≠ [])
    (h : ∀ bad ∈ ad.samples, 0 ≤ bad.target ∧
      ∃ p, bad.pred[(to_int bad.target).toNat]? = some p ∧ 0 < p) :
    ∃ v, mcll log ad = .ok (some v) := by
  obtain ⟨v, hv⟩ := mcll_foldlM_some log ad.samples 0 h
  have hb : (ad.batch_size : ℚ) ≠ 0 := by
    unfold EvalBatch.batch_size
    have : ad.samples.length ≠ 0 := fun h0 => hne (List.length_eq_zero.1 h0)
    exact_mod_cast this
  unfold mcll
  rw [hv]
  simp only [bind, Except.bind, pure, Except.pure, Option.some_bind]
  unfold fdiv
  rw [if_neg hb]
  exact ⟨_, rfl⟩

theorem sqrt_model_ne_zero (x : ℚ) (h : 0 < x) : sqrt_model x ≠ 0 := by
  unfold sqrt_model
  have hnum : 0 < x.num := Rat.num_pos.2 h
  have h1 : 0 < Nat.sqrt x.num.natAbs := Nat.sqrt_pos.2 (by omega)
  have h2 : 0 < Nat.sqrt x.den := Nat.sqrt_pos.2 x.den_pos
  have h1' : (0 : ℚ) < (Nat.sqrt x.num.natAbs : ℚ) := by exact_mod_cast h1
  have h2' : (0 : ℚ) < (Nat.sqrt x.den : ℚ) := by exact_mod_cast h2
  exact ne_of_gt (div_pos h1' h2')

theorem acc_v_guarded (ad : VBatch) (hn : 0 ≤ ad.nclasses) (hne : ad.samples ≠ [])
    (hshape : ∀ bad ∈ ad.samples, PixelShaped bad) :
    ∃ res, acc_v ad = .ok res ∧ res.acc.isSome = true := by
  obtain ⟨a, ha, _, _⟩ := acc_v_foldlM_spec ad.nclasses.toNat ad.samples
    (⟨0, fun _ => 0, fun _ => 0, fun _ => some 0, fun _ => 0⟩ : AccVAcc) hshape
  have hb : (ad.batch_size : ℚ) ≠ 0 := by
    unfold VBatch.batch_size
    have : ad.samples.length ≠ 0 := fun h0 => hne (List.length_eq_zero.1 h0)
    exact_mod_cast this
  unfold acc_v
  simp only [if_neg (not_lt.2 hn), bind, Except.bind, pure, Except.pure, ha]
  refine ⟨_, rfl, ?_⟩
  simp only [fdiv, if_neg hb]
  rfl

/-- C22, counterexample. On batches with in-range targets: `mf1` divides the column of
the class that is no target by its sum 0, and the column is not a number;
`multilabel_acc` divides `count_pos` by `tp`, both 0, and `harmmean` is not a number;
`acc_v` divides by the number 0 of the classes predicted correctly at least once,
and `meanacc` is not a number, and by the sum 0 of the counts of a class that is
neither a target nor predicted, and `meaniou` is not a number. -/
theorem unguarded_divisions :
    (mf1 unseen_class_batch).toOption.map (fun res => res.conf_matrix)
      = some [[some 1, none], [some 0, none]] ∧
    (multilabel_acc one_negative_batch).toOption.map (fun res => res.harmmean) = some none ∧
    (acc_v no_hit_batch).toOption.map (fun res => res.meanacc) = some none ∧
    (acc_v absent_class_batch).toOption.map (fun res => res.meaniou) = some none := by
  decide!

/-- C22, amended. On batches with at least one sample and in-range targets, these
divisions of the metrics have a denominator that is not zero or are guarded, and
their results are numbers: in `mf1` the accuracy (by the batch total), precision,
recall and the normalised diagonal (by sums plus `1e-8`, and by the class count); in
`mcc` the coefficient (a zero denominator is replaced by 1; `sqrt` is `std::sqrt`,
not zero above 0); in `auc` the area (binary targets with both classes, or 1 before
any division); in `mcll` the mean (by the batch size, for target probabilities above
0); in `multilabel_acc` the sensitivity, specificity, precision and f1 (0 in place
of a division by a zero count); in `eucll` the mean and in `acc_v` the pixel
accuracy (by the batch size). -/
theorem guarded_divisions (sqrt log : ℚ → ℚ) (ad : EvalBatch) (pred targets : List ℚ)
    (ml seg : VBatch) (reg : List RegSample)
    (hne : ad.samples ≠ [])
    (hwf : ∀ bad ∈ ad.samples,
      0 ≤ bad.target ∧ bad.target < ad.nclasses ∧ (bad.pred.length : Int) ≤ ad.nclasses) :
    (∃ res, mf1 ad = .ok res ∧ res.acc.isSome = true ∧ res.precision.isSome = true ∧
      res.recall_.isSome = true ∧ ∀ d ∈ res.conf_diag, d.isSome = true) ∧
    ((∀ x, 0 < x → sqrt x ≠ 0) → ad.nclasses = 2 → ∃ v, mcc sqrt ad = .ok (some v)) ∧
    (pred.length ≤ targets.length → (∀ t ∈ targets, t = 0 ∨ t = 1) →
      2 * positives (scored pred targets) * negatives (scored pred targets) < 2147483648 →
      ∃ v, auc pred targets = .ok (some v)) ∧
    ((∀ bad ∈ ad.samples, ∃ p, bad.pred[(to_int bad.target).toNat]? = some p ∧ 0 < p) →
      ∃ v, mcll log ad = .ok (some v)) ∧
    ((∀ bad ∈ ml.samples, bad.pred.length ≤ bad.target.length) →
      ∃ res, multilabel_acc ml = .ok res ∧ res.sensitivity.isSome = true ∧
        res.specificity.isSome = true ∧ res.precision.isSome = true ∧
        res.f1.isSome = true) ∧
    (reg ≠ [] → (∀ bad ∈ reg, EucllShaped bad) → ∃ v, eucll reg = .ok (some v)) ∧
    (0 ≤ seg.nclasses → seg.samples ≠ [] → (∀ bad ∈ seg.samples, PixelShaped bad) →
      ∃ res, acc_v seg = .ok res ∧ res.acc.isSome = true) := by
  refine ⟨mf1_guarded ad hne hwf, ?_, ?_, ?_, ?_, ?_, ?_⟩
  · intro hsqrt h2
    exact mcc_guarded sqrt ad hsqrt h2 hwf
  · intro hlen hbin hfit
    exact auc_guarded pred targets hlen hbin hfit
  · intro hp
    exact mcll_guarded log ad hne (fun bad hb => ⟨(hwf bad hb).1, hp bad hb⟩)
  · intro hml
    obtain ⟨res, hrun, hs, hsp, hpr, hf⟩ := multilabel_acc_values ml hml
    exact ⟨res, hrun, by rw [hs]; rfl, by rw [hsp]; rfl, by rw [hpr]; rfl, by rw [hf]; rfl⟩
  · intro hr hshape
    have hlen : ((reg.length : Int) : ℚ) ≠ 0 := by
      have : reg.length ≠ 0 := fun h0 => hr (List.length_eq_zero.1 h0)
      exact_mod_cast this
    refine ⟨(reg.map sq_err).sum / ((reg.length : Int) : ℚ), ?_⟩
    unfold eucll
    rw [eucll_foldlM_eq reg 0 hshape]
    simp only [bind, Except.bind, pure, Except.pure, fdiv, if_neg hlen, zero_add]
  · intro hn hs hshape
    exact acc_v_guarded seg hn hs hshape

theorem guarded_divisions_witness :
    mixed_batch.samples ≠ [] ∧
    (∀ bad ∈ mixed_batch.samples, 0 ≤ bad.target ∧ bad.target < mixed_batch.nclasses ∧
      (bad.pred.length : Int) ≤ mixed_batch.nclasses) ∧
    (∃ res, mf1 mixed_batch = .ok res ∧ res.acc.isSome = true ∧
      res.precision.isSome = true ∧ res.recall_.isSome = true ∧
      ∀ d ∈ res.conf_diag, d.isSome = true) ∧
    (∃ v, mcc sqrt_model mixed_batch = .ok (some v)) ∧
    (∃ v, auc [1 / 10, 4 / 10, 4 / 10, 8 / 10] [0, 1, 0, 1] = .ok (some v)) ∧
    (∃ v, mcll log_model mixed_batch = .ok (some v)) ∧
    (∃ res, multilabel_acc one_negative_batch = .ok res ∧ res.sensitivity.isSome = true ∧
      res.specificity.isSome = true ∧ res.precision.isSome = true ∧
      res.f1.isSome = true) ∧
    (∃ v, eucll eucl_batch = .ok (some v)) ∧
    (∃ res, acc_v absent_class_batch = .ok res ∧ res.acc.isSome = true) :=
  have h := guarded_divisions sqrt_model log_model mixed_batch
    [1 / 10, 4 / 10, 4 / 10, 8 / 10] [0, 1, 0, 1] one_negative_batch absent_class_batch
    eucl_batch (by decide) (by decide!)
  ⟨by decide, by decide!, h.1, h.2.1 sqrt_model_ne_zero rfl,
    h.2.2.1 (by decide) (by decide) (by decide!),
    h.2.2.2.1 (by decide!),
    h.2.2.2.2.1 (by decide),
    h.2.2.2.2.2.1 (by decide)
      (by intro bad hb
          simp only [eucl_batch, List.mem_cons, List.mem_singleton, List.not_mem_nil,
            or_false] at hb
          rcases hb with rfl | rfl <;> simp [EucllShaped]),
    h.2.2.2.2.2.2 (by decide) (by decide)
      (by intro bad hb
          simp only [absent_class_batch, List.mem_singleton] at hb
          subst hb
          exact ⟨by simp, rfl⟩)⟩

/-! ## The dedup key of `best_cats` -/

theorem sqrt_model_natCast (n : ℕ) : sqrt_model (n : ℚ) = (Nat.sqrt n : ℚ) := by
  unfold sqrt_model
  simp [Nat.sqrt_one]

theorem sqrt_model_sq (n : ℕ) : sqrt_model ((n : ℚ) * n) = n := by
  have h : ((n : ℚ) * n) = ((n * n : ℕ) : ℚ) := by push_cast; ring
  rw [h, sqrt_model_natCast, Nat.sqrt_eq]

theorem sqrt_model_mono (m n : ℕ) (h : m ≤ n) : sqrt_model (m : ℚ) ≤ sqrt_model (n : ℚ) := by
  rw [sqrt_model_natCast, sqrt_model_natCast]
  exact_mod_cast Nat.sqrt_le_sqrt h

theorem mcc_numerator_sq_le (tp tn fp fn : ℚ) (h1 : 0 ≤ tp) (h2 : 0 ≤ tn) (h3 : 0 ≤ fp)
    (h4 : 0 ≤ fn) :
    (tp * tn - fp * fn) ^ 2 ≤ (tp + fp) * (tp + fn) * (tn + fp) * (tn + fn) := by
  have key : (tp + fp) * (tp + fn) * (tn + fp) * (tn + fn) - (tp * tn - fp * fn) ^ 2
      = tp * tp * tn * fp + tp * tp * tn * fn + tp * tp * fp * fn + tp * tn * tn * fp
        + tp * tn * tn * fn + tp * tn * fp * fp + 4 * (tp * tn * fp * fn) + tp * tn * fn * fn
        + tp * fp * fp * fn + tp * fp * fn * fn + tn * tn * fp * fn + tn * fp * fp * fn
        + tn * fp * fn * fn := by ring
  have hpos : 0 ≤ (tp + fp) * (tp + fn) * (tn + fp) * (tn + fn) - (tp * tn - fp * fn) ^ 2 := by
    rw [key]; positivity
  linarith

theorem sqrt_one_of_sq (sqrt : ℚ → ℚ) (hsq : ∀ n : ℕ, sqrt ((n : ℚ) * n) = n) :
    sqrt 1 = 1 := by
  have h := hsq 1
  simpa using h

theorem mcc_quotient_bounds (sqrt : ℚ → ℚ) (hsq : ∀ n : ℕ, sqrt ((n : ℚ) * n) = n)
    (hmono : ∀ m n : ℕ, m ≤ n → sqrt (m : ℚ) ≤ sqrt (n : ℚ)) (tp tn fn fp : ℕ) :
    sqrt (if ((tp : ℚ) + fp) * (tp + fn) * (tn + fp) * (tn + fn) = 0 then 1
        else ((tp : ℚ) + fp) * (tp + fn) * (tn + fp) * (tn + fn)) ≠ 0 ∧
    -1 ≤ ((tp : ℚ) * tn - fp * fn)
      / sqrt (if ((tp : ℚ) + fp) * (tp + fn) * (tn + fp) * (tn + fn) = 0 then 1
          else ((tp : ℚ) + fp) * (tp + fn) * (tn + fp) * (tn + fn)) ∧
    ((tp : ℚ) * tn - fp * fn)
      / sqrt (if ((tp : ℚ) + fp) * (tp + fn) * (tn + fp) * (tn + fn) = 0 then 1
          else ((tp : ℚ) + fp) * (tp + fn) * (tn + fp) * (tn + fn)) ≤ 1 := by
  have hle := mcc_numerator_sq_le (tp : ℚ) tn fp fn (Nat.cast_nonneg _) (Nat.cast_nonneg _)
    (Nat.cast_nonneg _) (Nat.cast_nonneg _)
  have hm : (((((tp : ℤ) * tn - fp * fn).natAbs : ℕ)) : ℚ) = |(tp : ℚ) * tn - fp * fn| := by
    rw [Nat.cast_natAbs, Int.cast_abs]
    push_cast
    rfl
  generalize ((tp : ℤ) * tn - fp * fn).natAbs = m at hm
  have hmm : (m : ℚ) * m = ((tp : ℚ) * tn - fp * fn) ^ 2 := by
    rw [hm, abs_mul_abs_self]; ring
  have hs1 : sqrt 1 = 1 := sqrt_one_of_sq sqrt hsq
  have hcast : ((tp : ℚ) + fp) * (tp + fn) * (tn + fp) * (tn + fn)
      = (((tp + fp) * (tp + fn) * (tn + fp) * (tn + fn) : ℕ) : ℚ) := by push_cast; ring
  have habs : |(tp : ℚ) * tn - fp * fn|
      ≤ sqrt (if ((tp : ℚ) + fp) * (tp + fn) * (tn + fp) * (tn + fn) = 0 then 1
          else ((tp : ℚ) + fp) * (tp + fn) * (tn + fp) * (tn + fn)) ∧
      1 ≤ sqrt (if ((tp : ℚ) + fp) * (tp + fn) * (tn + fp) * (tn + fn) = 0 then 1
          else ((tp : ℚ) + fp) * (tp + fn) * (tn + fp) * (tn + fn)) := by
    by_cases hden : ((tp : ℚ) + fp) * (tp + fn) * (tn + fp) * (tn + fn) = 0
    · rw [if_pos hden, hs1]
      have hnum := mcc_numerator_zero (tp : ℚ) tn fp fn (Nat.cast_nonneg _)
        (Nat.cast_nonneg _) (Nat.cast_nonneg _) (Nat.cast_nonneg _) hden
      rw [hnum]
      simp
    · rw [if_neg hden, hcast]
      rw [hcast] at hden hle
      generalize (tp + fp) * (tp + fn) * (tn + fp) * (tn + fn) = D at hden hle
      have hD : 1 ≤ D := by
        rcases Nat.eq_zero_or_pos D with h | h
        · exact absurd (by rw [h]; simp) hden
        · exact h
      have hmD : m * m ≤ D := by
        have : ((m * m : ℕ) : ℚ) ≤ (D : ℚ) := by
          push_cast; rw [hmm]; exact hle
        exact_mod_cast this
      have h1 := hmono (m * m) D hmD
      have h2 := hmono 1 D hD
      rw [Nat.cast_mul, hsq m, hm] at h1
      rw [Nat.cast_one, hs1] at h2
      exact ⟨h1, h2⟩
  obtain ⟨hb, h1⟩ := habs
  generalize sqrt (if ((tp : ℚ) + fp) * (tp + fn) * (tn + fp) * (tn + fn) = 0 then 1
    else ((tp : ℚ) + fp) * (tp + fn) * (tn + fp) * (tn + fn)) = s at hb h1
  have hs : 0 < s := lt_of_lt_of_le zero_lt_one h1
  have hq := abs_le.1 hb
  refine ⟨ne_of_gt hs, ?_, ?_⟩
  · rw [le_div_iff₀ hs]; linarith [hq.1]
  · rw [div_le_iff₀ hs]; linarith [hq.2]

theorem mcc_quotient_perfect (sqrt : ℚ → ℚ) (hsq : ∀ n : ℕ, sqrt ((n : ℚ) * n) = n)
    (tp tn : ℕ) (h1 : 0 < tp) (h2 : 0 < tn) :
    ((tp : ℚ) * tn - 0 * 0)
      / sqrt (if ((tp : ℚ) + 0) * (tp + 0) * (tn + 0) * (tn + 0) = 0 then 1
          else ((tp : ℚ) + 0) * (tp + 0) * (tn + 0) * (tn + 0)) = 1 := by
  have hp : (0 : ℚ) < (tp : ℚ) * tn := by
    have a1 : (0 : ℚ) < tp := by exact_mod_cast h1
    have a2 : (0 : ℚ) < tn := by exact_mod_cast h2
    positivity
  have hden : ((tp : ℚ) + 0) * (tp + 0) * (tn + 0) * (tn + 0)
      = (((tp * tn : ℕ) : ℚ)) * ((tp * tn : ℕ) : ℚ) := by push_cast; ring
  have hne : (((tp * tn : ℕ) : ℚ)) * ((tp * tn : ℕ) : ℚ) ≠ 0 := by
    push_cast; exact ne_of_gt (by positivity)
  rw [hden, if_neg hne, hsq (tp * tn)]
  push_cast
  rw [mul_zero, sub_zero]
  exact div_self (ne_of_gt hp)

theorem conf_fill_ok_eq (ad : EvalBatch) (C : dMat) (hC : conf_fill ad = .ok C) :
    C = conf_count ad.samples := by
  rw [conf_fill_eq] at hC
  split at hC
  · cases hC
  · split at hC
    · cases hC
    · exact (Except.ok.inj hC).symm

/-- C32. On a batch with two classes, whenever the loop of `mcc` fills the confusion
matrix `C` (it does when every target is in range and no sample has more than two
predictions; otherwise `mcc` fails and returns nothing), the counts `tp = C(0,0)`,
`tn = C(1,1)`, `fn = C(0,1)`, `fp = C(1,0)` satisfy
`(tp*tn - fp*fn)^2 ≤ (tp+fp)(tp+fn)(tn+fp)(tn+fn)`, and `mcc` returns a number in
`[-1, 1]`, which is 1 when `fp = fn = 0` and `tp, tn > 0`.  Of `std::sqrt` the proof
uses that it is exact on the squares of whole numbers and monotone on the whole
numbers. -/
theorem mcc_within_unit_interval (sqrt : ℚ → ℚ) (ad : EvalBatch)
    (hsq : ∀ n : ℕ, sqrt ((n : ℚ) * n) = n)
    (hmono : ∀ m n : ℕ, m ≤ n → sqrt (m : ℚ) ≤ sqrt (n : ℚ))
    (h2 : ad.nclasses = 2) :
    (∀ C, conf_fill ad = .ok C →
      (C 0 0 * C 1 1 - C 1 0 * C 0 1) ^ 2
        ≤ (C 0 0 + C 1 0) * (C 0 0 + C 0 1) * (C 1 1 + C 1 0) * (C 1 1 + C 0 1) ∧
      ∃ q, mcc sqrt ad = .ok (some q) ∧ -1 ≤ q ∧ q ≤ 1 ∧
        (C 1 0 = 0 → C 0 1 = 0 → 0 < C 0 0 → 0 < C 1 1 → q = 1)) ∧
    (∀ e, conf_fill ad = .error e → mcc sqrt ad = .error e) ∧
    ((∀ bad ∈ ad.samples,
        0 ≤ bad.target ∧ bad.target < ad.nclasses ∧ (bad.pred.length : Int) ≤ ad.nclasses) →
      ∃ C, conf_fill ad = .ok C) := by
  refine ⟨?_, fun e he => mcc_of_conf_error sqrt ad e he, ?_⟩
  · intro C hC
    have hCe := conf_fill_ok_eq ad C hC
    subst hCe
    refine ⟨mcc_numerator_sq_le _ _ _ _ (conf_count_nonneg _ _ _) (conf_count_nonneg _ _ _)
      (conf_count_nonneg _ _ _) (conf_count_nonneg _ _ _), ?_⟩
    unfold mcc
    rw [hC]
    simp only [Except.bind, bind, pure, Except.pure]
    rw [if_neg (by rw [h2]; decide)]
    obtain ⟨tp, htp⟩ : ∃ n : ℕ, conf_count ad.samples 0 0 = (n : ℚ) := ⟨_, rfl⟩
    obtain ⟨tn, htn⟩ : ∃ n : ℕ, conf_count ad.samples 1 1 = (n : ℚ) := ⟨_, rfl⟩
    obtain ⟨fn, hfn⟩ : ∃ n : ℕ, conf_count ad.samples 0 1 = (n : ℚ) := ⟨_, rfl⟩
    obtain ⟨fp, hfp⟩ : ∃ n : ℕ, conf_count ad.samples 1 0 = (n : ℚ) := ⟨_, rfl⟩
    rw [htp, htn, hfn, hfp]
    obtain ⟨hne, hlo, hhi⟩ := mcc_quotient_bounds sqrt hsq hmono tp tn fn fp
    unfold fdiv
    rw [if_neg hne]
    refine ⟨_, rfl, hlo, hhi, ?_⟩
    intro h10 h01 h00 h11
    have hfp0 : fp = 0 := by exact_mod_cast h10
    have hfn0 : fn = 0 := by exact_mod_cast h01
    have htp0 : 0 < tp := by exact_mod_cast h00
    have htn0 : 0 < tn := by exact_mod_cast h11
    subst hfp0 hfn0
    simp only [Nat.cast_zero]
    exact mcc_quotient_perfect sqrt hsq tp tn htp0 htn0
  · intro hwf
    refine ⟨conf_count ad.samples, ?_⟩
    rw [conf_fill_eq, if_neg (by rw [h2]; decide),
      findSome?_conf_check_none ad.nclasses ad.samples hwf]

theorem mcc_within_unit_interval_witness :
    (∀ n : ℕ, sqrt_model ((n : ℚ) * n) = n) ∧
    (∀ m n : ℕ, m ≤ n → sqrt_model (m : ℚ) ≤ sqrt_model (n : ℚ)) ∧
    balanced_batch.nclasses = 2 ∧
    mcc sqrt_model balanced_batch = .ok (some (1 / 3)) ∧
    mcc sqrt_model sure_batch = .ok (some 1) ∧
    ((∀ C, conf_fill balanced_batch = .ok C →
      (C 0 0 * C 1 1 - C 1 0 * C 0 1) ^ 2
        ≤ (C 0 0 + C 1 0) * (C 0 0 + C 0 1) * (C 1 1 + C 1 0) * (C 1 1 + C 0 1) ∧
      ∃ q, mcc sqrt_model balanced_batch = .ok (some q) ∧ -1 ≤ q ∧ q ≤ 1 ∧
        (C 1 0 = 0 → C 0 1 = 0 → 0 < C 0 0 → 0 < C 1 1 → q = 1)) ∧
    (∀ e, conf_fill balanced_batch = .error e → mcc sqrt_model balanced_batch = .error e) ∧
    ((∀ bad ∈ balanced_batch.samples,
        0 ≤ bad.target ∧ bad.target < balanced_batch.nclasses
          ∧ (bad.pred.length : Int) ≤ balanced_batch.nclasses) →
      ∃ C, conf_fill balanced_batch = .ok C)) :=
  ⟨sqrt_model_sq, sqrt_model_mono, rfl, by decide!, by decide!,
    mcc_within_unit_interval sqrt_model balanced_batch sqrt_model_sq sqrt_model_mono rfl⟩

/-! ## The Gini coefficient: `gini` -/

theorem mapM_gini_entry_false (samples : List Sample) :
    samples.mapM (gini_entry false)
      = .ok (samples.map (fun bad => (((max_element bad.pred : Nat) : ℚ), (0 : ℚ)))) := by
  induction samples with
  | nil => rfl
  | cons bad samples ih =>
    rw [List.mapM_cons, ih]
    rfl

theorem comp_gini_ok (a p : List ℚ) (h : a.length ≤ p.length) :
    ∃ v, comp_gini a p = .ok v := by
  unfold comp_gini
  rw [if_neg (not_lt.2 h)]
  exact ⟨_, rfl⟩

theorem comp_gini_normalized_ok (a p : List ℚ) (h : a.length ≤ p.length) :
    ∃ v, comp_gini_normalized a p = .ok v := by
  obtain ⟨x, hx⟩ := comp_gini_ok a p h
  obtain ⟨y, hy⟩ := comp_gini_ok a a (le_refl _)
  unfold comp_gini_normalized
  rw [hx, hy]
  exact ⟨_, rfl⟩

theorem gini_false_eq (ad : EvalBatch) :
    gini ad false = comp_gini_normalized
      (ad.samples.map (fun bad => ((max_element bad.pred : Nat) : ℚ)))
      (List.replicate ad.samples.length 0) := by
  unfold gini
  rw [mapM_gini_entry_false]
  show comp_gini_normalized _ _ = _
  rw [List.map_map, List.map_map]
  congr 1
  rw [List.eq_replicate_iff]
  simp

/-- C33. In classification mode (`regression = false`) `gini` returns a value, and
the value does not depend on the targets: two batches with the same prediction
vectors, sample by sample, and whatever targets have the same result.  The vector
`a` holds the position of the largest prediction of each sample and the vector `p`
is all zeros. -/
theorem gini_classification_ignores_targets (ad₁ ad₂ : EvalBatch)
    (hpred : ad₁.samples.map Sample.pred = ad₂.samples.map Sample.pred) :
    gini ad₁ false = gini ad₂ false ∧
    (∃ v, gini ad₁ false = .ok v) ∧
    gini ad₁ false = comp_gini_normalized
      (ad₁.samples.map (fun bad => ((max_element bad.pred : Nat) : ℚ)))
      (List.replicate ad₁.samples.length 0) := by
  have hlen : ad₁.samples.length = ad₂.samples.length := by
    simpa using congrArg List.length hpred
  have hmap : ad₁.samples.map (fun bad => ((max_element bad.pred : Nat) : ℚ))
      = ad₂.samples.map (fun bad => ((max_element bad.pred : Nat) : ℚ)) := by
    have := congrArg (List.map (fun v : List ℚ => ((max_element v : Nat) : ℚ))) hpred
    simpa [List.map_map, Function.comp] using this
  refine ⟨?_, ?_, gini_false_eq ad₁⟩
  · rw [gini_false_eq, gini_false_eq, hmap, hlen]
  · rw [gini_false_eq]
    exact comp_gini_normalized_ok _ _ (by simp)

theorem gini_classification_ignores_targets_witness :
    gini_batch.samples.map Sample.pred = gini_batch_retargeted.samples.map Sample.pred ∧
    gini_batch.samples.map Sample.target ≠ gini_batch_retargeted.samples.map Sample.target ∧
    gini gini_batch false = .ok (some (-1)) ∧
    (gini gini_batch false = gini gini_batch_retargeted false ∧
      (∃ v, gini gini_batch false = .ok v) ∧
      gini gini_batch false = comp_gini_normalized
        (gini_batch.samples.map (fun bad => ((max_element bad.pred : Nat) : ℚ)))
        (List.replicate gini_batch.samples.length 0)) :=
  ⟨by decide, by decide, by decide!,
    gini_classification_ignores_targets gini_batch gini_batch_retargeted (by decide)⟩

end SupervisedOutput

end dd
